import Mathlib

/-!
# RandLAPACK `util` : buffer utilities and diagnostics

A shallow embedding of the routines of `RandLAPACK/comps/rl_util.hh` and of the solver
`pcg` of `src/comps/determiter.cc`, together with the properties established about them.

Conventions of the embedding.

* `std::vector<T>` and raw `T*` buffers are lists; the element type `T` is an
  arbitrary (ordered) field, so arithmetic is exact.
* `int64_t` sizes and loop counters that the source only uses as counts are natural
  numbers; where the source subtracts or divides signed values (`rank_search_binary`,
  the entries of `idx` in `col_swap`, the return value of `rank_check`) they are
  integers.  No value comes near `2^63`, so no wrap-around is modelled.
* An access outside a buffer is undefined behaviour in the source.  The embedding
  reads `0` there and drops the store; every theorem states the size conditions
  under which all accesses are inside the buffer.
* Loops that the source does not bound (`while` in `rank_search_binary`) take a fuel
  argument and return `none` when it runs out.
* BLAS/LAPACK routines are not part of the repository; `blas::copy`, `blas::swap`,
  `blas::gemv`, `blas::axpy`, `blas::dot` and `std::fill` are embedded as the
  element-by-element loops of the reference implementation, and `lapack::lange`,
  `blas::nrm2` and the singular values returned by `lapack::gesdd` are parameters.
* `std::pow`, `log2`, `log` and `exp` are parameters of the profile generators; statements
  "in exact real arithmetic" instantiate them with the functions on the real numbers.  The
  random orthogonal embedding `gen_mat` is a parameter as well, and so are the other
  routines that draw random numbers (`mat_gen_backend`).
-/

namespace RandLAPACK
namespace util

/-! ## `rank_search_binary` -/

section rank_search

variable {T : Type} [LinearOrder T] [Mul T]

/-- The `while` loop of the base case of `rank_search_binary`:
`while (norm_R_sub > tau_trunc * norm_A) { ++k; norm_R_sub = lange(.. k ..); }`, returning
the `k` at which the loop stops.  `lange_sub n k` is the value of
`lapack::lange(Norm::Fro, n - k, n, &A_dat[k * n], n - k)` for the matrix at hand. -/
def rank_search_walk (lange_sub : Int → Int → T) (n : Int) (norm_A tau_trunc : T) :
    Nat → Int → Option Int
  | 0, _ => none
  | fuel + 1, k =>
    if lange_sub n k > tau_trunc * norm_A then
      rank_search_walk lange_sub n norm_A tau_trunc fuel (k + 1)
    else some k

/-- Embedding of `rank_search_binary(lo, hi, k, n, norm_A, tau_trunc, A_dat)`.  The matrix
enters only through the trailing-block norm `lange_sub n k`.  `Int.tdiv` is the
truncating division of C++. Every recursive call and every loop iteration uses one
unit of fuel. -/
def rank_search_binary (lange_sub : Int → Int → T) :
    Nat → Int → Int → Int → Int → T → T → Option Int
  | 0, _, _, _, _, _, _ => none
  | fuel + 1, lo, hi, k, n, norm_A, tau_trunc =>
    let norm_R_sub := lange_sub n k
    if (k - lo).tdiv 2 = 0 then
      rank_search_walk lange_sub n norm_A tau_trunc fuel k
    else if norm_R_sub > tau_trunc * norm_A then
      rank_search_binary lange_sub fuel k hi (k + (k - lo).tdiv 2) n norm_A tau_trunc
    else
      rank_search_binary lange_sub fuel lo k (lo + (k - lo).tdiv 2) n norm_A tau_trunc

end rank_search

/-! ## Loops and the BLAS primitives used by the buffer utilities -/

section primitives

/-- The loop `for (t = 0; t < n; ++t) s = body t s`. -/
def forUp {σ : Type} (body : Nat → σ → σ) : Nat → σ → σ
  | 0, s => s
  | n + 1, s => body n (forUp body n s)

variable {T : Type} [Zero T]

/-- Value of `A[p]` for a signed offset `p`. -/
def rdAt (A : List T) (p : Int) : T :=
  if 0 ≤ p then A.getD p.toNat 0 else 0

/-- Store `A[p] = v` for a signed offset `p`. -/
def wrAt (A : List T) (p : Int) (v : T) : List T :=
  if 0 ≤ p then A.set p.toNat v else A

/-- `blas::copy(n, &A[x], 1, &A[y], 1)` with source and destination in the same buffer:
`A[y + t] = A[x + t]` for `t = 0, 1, .., n - 1` in this order. -/
def blas_copy (n : Nat) (A : List T) (x y : Nat) : List T :=
  forUp (fun t B => B.set (y + t) (B.getD (x + t) 0)) n A

/-- `blas::copy(n, &A[x], -1, &A[y], -1)` with source and destination in the same buffer.
With both increments negative the reference routine starts at the last element of each
vector and steps down: `A[y + t] = A[x + t]` for `t = n - 1, n - 2, .., 0` in this order. -/
def blas_copy_rev (n : Nat) (A : List T) (x y : Nat) : List T :=
  forUp (fun c B => B.set (y + (n - 1 - c)) (B.getD (x + (n - 1 - c)) 0)) n A

/-- `std::fill(&A[first], &A[last], v)` for `first ≤ last`.  A range with `last < first`
is undefined behaviour in the source; the embedding stores nothing for it. -/
def std_fill (A : List T) (first last : Nat) (v : T) : List T :=
  forUp (fun t B => B.set (first + t) v) (last - first) A

/-- `blas::swap(n, &A[x], 1, &A[y], 1)` with both vectors in the same buffer: exchanges
`A[x + t]` and `A[y + t]` for `t = 0, 1, .., n - 1`. -/
def blas_swap (n : Nat) (A : List T) (x y : Int) : List T :=
  forUp (fun t B => wrAt (wrAt B (x + t) (rdAt B (y + t))) (y + t) (rdAt B (x + t))) n A

end primitives

/-! ## Buffer utilities -/

section buffer_utilities

variable {T : Type} [Zero T]

/-- The inner loop of `col_swap`,
`for (l = i; l < k; ++l) if (idx[l] == i + 1) { idx[l] = j + 1; break; }`;
the first argument counts the values of `l` still to be visited. -/
def col_swap_fix (i : Nat) (j : Int) : Nat → Nat → List Int → List Int
  | 0, _, idx => idx
  | cnt + 1, l, idx =>
    if idx.getD l 0 = (i : Int) + 1 then idx.set l (j + 1)
    else col_swap_fix i j cnt (l + 1) idx

/-- Body of the outer loop of `col_swap` for one value of `i`, on the pair `(A, idx)`. -/
def col_swap_step (m k : Nat) (i : Nat) (st : List T × List Int) : List T × List Int :=
  let j : Int := st.2.getD i 0 - 1
  let A := blas_swap m st.1 ((i : Int) * m) (j * m)
  let idx := col_swap_fix i j (k - i) i st.2
  (A, idx.set i ((i : Int) + 1))

/-- Embedding of `col_swap(m, n, k, A, idx)`; the result is the buffer `A` after the call
(`idx` is passed by value).  The source's `if (k > n)` has an empty body, so `n` plays no
part. -/
def col_swap (m n k : Nat) (A : List T) (idx : List Int) : List T :=
  (forUp (col_swap_step m k) k (A, idx)).1

/-- Embedding of `upsize(target_sz, A)`: the vector `A` after the call. -/
def upsize (target_sz : Nat) (A : List T) : List T :=
  if A.length < target_sz then A ++ List.replicate (target_sz - A.length) 0 else A

/-- Embedding of `row_resize(m, n, A, k)`: the vector `A` after the call.  In the first
loop `i` runs over `1, .., n - 1` and `end` is `k * i`; in the second `i` runs over
`n - 1, .., 1` and `end` is `k * i` again. -/
def row_resize (m n : Nat) (A : List T) (k : Nat) : List T :=
  if m > k then
    (forUp (fun c (st : List T × Nat) =>
        let i := c + 1
        (blas_copy k st.1 (m * i) st.2, st.2 + k)) (n - 1) (A, k)).1
  else
    let A_dat := upsize (k * n) A
    (forUp (fun c (st : List T × Nat) =>
        let i := n - 1 - c
        (std_fill (blas_copy_rev m st.1 (m * i) st.2) (m * i) st.2 0, st.2 - k))
      (n - 1) (A_dat, k * (n - 1))).1

end buffer_utilities

/-! ## Diagnostics and normalisation -/

section diagnostics

variable {T : Type} [LinearOrderedField T]

/-- The loop of `rank_check`,
`for (i = 0; i < n; ++i) if (s[i] / s[0] <= 5 * eps) return i - 1;` followed by `return n;`.
The first argument counts the values of `i` still to be visited; `eps` stands for
`std::numeric_limits<T>::epsilon()`.  The quotient is the one of the field, so the embedding
describes the source for `s[0] ≠ 0` only: with `s[0] = 0` the floating-point quotient of the
source is a NaN or an infinity, which a field does not have. -/
def rank_check_loop (s : List T) (eps : T) (n : Nat) : Nat → Nat → Int
  | 0, _ => (n : Int)
  | cnt + 1, i =>
    if s.getD i 0 / s.getD 0 0 ≤ 5 * eps then (i : Int) - 1
    else rank_check_loop s eps n cnt (i + 1)

/-- Embedding of `rank_check(m, n, A)`.  `cond_num_check_s m n A` is the content of the
vector `s` after `cond_num_check(m, n, A, A_pre_cpy, s, false)`, that is, the singular
values `lapack::gesdd` returns for `A`. -/
def rank_check (cond_num_check_s : Nat → Nat → List T → List T) (eps : T)
    (m n : Nat) (A : List T) : Int :=
  let s := cond_num_check_s m n A
  rank_check_loop s eps n n 0

/-- Number of indices `i < n` with `s[i] / s[0] > 5 * eps`. -/
def significant_count (s : List T) (eps : T) (n : Nat) : Nat :=
  ((List.range n).filter (fun i => decide (s.getD i 0 / s.getD 0 0 > 5 * eps))).length

end diagnostics

section normalisation

variable {T : Type} [Field T] [DecidableEq T]

/-- Embedding of `normc(m, n, A, A_norm)` that also records every divisor: the first
component is the vector `A_norm` after the call, the second lists the value of `col_nrm` at
each division `A[m * i + j] / col_nrm` that is carried out.  `nrm2 v` stands for
`blas::nrm2` applied to the column `v`. -/
def normc_run (nrm2 : List T → T) (m n : Nat) (A A_norm : List T) : List T × List T :=
  forUp (fun i (st : List T × List T) =>
      let col_nrm := nrm2 ((List.range m).map (fun t => A.getD (m * i + t) 0))
      if col_nrm ≠ 0 then
        forUp (fun j (st : List T × List T) =>
          (st.1.set (m * i + j) (A.getD (m * i + j) 0 / col_nrm), st.2 ++ [col_nrm])) m st
      else st)
    n (upsize (m * n) A_norm, [])

/-- Embedding of `normc(m, n, A, A_norm)`: the vector `A_norm` after the call. -/
def normc (nrm2 : List T → T) (m n : Nat) (A A_norm : List T) : List T :=
  (normc_run nrm2 m n A A_norm).1

end normalisation

/-! ## Further buffer utilities -/

section more_primitives

variable {T : Type} [Zero T]

/-- `blas::copy(n, &X[x], incx, &Y[y], incy)` between two different buffers, for positive
increments: `Y[y + t * incy] = X[x + t * incx]` for `t = 0, 1, .., n - 1`.  The result is
the buffer `Y` after the call. -/
def blas_copy_to (n : Nat) (X : List T) (x incx : Nat) (Y : List T) (y incy : Nat) : List T :=
  forUp (fun t B => B.set (y + t * incy) (X.getD (x + t * incx) 0)) n Y

/-- `A.resize(sz)` of `std::vector`: the first `sz` elements are kept and new elements are
value-initialised. -/
def vector_resize (sz : Nat) (A : List T) : List T :=
  A.take sz ++ List.replicate (sz - A.length) 0

/-- `lapack::lacpy(MatrixType::General, m, n, A, lda, B, ldb)`: `B[i + ldb * j] = A[i + lda * j]`
for `i < m`, `j < n`.  The result is the buffer `B` after the call. -/
def lacpy_general (m n : Nat) (A : List T) (lda : Nat) (B : List T) (ldb : Nat) : List T :=
  forUp (fun j B => blas_copy_to m A (lda * j) 1 B (ldb * j) 1) n B

end more_primitives

section more_buffer_utilities

variable {T : Type} [Zero T]

/-- Embedding of `eat_lda_slack(buff, vec_len, num_vecs, inter_vec_stride)`: the buffer
after the call.  The state of the loop is the pair `(buff, work)`. -/
def eat_lda_slack (buff : List T) (vec_len num_vecs inter_vec_stride : Nat) : List T :=
  if vec_len = inter_vec_stride then buff
  else
    (forUp (fun i (st : List T × List T) =>
        let work := blas_copy_to vec_len st.1 (i * inter_vec_stride) 1 st.2 0 1
        (blas_copy_to vec_len work 0 1 st.1 (i * vec_len) 1, work))
      num_vecs (buff, List.replicate vec_len 0)).1

/-- Embedding of `get_L(m, n, A, overwrite_diagonal)`: the buffer after the call. -/
def get_L [One T] (m n : Nat) (A : List T) (overwrite_diagonal : Int) : List T :=
  forUp (fun i B =>
      let B := std_fill B (m * i) (i + m * i) 0
      if overwrite_diagonal ≠ 0 then B.set (i + m * i) 1 else B) n A

/-- Embedding of the in-place overload `get_U(m, n, A)` ("Zeros-out the lower-triangular
portion of A"): the buffer after the call. -/
def get_U (m n : Nat) (A : List T) : List T :=
  forUp (fun i B => std_fill B (i * (m + 1) + 1) ((i + 1) * m) 0) (n - 1) A

/-- Embedding of `diag(m, n, s, k, S)`: the buffer `S` after the call.  The source's
`if (k > n)` has an empty body. -/
def diag (m n : Nat) (s : List T) (k : Nat) (S : List T) : List T :=
  blas_copy_to k s 0 1 S 0 (m + 1)

end more_buffer_utilities

/-! ## Singular-value profiles and matrix generators -/

section generators

variable {T : Type} [Field T]

/-- The vector `s` that `gen_poly_mat(m, n, A, k, cond, diagon, state)` computes before it
forms `S`: `k` ones, then `entry = 1 / std::pow(++cnt, t)` for the entries from `offset` on.
`pow` and `log2` stand for `std::pow` and `log2`; `floor(k * 0.1)` is `k / 10` in exact
arithmetic.  The state of the loop is the pair `(s, cnt)`. -/
def gen_poly_mat_s (pow : T → T → T) (log2 : T → T) (k : Nat) (cond : T) : List T :=
  let offset := k / 10
  let t := log2 cond / log2 ((k - offset : Nat) : T)
  (forUp (fun c (st : List T × T) =>
      let cnt := st.2 + 1
      (st.1.set (offset + c) (1 / pow cnt t), cnt)) (k - offset) (List.replicate k 1, 0)).1

/-- The vector `s` that `gen_exp_mat` computes: `k` ones, then
`entry = std::exp(++cnt * -t)` for the entries from `offset` on, with
`t = -log(1 / cond) / (k - offset)`. -/
def gen_exp_mat_s (exp : T → T) (log : T → T) (k : Nat) (cond : T) : List T :=
  let offset := k / 10
  let t := -log (1 / cond) / ((k - offset : Nat) : T)
  (forUp (fun c (st : List T × T) =>
      let cnt := st.2 + 1
      (st.1.set (offset + c) (exp (cnt * -t)), cnt)) (k - offset) (List.replicate k 1, 0)).1

/-- The vector `s` that `gen_step_mat` computes: `k` ones followed by the four
`std::fill` calls of the source, with `offset = k / 4`.  For `k < 4` the offset is `0` and
the second call of the source is `std::fill(s.begin() + 1, s.begin() + 0, ..)`, a range
whose first iterator lies behind its last one: the behaviour of the source is undefined
there, while `std_fill` stores nothing.  The embedding describes the source for `4 ≤ k`
only, where every range has `first ≤ last ≤ k`. -/
def gen_step_mat_s (k : Nat) (cond : T) : List T :=
  let offset := k / 4
  let s := List.replicate k 1
  let s := std_fill s 0 offset 1
  let s := std_fill s (offset + 1) (2 * offset) (8 / cond)
  let s := std_fill s (2 * offset + 1) (3 * offset) (4 / cond)
  std_fill s (3 * offset + 1) k (1 / cond)

/-- Embedding of `gen_poly_mat(m, n, A, k, cond, diagon, state)`: the values of `m`, `n`
and `A` after the call (`m` and `n` are passed by reference).  `gen_mat m n A k S` stands
for the buffer `A` that `gen_mat` produces from the random state. -/
def gen_poly_mat (pow : T → T → T) (log2 : T → T)
    (gen_mat : Nat → Nat → List T → Nat → List T → List T)
    (m n : Nat) (A : List T) (k : Nat) (cond : T) (diagon : Bool) : Nat × Nat × List T :=
  let s := gen_poly_mat_s pow log2 k cond
  let S := diag k k s k (List.replicate (k * k) 0)
  if diagon then
    if ¬ (m = k ∨ n = k) then (k, k, lacpy_general k k S k (vector_resize (k * k) A) k)
    else (m, n, lacpy_general k k S k A k)
  else (m, n, gen_mat m n A k S)

/-- Embedding of `gen_exp_mat(m, n, A, k, cond, diagon, state)`, as for `gen_poly_mat`. -/
def gen_exp_mat (exp : T → T) (log : T → T)
    (gen_mat : Nat → Nat → List T → Nat → List T → List T)
    (m n : Nat) (A : List T) (k : Nat) (cond : T) (diagon : Bool) : Nat × Nat × List T :=
  let s := gen_exp_mat_s exp log k cond
  let S := diag k k s k (List.replicate (k * k) 0)
  if diagon then
    if ¬ (m = k ∨ n = k) then (k, k, lacpy_general k k S k (vector_resize (k * k) A) k)
    else (m, n, lacpy_general k k S k A k)
  else (m, n, gen_mat m n A k S)

/-- Embedding of `gen_step_mat(m, n, A, k, cond, diagon, state)`, as for `gen_poly_mat`. -/
def gen_step_mat (gen_mat : Nat → Nat → List T → Nat → List T → List T)
    (m n : Nat) (A : List T) (k : Nat) (cond : T) (diagon : Bool) : Nat × Nat × List T :=
  let s := gen_step_mat_s k cond
  let S := diag k k s k (List.replicate (k * k) 0)
  if diagon then
    if ¬ (m = k ∨ n = k) then (k, k, lacpy_general k k S k (vector_resize (k * k) A) k)
    else (m, n, lacpy_general k k S k A k)
  else (m, n, gen_mat m n A k S)

end generators

/-! ## The fill loop of the spiked generator and the orthogonality check -/

section spiked

variable {T : Type} [Zero T]

/-- The loop "Fill A with stacked copies of V" of `gen_spiked_mat`,
`while (start + n <= m) { for (j = 0; j < n; ++j) blas::copy(n, &V[m * j], 1, &A[start + (m * j)], 1); start += n; }`.
The state is the pair of the buffer `A` and the list of the indices at which `V` has been
read so far; every iteration of the `while` loop uses one unit of fuel. -/
def gen_spiked_fill_loop (m n : Nat) (V : List T) :
    Nat → Nat → List T × List Nat → Option (List T × List Nat)
  | 0, _, _ => none
  | fuel + 1, start, st =>
    if start + n ≤ m then
      gen_spiked_fill_loop m n V fuel (start + n)
        (forUp (fun j (st : List T × List Nat) =>
            (blas_copy_to n V (m * j) 1 st.1 (start + m * j) 1,
             st.2 ++ (List.range n).map (fun t => m * j + t))) n st)
    else some st

/-- The part of `gen_spiked_mat(m, n, A, spike_scale, state)` up to the end of the fill
loop, given the orthonormalised `n x n` basis `V`: `upsize(m * n, A)` followed by the fill
loop, starting with `start = 0`. -/
def gen_spiked_mat_fill (m n : Nat) (A V : List T) (fuel : Nat) :
    Option (List T × List Nat) :=
  gen_spiked_fill_loop m n V fuel 0 (upsize (m * n) A, [])

end spiked

section orthogonality

variable {T : Type} [LinearOrderedField T]

/-- `blas::syrk(Layout::ColMajor, Uplo::Lower, Op::Trans, n, k, 1.0, A, lda, 0.0, C, ldc)`:
`C[i + ldc * j]` becomes the inner product of the columns `i` and `j` of the `k x n` matrix
`A`, for `j ≤ i < n`; with `Uplo::Lower` the entries above the diagonal are not
referenced.  The result is the buffer `C` after the call. -/
def blas_syrk_lower_trans (n k : Nat) (A : List T) (lda : Nat) (C : List T) (ldc : Nat) :
    List T :=
  forUp (fun j C =>
      forUp (fun d C =>
          C.set ((j + d) + ldc * j)
            ((List.range k).map
              (fun l => A.getD (l + lda * (j + d)) 0 * A.getD (l + lda * j) 0)).sum)
        (n - j) C)
    n C

/-- Square of the value of `lapack::lange(Norm::Fro, m, n, A, lda)`: the sum of the squares
of the entries `A[i + lda * j]`, `i < m`, `j < n`. -/
def lange_fro_sq (m n : Nat) (A : List T) (lda : Nat) : T :=
  ((List.range n).map
    (fun j => ((List.range m).map (fun i => (A.getD (i + lda * j) 0) ^ 2)).sum)).sum

/-- Embedding of `orthogonality_check(m, n, k, A, A_gram, verbose)`; `lange_fro m n A lda`
stands for `lapack::lange(Norm::Fro, m, n, A, lda)`. -/
def orthogonality_check (lange_fro : Nat → Nat → List T → Nat → T)
    (m n k : Nat) (A A_gram : List T) : Bool :=
  let G := blas_syrk_lower_trans n m A m A_gram n
  let G := forUp (fun oi G => G.set (oi * n + oi) (G.getD (oi * n + oi) 0 - 1)) k G
  let orth_err := lange_fro n n G k
  if orth_err > (1 : T) / (10 : T) ^ (10 : Nat) then true else false

/-- Entry `(i, j)` of the Gram matrix `AᵀA` of the `m x n` column-major matrix `A`. -/
def gram_entry (m : Nat) (A : List T) (i j : Nat) : T :=
  ((List.range m).map (fun l => A.getD (l + m * i) 0 * A.getD (l + m * j) 0)).sum

/-- Square of the Frobenius norm of the full `n x n` matrix `AᵀA` with `1` subtracted from
its first `k` diagonal entries. -/
def full_residual_sq (m n k : Nat) (A : List T) : T :=
  ((List.range n).map (fun j => ((List.range n).map
    (fun i => (gram_entry m A i j - if i = j ∧ i < k then 1 else 0) ^ 2)).sum)).sum

/-- Square of the Frobenius norm of the lower triangle, diagonal included, of `AᵀA - I`
for an `m x n` matrix `A`. -/
def lower_residual_sq (m n : Nat) (A : List T) : T :=
  ((List.range n).map (fun j => ((List.range n).map
    (fun i => if j ≤ i then (gram_entry m A i j - if i = j then 1 else 0) ^ 2 else 0)).sum)).sum

end orthogonality

/-! ## `rank_search_binary` with the list of evaluated offsets -/

section rank_search_run

variable {T : Type} [LinearOrder T] [Mul T]

/-- The `while` loop of `rank_search_binary`, carrying the current value of `norm_R_sub`
and the list of the offsets at which `lapack::lange` has been evaluated so far:
`while (norm_R_sub > tau_trunc * norm_A) { ++k; norm_R_sub = lange(.. k ..); }`. -/
def rank_search_walk_run (lange_sub : Int → Int → T) (n : Int) (norm_A tau_trunc : T) :
    Nat → Int → T → List Int → Option (Int × List Int)
  | 0, _, _, _ => none
  | fuel + 1, k, norm_R_sub, offsets =>
    if norm_R_sub > tau_trunc * norm_A then
      rank_search_walk_run lange_sub n norm_A tau_trunc fuel (k + 1) (lange_sub n (k + 1))
        (offsets ++ [k + 1])
    else some (k, offsets)

/-- Embedding of `rank_search_binary(lo, hi, k, n, norm_A, tau_trunc, A_dat)` that returns,
next to the result, the offsets at which `lapack::lange` is evaluated, in order.  The last
argument is the list of the offsets evaluated before the call. -/
def rank_search_binary_run (lange_sub : Int → Int → T) :
    Nat → Int → Int → Int → Int → T → T → List Int → Option (Int × List Int)
  | 0, _, _, _, _, _, _, _ => none
  | fuel + 1, lo, hi, k, n, norm_A, tau_trunc, offsets =>
    let norm_R_sub := lange_sub n k
    if (k - lo).tdiv 2 = 0 then
      rank_search_walk_run lange_sub n norm_A tau_trunc fuel k norm_R_sub (offsets ++ [k])
    else if norm_R_sub > tau_trunc * norm_A then
      rank_search_binary_run lange_sub fuel k hi (k + (k - lo).tdiv 2) n norm_A tau_trunc
        (offsets ++ [k])
    else
      rank_search_binary_run lange_sub fuel lo k (lo + (k - lo).tdiv 2) n norm_A tau_trunc
        (offsets ++ [k])

end rank_search_run

/-! ## The bad-CholQR generator and the dispatcher -/

section bad_cholqr

variable {T : Type} [Field T]

/-- The vector `s` that `gen_bad_cholqr_mat(m, n, A, k, cond, diagon, state)` computes: `n`
ones, then `entry = (std::exp(t) / std::pow(10, 8)) * std::exp(++cnt * -t)` for the entries
from `offset = k` on, with `t = log(std::pow(10, 8) / cond) / (1 - (n - offset))`. -/
def gen_bad_cholqr_mat_s (exp log : T → T) (pow : T → T → T) (n k : Nat) (cond : T) : List T :=
  let offset := k
  let t := log (pow 10 8 / cond) / (((1 - ((n : Int) - (offset : Int)) : Int) : T))
  (forUp (fun c (st : List T × T) =>
      let cnt := st.2 + 1
      (st.1.set (offset + c) ((exp t / pow 10 8) * exp (cnt * -t)), cnt))
    (n - offset) (List.replicate n 1, 0)).1

/-- The buffer `S` of `gen_bad_cholqr_mat` after `diag(k, k, s, k, S)`: this is what the
function copies to the output on the diagonal path and hands to `gen_mat` otherwise. -/
def gen_bad_cholqr_mat_S (exp log : T → T) (pow : T → T → T) (n k : Nat) (cond : T) : List T :=
  diag k k (gen_bad_cholqr_mat_s exp log pow n k cond) k (List.replicate (n * n) 0)

/-- Embedding of `gen_bad_cholqr_mat(m, n, A, k, cond, diagon, state)`: the values of `m`,
`n` and `A` after the call. -/
def gen_bad_cholqr_mat (exp log : T → T) (pow : T → T → T)
    (gen_mat : Nat → Nat → List T → Nat → List T → List T)
    (m n : Nat) (A : List T) (k : Nat) (cond : T) (diagon : Bool) : Nat × Nat × List T :=
  let S := gen_bad_cholqr_mat_S exp log pow n k cond
  if diagon then
    if ¬ (m = k ∨ n = k) then (k, k, lacpy_general k k S k (vector_resize (k * k) A) k)
    else (m, n, lacpy_general k k S k A k)
  else (m, n, gen_mat m n A k S)

end bad_cholqr

/-! ## The dispatcher `mat_gen` -/

section dispatcher

/-- The enumeration `mat_type`. -/
inductive mat_type where
  | polynomial
  | exponential
  | gaussian
  | step
  | spiked
  | adverserial
  | bad_cholqr

/-- The struct `mat_gen_info<T>`. -/
structure mat_gen_info (T : Type) where
  rows : Nat
  cols : Nat
  rank : Nat
  m_type : mat_type
  cond_num : T
  scaling : T
  diag : Bool
  check_true_rank : Bool

/-- The routines `mat_gen` relies on that draw random numbers or call LAPACK: the
mathematical functions of the profiles, `gen_mat`, `RandBLAS::fill_dense` on an `m x n`
buffer, `gen_spiked_mat`, `gen_oleg_adversarial_mat` (each gives the buffer `A` after the
call), and the singular values and machine epsilon used by `rank_check`. -/
structure mat_gen_backend (T : Type) where
  pow : T → T → T
  log2 : T → T
  exp : T → T
  log : T → T
  gen_mat : Nat → Nat → List T → Nat → List T → List T
  fill_dense : Nat → Nat → List T → List T
  gen_spiked_mat : Nat → Nat → List T → T → List T
  gen_oleg_adversarial_mat : Nat → Nat → List T → T → List T
  cond_num_check_s : Nat → Nat → List T → List T
  eps : T

variable {T : Type} [LinearOrderedField T]

/-- The local variables `m`, `n`, `k` and the buffer `A` at the end of
`mat_gen(info, A, state)`.  The `default:` branch of the `switch` cannot be reached with a
value of the enumeration. -/
def mat_gen_locals (be : mat_gen_backend T) (info : mat_gen_info T) (A : List T) :
    Nat × Nat × Int × List T :=
  let m := info.rows
  let n := info.cols
  let k : Int := info.rank
  match info.m_type with
  | mat_type.polynomial =>
    let r := gen_poly_mat be.pow be.log2 be.gen_mat m n A info.rank info.cond_num info.diag
    (r.1, r.2.1, k, r.2.2)
  | mat_type.exponential =>
    let r := gen_exp_mat be.exp be.log be.gen_mat m n A info.rank info.cond_num info.diag
    (r.1, r.2.1, k, r.2.2)
  | mat_type.gaussian => (m, n, k, be.fill_dense m n A)
  | mat_type.step =>
    let r := gen_step_mat be.gen_mat m n A info.rank info.cond_num info.diag
    (r.1, r.2.1, k, r.2.2)
  | mat_type.spiked =>
    let A := be.gen_spiked_mat m n A info.scaling
    let k := if info.check_true_rank then rank_check be.cond_num_check_s be.eps m n A else k
    (m, n, k, A)
  | mat_type.adverserial =>
    let A := be.gen_oleg_adversarial_mat m n A info.scaling
    let k := if info.check_true_rank then rank_check be.cond_num_check_s be.eps m n A else k
    (m, n, k, A)
  | mat_type.bad_cholqr =>
    let r := gen_bad_cholqr_mat be.exp be.log be.pow be.gen_mat m n A info.rank
      info.cond_num info.diag
    (r.1, r.2.1, k, r.2.2)

/-- Embedding of `mat_gen(info, A, state)`: what the caller can observe after the call.
`mat_gen` returns `void` and takes `info` and `state` by value, so this is the buffer `A`
alone. -/
def mat_gen (be : mat_gen_backend T) (info : mat_gen_info T) (A : List T) : List T :=
  (mat_gen_locals be info A).2.2.2

end dispatcher

/-! ## The preconditioned conjugate gradient solver `pcg` -/

section pcg_model

variable {T : Type} [LinearOrderedField T]

/-- `blas::gemv(Layout::ColMajor, Op::NoTrans, m, n, alpha, A, lda, x, 1, beta, y, 1)`:
`y[i] = alpha * (A x)[i] + beta * y[i]` for `i < m`.  The result is `y` after the call. -/
def blas_gemv_notrans (m n : Nat) (alpha : T) (A : List T) (lda : Nat) (x : List T)
    (beta : T) (y : List T) : List T :=
  forUp (fun i Y =>
      Y.set i (alpha * ((List.range n).map (fun j => A.getD (i + lda * j) 0 * x.getD j 0)).sum
        + beta * Y.getD i 0)) m y

/-- `blas::gemv(Layout::ColMajor, Op::Trans, m, n, alpha, A, lda, x, 1, beta, y, 1)`:
`y[j] = alpha * (Aᵀ x)[j] + beta * y[j]` for `j < n`. -/
def blas_gemv_trans (m n : Nat) (alpha : T) (A : List T) (lda : Nat) (x : List T)
    (beta : T) (y : List T) : List T :=
  forUp (fun j Y =>
      Y.set j (alpha * ((List.range m).map (fun i => A.getD (i + lda * j) 0 * x.getD i 0)).sum
        + beta * Y.getD j 0)) n y

/-- `blas::axpy(n, alpha, x, 1, y, 1)`: `y[i] += alpha * x[i]` for `i < n`. -/
def blas_axpy (n : Nat) (alpha : T) (x y : List T) : List T :=
  forUp (fun i Y => Y.set i (alpha * x.getD i 0 + Y.getD i 0)) n y

/-- `blas::dot(n, x, 1, y, 1)`. -/
def blas_dot (n : Nat) (x y : List T) : T :=
  ((List.range n).map (fun i => x.getD i 0 * y.getD i 0)).sum

/-- The variables of `pcg` that change in its `while` loop; `stores` lists the indices at
which `resid_vec` has been stored into so far. -/
structure pcg_state (T : Type) where
  x : List T
  d : List T
  r : List T
  out_a1 : List T
  out_at1 : List T
  out_m1 : List T
  out_mt1 : List T
  delta1_old : T
  delta1_new : T
  alpha : T
  beta : T
  iter : Nat
  resid_vec : List T
  stores : List Nat

/-- One pass through the body of the `while` loop of `pcg`. -/
def pcg_body (m n : Nat) (A : List T) (lda : Nat) (delta : T) (k : Nat) (M : List T)
    (ldm : Nat) (b1 : List T) (reg : Bool) (st : pcg_state T) : pcg_state T :=
  let resid_vec := st.resid_vec.set st.iter st.delta1_new
  let stores := st.stores ++ [st.iter]
  let out_a1 := blas_gemv_notrans m n 1 A lda st.d 0 st.out_a1
  let out_at1 := blas_gemv_trans m n 1 A lda out_a1 0 st.out_at1
  let out_at1 := if reg then blas_axpy n delta st.d out_at1 else out_at1
  let alpha := st.delta1_new / blas_dot n st.d out_at1
  let x := blas_axpy n alpha st.d st.x
  let upd : List T × List T × List T :=
    if st.iter % 25 = 1 then
      let out_a1 := blas_gemv_notrans m n 1 A lda x 0 out_a1
      let out_at1 := blas_gemv_trans m n 1 A lda out_a1 0 out_at1
      let r := blas_copy_to n b1 0 1 st.r 0 1
      let r := blas_axpy n (-1) out_at1 r
      let r := if reg then blas_axpy n (-delta) x r else r
      (out_a1, out_at1, r)
    else (out_a1, out_at1, blas_axpy n (-alpha) out_at1 st.r)
  let out_a1 := upd.1
  let out_at1 := upd.2.1
  let r := upd.2.2
  let out_mt1 := blas_gemv_trans n k 1 M ldm r 0 st.out_mt1
  let out_m1 := blas_gemv_notrans n k 1 M ldm out_mt1 0 st.out_m1
  let delta1_old := st.delta1_new
  let delta1_new := blas_dot n r out_m1
  let beta := delta1_new / delta1_old
  let d := forUp (fun i (d : List T) => d.set i (beta * d.getD i 0 + out_m1.getD i 0)) n st.d
  { x := x, d := d, r := r, out_a1 := out_a1, out_at1 := out_at1, out_m1 := out_m1,
    out_mt1 := out_mt1, delta1_old := delta1_old, delta1_new := delta1_new, alpha := alpha,
    beta := beta, iter := st.iter + 1, resid_vec := resid_vec, stores := stores }

/-- The loop `while (iter < iter_lim && delta1_new > rel_sq_tol) { .. }` of `pcg`; the
first argument is `iter_lim - iter`, which bounds the number of passes. -/
def pcg_loop (m n : Nat) (A : List T) (lda : Nat) (delta : T) (k : Nat) (M : List T)
    (ldm : Nat) (b1 : List T) (reg : Bool) (rel_sq_tol : T) :
    Nat → pcg_state T → pcg_state T
  | 0, st => st
  | left + 1, st =>
    if st.delta1_new > rel_sq_tol then
      pcg_loop m n A lda delta k M ldm b1 reg rel_sq_tol left
        (pcg_body m n A lda delta k M ldm b1 reg st)
    else st

/-- The last two statements of `pcg`, "recover y = b - Ax":
`blas::copy(n, b, 1, y, 1)` followed by
`blas::gemv(.., Op::NoTrans, m, n, -1.0, A, lda, x, 1, 1.0, y, 1)`. -/
def pcg_recover_y (m n : Nat) (A : List T) (lda : Nat) (b x y : List T) : List T :=
  blas_gemv_notrans m n (-1) A lda x 1 (blas_copy_to n b 0 1 y 0 1)

/-- Embedding of
`pcg(m, n, A, lda, b, c, delta, resid_vec, tol, k, M, ldm, x0, x, y)`: the buffers `x`, `y`
and `resid_vec` after the call, and the list of the indices at which `resid_vec` was stored
into, in order. -/
def pcg (m n : Nat) (A : List T) (lda : Nat) (b c : List T) (delta : T) (resid_vec : List T)
    (tol : T) (k : Nat) (M : List T) (ldm : Nat) (x0 x y : List T) :
    List T × List T × List T × List Nat :=
  let out_a1 : List T := List.replicate m 0
  let out_at1 : List T := List.replicate n 0
  let out_m1 : List T := List.replicate n 0
  let out_mt1 : List T := List.replicate k 0
  let b1 := blas_copy_to n c 0 1 (List.replicate n 0) 0 1
  let b1 := blas_gemv_trans m n 1 A lda b (-1) b1
  let r := blas_copy_to n b1 0 1 (List.replicate n 0) 0 1
  let out_a1 := blas_gemv_notrans m n 1 A lda x0 delta out_a1
  let out_at1 := blas_gemv_trans m n 1 A lda out_a1 0 out_at1
  let out_at1 := blas_axpy n delta x0 out_at1
  let r := blas_axpy n (-1) out_at1 r
  let out_mt1 := blas_gemv_trans n k 1 M ldm r 0 out_mt1
  let d := blas_gemv_notrans n k 1 M ldm out_mt1 0 (List.replicate n 0)
  let reg : Bool := if delta > 0 then true else false
  let x := blas_copy_to n x0 0 1 x 0 1
  let delta1_old := blas_dot n d r
  let delta1_new := delta1_old
  let rel_sq_tol := (delta1_old * tol) * tol
  let iter_lim := resid_vec.length
  let st := pcg_loop m n A lda delta k M ldm b1 reg rel_sq_tol iter_lim
    { x := x, d := d, r := r, out_a1 := out_a1, out_at1 := out_at1, out_m1 := out_m1,
      out_mt1 := out_mt1, delta1_old := delta1_old, delta1_new := delta1_new, alpha := 0,
      beta := 0, iter := 0, resid_vec := resid_vec, stores := [] }
  (st.x, pcg_recover_y m n A lda b st.x y,
    st.resid_vec.set st.iter st.delta1_new, st.stores ++ [st.iter])

end pcg_model

/-! ## Properties of `rank_search_binary` -/

section rank_search_props

variable {T : Type} [LinearOrder T] [Mul T]

theorem rank_search_walk_mono (f : Int → Int → T) (n : Int) (norm_A tau : T) :
    ∀ (fuel : Nat) (k r : Int), rank_search_walk f n norm_A tau fuel k = some r →
      ∀ fuel2 : Nat, fuel ≤ fuel2 → rank_search_walk f n norm_A tau fuel2 k = some r := by
  intro fuel
  induction fuel with
  | zero => intro k r h; simp [rank_search_walk] at h
  | succ fuel ih =>
    intro k r h fuel2 hle
    obtain ⟨g, rfl⟩ : ∃ g, fuel2 = g + 1 := ⟨fuel2 - 1, by omega⟩
    simp only [rank_search_walk] at h ⊢
    split_ifs at h ⊢ with hc
    · exact ih _ _ h g (by omega)
    · exact h

theorem rank_search_binary_mono (f : Int → Int → T) (n : Int) (norm_A tau : T) :
    ∀ (fuel : Nat) (lo hi k r : Int),
      rank_search_binary f fuel lo hi k n norm_A tau = some r →
      ∀ fuel2 : Nat, fuel ≤ fuel2 →
        rank_search_binary f fuel2 lo hi k n norm_A tau = some r := by
  intro fuel
  induction fuel with
  | zero => intro lo hi k r h; simp [rank_search_binary] at h
  | succ fuel ih =>
    intro lo hi k r h fuel2 hle
    obtain ⟨g, rfl⟩ : ∃ g, fuel2 = g + 1 := ⟨fuel2 - 1, by omega⟩
    simp only [rank_search_binary] at h ⊢
    split_ifs at h ⊢ with hb hc
    · exact rank_search_walk_mono f n norm_A tau _ _ _ h g (by omega)
    · exact ih _ _ _ _ h g (by omega)
    · exact ih _ _ _ _ h g (by omega)

theorem rank_search_walk_spec (f : Int → Int → T) (n : Int) (norm_A tau : T)
    (hlast : f n n ≤ tau * norm_A) :
    ∀ (fuel : Nat) (k : Int), k ≤ n → n - k < fuel →
      ∃ r, rank_search_walk f n norm_A tau fuel k = some r ∧ k ≤ r ∧ r ≤ n ∧
        f n r ≤ tau * norm_A ∧ ∀ x, k ≤ x → x < r → tau * norm_A < f n x := by
  intro fuel
  induction fuel with
  | zero => intro k hk hf; exact absurd hf (by push_cast; omega)
  | succ fuel ih =>
    intro k hk hf
    simp only [rank_search_walk]
    by_cases hc : f n k > tau * norm_A
    · have hne : k ≠ n := by
        rintro rfl
        exact absurd hc (not_lt.mpr hlast)
      obtain ⟨r, hr, h1, h2, h3, h4⟩ := ih (k + 1) (by omega) (by push_cast at hf; omega)
      refine ⟨r, by simp [hc, hr], by omega, h2, h3, ?_⟩
      intro x hx1 hx2
      by_cases hxk : x = k
      · subst hxk; exact hc
      · exact h4 x (by omega) hx2
    · refine ⟨k, by simp [hc], le_refl _, hk, not_lt.mp hc, ?_⟩
      intro x hx1 hx2
      omega

theorem rank_search_binary_spec (f : Int → Int → T) (n : Int) (norm_A tau : T)
    (hlast : f n n ≤ tau * norm_A) :
    ∀ (fuel : Nat) (lo hi k : Int), 0 ≤ lo → lo < k → k + (k - lo) ≤ n →
      (k - lo) + (n - lo) + 1 < fuel →
      ∃ r, rank_search_binary f fuel lo hi k n norm_A tau = some r ∧ lo < r ∧ r ≤ n ∧
        f n r ≤ tau * norm_A ∧
        ((∀ a b, 1 ≤ a → a ≤ b → b ≤ n → f n b ≤ f n a) →
          (∀ x, 1 ≤ x → x ≤ lo → tau * norm_A < f n x) →
          ∀ x, 1 ≤ x → x < r → tau * norm_A < f n x) := by
  intro fuel
  induction fuel with
  | zero => intro lo hi k h0 h1 h2 hf; exact absurd hf (by push_cast; omega)
  | succ fuel ih =>
    intro lo hi k h0 h1 h2 hf
    have hdiv : (k - lo).tdiv 2 = (k - lo) / 2 := Int.tdiv_eq_ediv (by omega) (by omega)
    simp only [rank_search_binary, hdiv]
    push_cast at hf
    by_cases hb : (k - lo) / 2 = 0
    · obtain ⟨r, hr, h3, h4, h5, h6⟩ :=
        rank_search_walk_spec f n norm_A tau hlast fuel k (by omega) (by omega)
      refine ⟨r, by simp [hb, hr], by omega, h4, h5, ?_⟩
      intro _ hlo x hx1 hx2
      by_cases hxk : x < k
      · exact hlo x hx1 (by omega)
      · exact h6 x (by omega) hx2
    · by_cases hc : f n k > tau * norm_A
      · obtain ⟨r, hr, h3, h4, h5, h6⟩ :=
          ih k hi (k + (k - lo) / 2) (by omega) (by omega) (by omega) (by omega)
        refine ⟨r, by simp [hb, hc, hr], by omega, h4, h5, ?_⟩
        intro hanti hlo x hx1 hx2
        refine h6 hanti ?_ x hx1 hx2
        intro y hy1 hy2
        exact lt_of_lt_of_le hc (hanti y k hy1 hy2 (by omega))
      · obtain ⟨r, hr, h3, h4, h5, h6⟩ :=
          ih lo k (lo + (k - lo) / 2) (by omega) (by omega) (by omega) (by omega)
        exact ⟨r, by simp [hb, hc, hr], h3, h4, h5, h6⟩

/-- C1: `rank_search_binary` never underestimates.  For every `n ≥ 2`, every threshold
`tau_trunc * norm_A` and every trailing-norm oracle (monotone or not) whose value at
offset `n` is at most the threshold, the canonical call
`rank_search_binary(0, n, n/2, n, norm_A, tau_trunc, A)` returns (with any fuel of at
least `2 n + 2`) an `r` in `[1, n]` whose trailing norm is at most the threshold; hence
`r` is never smaller than the least `k` in `[1, n]` with that property. -/
theorem rank_search_binary_never_underestimates (lange_sub : Int → Int → T) (n : Int)
    (norm_A tau_trunc : T) (hn : 2 ≤ n) (hlast : lange_sub n n ≤ tau_trunc * norm_A) :
    ∃ r : Int,
      (∀ fuel : Nat, 2 * n + 2 ≤ (fuel : Int) →
        rank_search_binary lange_sub fuel 0 n (n.tdiv 2) n norm_A tau_trunc = some r) ∧
      1 ≤ r ∧ r ≤ n ∧ lange_sub n r ≤ tau_trunc * norm_A ∧
      ∀ k0 : Int, 1 ≤ k0 → k0 ≤ n → lange_sub n k0 ≤ tau_trunc * norm_A →
        (∀ k : Int, 1 ≤ k → k ≤ n → lange_sub n k ≤ tau_trunc * norm_A → k0 ≤ k) →
        k0 ≤ r := by
  have hdiv : n.tdiv 2 = n / 2 := Int.tdiv_eq_ediv (by omega) (by omega)
  obtain ⟨r, hr, h3, h4, h5, -⟩ :=
    rank_search_binary_spec lange_sub n norm_A tau_trunc hlast (2 * n + 2).toNat 0 n (n / 2)
      (le_refl _) (by omega) (by omega) (by rw [Int.toNat_of_nonneg (by omega)]; omega)
  refine ⟨r, ?_, by omega, h4, h5, ?_⟩
  · intro fuel hfuel
    rw [hdiv]
    exact rank_search_binary_mono lange_sub n norm_A tau_trunc _ _ _ _ _ hr fuel (by omega)
  · intro k0 _ _ _ hleast
    exact hleast r (by omega) h4 h5

/-- C2: for every `n ≥ 2`, every threshold `tau_trunc * norm_A` and every non-increasing
trailing-norm oracle whose value at offset `n` is at most the threshold, the canonical
call `rank_search_binary(0, n, n/2, n, norm_A, tau_trunc, A)` returns (with any fuel of at
least `2 n + 2`) exactly the smallest `k` in `[1, n]` whose trailing norm is at most the
threshold. -/
theorem rank_search_binary_finds_least (lange_sub : Int → Int → T) (n : Int)
    (norm_A tau_trunc : T) (hn : 2 ≤ n) (hlast : lange_sub n n ≤ tau_trunc * norm_A)
    (hanti : ∀ a b : Int, 1 ≤ a → a ≤ b → b ≤ n → lange_sub n b ≤ lange_sub n a) :
    ∃ r : Int,
      (∀ fuel : Nat, 2 * n + 2 ≤ (fuel : Int) →
        rank_search_binary lange_sub fuel 0 n (n.tdiv 2) n norm_A tau_trunc = some r) ∧
      1 ≤ r ∧ r ≤ n ∧ lange_sub n r ≤ tau_trunc * norm_A ∧
      ∀ k : Int, 1 ≤ k → k ≤ n → lange_sub n k ≤ tau_trunc * norm_A → r ≤ k := by
  have hdiv : n.tdiv 2 = n / 2 := Int.tdiv_eq_ediv (by omega) (by omega)
  obtain ⟨r, hr, h3, h4, h5, h6⟩ :=
    rank_search_binary_spec lange_sub n norm_A tau_trunc hlast (2 * n + 2).toNat 0 n (n / 2)
      (le_refl _) (by omega) (by omega) (by rw [Int.toNat_of_nonneg (by omega)]; omega)
  refine ⟨r, ?_, by omega, h4, h5, ?_⟩
  · intro fuel hfuel
    rw [hdiv]
    exact rank_search_binary_mono lange_sub n norm_A tau_trunc _ _ _ _ _ hr fuel (by omega)
  · intro k hk1 _ hk3
    by_contra hlt
    have := h6 hanti (fun x hx1 hx2 => absurd hx2 (by omega)) k hk1 (by omega)
    exact absurd hk3 (not_le.mpr this)

end rank_search_props

section rank_search_witnesses

theorem rank_search_binary_never_underestimates_witness :
    (2 : Int) ≤ 6 ∧
    (fun (n k : Int) => if k = 1 ∨ k = 4 ∨ k = n then (0 : Int) else 5) 6 6 ≤ 1 * 1 ∧
    rank_search_binary (fun (n k : Int) => if k = 1 ∨ k = 4 ∨ k = n then (0 : Int) else 5)
      14 0 6 (Int.tdiv 6 2) 6 1 1 = some 4 ∧
    ∃ r : Int,
      (∀ fuel : Nat, 2 * 6 + 2 ≤ (fuel : Int) →
        rank_search_binary (fun (n k : Int) => if k = 1 ∨ k = 4 ∨ k = n then (0 : Int) else 5)
          fuel 0 6 (Int.tdiv 6 2) 6 1 1 = some r) ∧
      1 ≤ r ∧ r ≤ 6 ∧
      (fun (n k : Int) => if k = 1 ∨ k = 4 ∨ k = n then (0 : Int) else 5) 6 r ≤ 1 * 1 ∧
      ∀ k0 : Int, 1 ≤ k0 → k0 ≤ 6 →
        (fun (n k : Int) => if k = 1 ∨ k = 4 ∨ k = n then (0 : Int) else 5) 6 k0 ≤ 1 * 1 →
        (∀ k : Int, 1 ≤ k → k ≤ 6 →
          (fun (n k : Int) => if k = 1 ∨ k = 4 ∨ k = n then (0 : Int) else 5) 6 k ≤ 1 * 1 →
          k0 ≤ k) →
        k0 ≤ r :=
  ⟨by decide, by decide, by decide,
    rank_search_binary_never_underestimates
      (fun (n k : Int) => if k = 1 ∨ k = 4 ∨ k = n then (0 : Int) else 5) 6 1 1
      (by decide) (by decide)⟩

theorem rank_search_binary_finds_least_witness :
    (2 : Int) ≤ 7 ∧
    (fun (_ k : Int) => if 5 ≤ k then (0 : Int) else 9 - k) 7 7 ≤ 1 * 2 ∧
    rank_search_binary (fun (_ k : Int) => if 5 ≤ k then (0 : Int) else 9 - k)
      16 0 7 (Int.tdiv 7 2) 7 2 1 = some 5 ∧
    ∃ r : Int,
      (∀ fuel : Nat, 2 * 7 + 2 ≤ (fuel : Int) →
        rank_search_binary (fun (_ k : Int) => if 5 ≤ k then (0 : Int) else 9 - k)
          fuel 0 7 (Int.tdiv 7 2) 7 2 1 = some r) ∧
      1 ≤ r ∧ r ≤ 7 ∧
      (fun (_ k : Int) => if 5 ≤ k then (0 : Int) else 9 - k) 7 r ≤ 1 * 2 ∧
      ∀ k : Int, 1 ≤ k → k ≤ 7 →
        (fun (_ k : Int) => if 5 ≤ k then (0 : Int) else 9 - k) 7 k ≤ 1 * 2 → r ≤ k :=
  ⟨by decide, by decide, by decide,
    rank_search_binary_finds_least
      (fun (_ k : Int) => if 5 ≤ k then (0 : Int) else 9 - k) 7 2 1
      (by decide) (by decide)
      (by
        intro a b _ hab _
        show (if 5 ≤ b then (0 : Int) else 9 - b) ≤ (if 5 ≤ a then (0 : Int) else 9 - a)
        split_ifs <;> omega)⟩

end rank_search_witnesses

/-! ## Properties of the primitives -/

section primitive_props

theorem forUp_succ {σ : Type} (body : Nat → σ → σ) (n : Nat) (s : σ) :
    forUp body (n + 1) s = body n (forUp body n s) := rfl

variable {T : Type} [Zero T]

omit [Zero T] in
theorem getD_set_eq (A : List T) (i p : Nat) (v d : T) :
    (A.set i v).getD p d = if i = p ∧ i < A.length then v else A.getD p d := by
  simp only [List.getD_eq_getElem?_getD, List.getElem?_set]
  by_cases h1 : i = p
  · subst h1
    by_cases h2 : i < A.length
    · simp [h2]
    · simp [h2, List.getElem?_eq_none (not_lt.mp h2)]
  · simp [h1]

omit [Zero T] in
theorem getD_of_length_le (A : List T) (p : Nat) (d : T) (h : A.length ≤ p) :
    A.getD p d = d := by
  simp [List.getD_eq_getElem?_getD, List.getElem?_eq_none h]

theorem rdAt_natCast (A : List T) (p : Nat) : rdAt A (p : Int) = A.getD p 0 := by
  simp [rdAt]

omit [Zero T] in
theorem wrAt_natCast (A : List T) (p : Nat) (v : T) : wrAt A (p : Int) v = A.set p v := by
  simp [wrAt]

theorem blas_copy_length (n : Nat) (A : List T) (x y : Nat) :
    (blas_copy n A x y).length = A.length := by
  induction n with
  | zero => rfl
  | succ n ih =>
    show (List.set (blas_copy n A x y) _ _).length = _
    rw [List.length_set, ih]

theorem blas_copy_getD (n : Nat) (A : List T) (x y : Nat) (hyx : y ≤ x)
    (hx : x + n ≤ A.length) (p : Nat) :
    (blas_copy n A x y).getD p 0 =
      if y ≤ p ∧ p < y + n then A.getD (x + (p - y)) 0 else A.getD p 0 := by
  induction n generalizing p with
  | zero =>
    have : ¬ (y ≤ p ∧ p < y + 0) := by omega
    show A.getD p 0 = _
    rw [if_neg this]
  | succ n ih =>
    show (List.set (blas_copy n A x y) (y + n)
      ((blas_copy n A x y).getD (x + n) 0)).getD p 0 = _
    rw [getD_set_eq, blas_copy_length, ih (by omega) (x + n), ih (by omega) p]
    have hsrc : ¬ (y ≤ x + n ∧ x + n < y + n) := by omega
    rw [if_neg hsrc]
    by_cases hp : y + n = p
    · subst hp
      have h1 : (y + n = y + n ∧ y + n < A.length) := ⟨rfl, by omega⟩
      have h2 : (y ≤ y + n ∧ y + n < y + (n + 1)) := by omega
      rw [if_pos h1, if_pos h2]
      congr 1
      omega
    · have h1 : ¬ (y + n = p ∧ y + n < A.length) := fun h => hp h.1
      rw [if_neg h1]
      by_cases hq : y ≤ p ∧ p < y + n
      · have h2 : (y ≤ p ∧ p < y + (n + 1)) := by omega
        rw [if_pos hq, if_pos h2]
      · have h2 : ¬ (y ≤ p ∧ p < y + (n + 1)) := by omega
        rw [if_neg hq, if_neg h2]

theorem blas_copy_rev_length (n : Nat) (A : List T) (x y : Nat) :
    (blas_copy_rev n A x y).length = A.length := by
  unfold blas_copy_rev
  generalize n - 1 = e
  induction n with
  | zero => rfl
  | succ c ih =>
    show (List.set _ _ _).length = _
    rw [List.length_set, ih]

/-- State of `blas_copy_rev` after `c` of its `n` steps. -/
theorem blas_copy_rev_partial (n : Nat) (A : List T) (x y : Nat) (hxy : x ≤ y)
    (hy : y + n ≤ A.length) (c : Nat) (hc : c ≤ n) (p : Nat) :
    (forUp (fun c B => B.set (y + (n - 1 - c)) (B.getD (x + (n - 1 - c)) 0)) c A).getD p 0 =
      if y + (n - c) ≤ p ∧ p < y + n then A.getD (x + (p - y)) 0 else A.getD p 0 := by
  have hlen : ∀ c, (forUp (fun c (B : List T) =>
      B.set (y + (n - 1 - c)) (B.getD (x + (n - 1 - c)) 0)) c A).length = A.length := by
    intro c
    induction c with
    | zero => rfl
    | succ c ih =>
      show (List.set _ _ _).length = _
      rw [List.length_set, ih]
  induction c generalizing p with
  | zero =>
    have : ¬ (y + (n - 0) ≤ p ∧ p < y + n) := by omega
    show A.getD p 0 = _
    rw [if_neg this]
  | succ c ih =>
    show (List.set _ (y + (n - 1 - c)) (List.getD _ (x + (n - 1 - c)) 0)).getD p 0 = _
    rw [getD_set_eq, hlen, ih (by omega) (x + (n - 1 - c)), ih (by omega) p]
    have hsrc : ¬ (y + (n - c) ≤ x + (n - 1 - c) ∧ x + (n - 1 - c) < y + n) := by omega
    rw [if_neg hsrc]
    by_cases hp : y + (n - 1 - c) = p
    · subst hp
      have h1 : (y + (n - 1 - c) = y + (n - 1 - c) ∧ y + (n - 1 - c) < A.length) :=
        ⟨rfl, by omega⟩
      have h2 : (y + (n - (c + 1)) ≤ y + (n - 1 - c) ∧ y + (n - 1 - c) < y + n) := by omega
      rw [if_pos h1, if_pos h2]
      congr 1
      omega
    · have h1 : ¬ (y + (n - 1 - c) = p ∧ y + (n - 1 - c) < A.length) := fun h => hp h.1
      rw [if_neg h1]
      by_cases hq : y + (n - c) ≤ p ∧ p < y + n
      · have h2 : (y + (n - (c + 1)) ≤ p ∧ p < y + n) := by omega
        rw [if_pos hq, if_pos h2]
      · have h2 : ¬ (y + (n - (c + 1)) ≤ p ∧ p < y + n) := by omega
        rw [if_neg hq, if_neg h2]

theorem blas_copy_rev_getD (n : Nat) (A : List T) (x y : Nat) (hxy : x ≤ y)
    (hy : y + n ≤ A.length) (p : Nat) :
    (blas_copy_rev n A x y).getD p 0 =
      if y ≤ p ∧ p < y + n then A.getD (x + (p - y)) 0 else A.getD p 0 := by
  have h := blas_copy_rev_partial n A x y hxy hy n (le_refl _) p
  simpa [blas_copy_rev] using h

omit [Zero T] in
theorem std_fill_length (A : List T) (first last : Nat) (v : T) :
    (std_fill A first last v).length = A.length := by
  unfold std_fill
  generalize last - first = c
  induction c with
  | zero => rfl
  | succ c ih =>
    show (List.set _ _ _).length = _
    rw [List.length_set, ih]

theorem std_fill_getD (A : List T) (first last : Nat) (v : T) (p : Nat) :
    (std_fill A first last v).getD p 0 =
      if first ≤ p ∧ p < last ∧ p < A.length then v else A.getD p 0 := by
  have hlen : ∀ c, (forUp (fun t (B : List T) => B.set (first + t) v) c A).length
      = A.length := by
    intro c
    induction c with
    | zero => rfl
    | succ c ih =>
      show (List.set _ _ _).length = _
      rw [List.length_set, ih]
  have key : ∀ c, (forUp (fun t (B : List T) => B.set (first + t) v) c A).getD p 0 =
      if first ≤ p ∧ p < first + c ∧ p < A.length then v else A.getD p 0 := by
    intro c
    induction c with
    | zero =>
      have : ¬ (first ≤ p ∧ p < first + 0 ∧ p < A.length) := by omega
      show A.getD p 0 = _
      rw [if_neg this]
    | succ c ih =>
      show (List.set _ (first + c) v).getD p 0 = _
      rw [getD_set_eq, hlen, ih]
      by_cases hp : first + c = p ∧ first + c < A.length
      · have h2 : first ≤ p ∧ p < first + (c + 1) ∧ p < A.length := by omega
        rw [if_pos hp, if_pos h2]
      · rw [if_neg hp]
        by_cases hq : first ≤ p ∧ p < first + c ∧ p < A.length
        · have h2 : first ≤ p ∧ p < first + (c + 1) ∧ p < A.length := by omega
          rw [if_pos hq, if_pos h2]
        · have h2 : ¬ (first ≤ p ∧ p < first + (c + 1) ∧ p < A.length) := by omega
          rw [if_neg hq, if_neg h2]
  unfold std_fill
  rw [key]
  by_cases hq : first ≤ p ∧ p < last ∧ p < A.length
  · have h2 : first ≤ p ∧ p < first + (last - first) ∧ p < A.length := by omega
    rw [if_pos hq, if_pos h2]
  · have h2 : ¬ (first ≤ p ∧ p < first + (last - first) ∧ p < A.length) := by omega
    rw [if_neg hq, if_neg h2]

end primitive_props

section swap_props

variable {T : Type} [Zero T]

theorem blas_swap_succ (n : Nat) (A : List T) (a b : Nat) :
    blas_swap (n + 1) A (a : Int) (b : Int) =
      ((blas_swap n A a b).set (a + n) ((blas_swap n A a b).getD (b + n) 0)).set (b + n)
        ((blas_swap n A a b).getD (a + n) 0) := by
  show wrAt (wrAt (blas_swap n A a b) ((a : Int) + (n : Int)) (rdAt _ ((b : Int) + (n : Int))))
    ((b : Int) + (n : Int)) (rdAt _ ((a : Int) + (n : Int))) = _
  rw [← Nat.cast_add, ← Nat.cast_add, rdAt_natCast, rdAt_natCast, wrAt_natCast, wrAt_natCast]
  rfl

theorem blas_swap_length (n : Nat) (A : List T) (a b : Nat) :
    (blas_swap n A (a : Int) (b : Int)).length = A.length := by
  induction n with
  | zero => rfl
  | succ n ih => rw [blas_swap_succ, List.length_set, List.length_set, ih]

theorem blas_swap_getD (n : Nat) (A : List T) (a b : Nat)
    (hdis : a = b ∨ a + n ≤ b ∨ b + n ≤ a) (ha : a + n ≤ A.length)
    (hb : b + n ≤ A.length) (p : Nat) :
    (blas_swap n A (a : Int) (b : Int)).getD p 0 =
      if a ≤ p ∧ p < a + n then A.getD (b + (p - a)) 0
      else if b ≤ p ∧ p < b + n then A.getD (a + (p - b)) 0
      else A.getD p 0 := by
  induction n generalizing p with
  | zero =>
    have h1 : ¬ (a ≤ p ∧ p < a + 0) := by omega
    have h2 : ¬ (b ≤ p ∧ p < b + 0) := by omega
    show A.getD p 0 = _
    rw [if_neg h1, if_neg h2]
  | succ n ih =>
    have ih1 := ih (by omega) (by omega) (by omega)
    rw [blas_swap_succ, getD_set_eq, getD_set_eq, List.length_set, blas_swap_length,
      ih1 (a + n), ih1 (b + n), ih1 p]
    split_ifs <;> first | rfl | (congr 1; omega)

end swap_props

/-! ## Properties of `col_swap` -/

section col_swap_props

variable {T : Type} [Zero T]

theorem col_addr_lt {m c i t : Nat} (ht : t < m) (hc : c < i) : c * m + t < i * m := by
  have h := Nat.mul_le_mul_right m (Nat.succ_le_of_lt hc)
  rw [Nat.succ_mul] at h
  omega

theorem col_addr_bound {m n c t : Nat} (ht : t < m) (hc : c < n) : c * m + t < n * m :=
  col_addr_lt ht hc

/-- Column view of `blas::swap` on two columns of a buffer with leading dimension `m`. -/
theorem blas_swap_col (m n : Nat) (A : List T) (i j : Nat) (hi : i < n) (hj : j < n)
    (hA : n * m ≤ A.length) (c t : Nat) (ht : t < m) :
    (blas_swap m A ((i : Int) * (m : Int)) ((j : Int) * (m : Int))).getD (c * m + t) 0 =
      if c = i then A.getD (j * m + t) 0
      else if c = j then A.getD (i * m + t) 0
      else A.getD (c * m + t) 0 := by
  have hi1 : i * m + m ≤ n * m := by
    have := Nat.mul_le_mul_right m (Nat.succ_le_of_lt hi)
    rw [Nat.succ_mul] at this
    exact this
  have hj1 : j * m + m ≤ n * m := by
    have := Nat.mul_le_mul_right m (Nat.succ_le_of_lt hj)
    rw [Nat.succ_mul] at this
    exact this
  have hdis : i * m = j * m ∨ i * m + m ≤ j * m ∨ j * m + m ≤ i * m := by
    rcases Nat.lt_trichotomy i j with h | h | h
    · right; left
      have := Nat.mul_le_mul_right m (Nat.succ_le_of_lt h)
      rw [Nat.succ_mul] at this
      exact this
    · left; rw [h]
    · right; right
      have := Nat.mul_le_mul_right m (Nat.succ_le_of_lt h)
      rw [Nat.succ_mul] at this
      exact this
  rw [← Nat.cast_mul, ← Nat.cast_mul,
    blas_swap_getD m A (i * m) (j * m) hdis (by omega) (by omega)]
  rcases Nat.lt_trichotomy c i with h | h | h
  · have h1 : ¬ (i * m ≤ c * m + t ∧ c * m + t < i * m + m) := by
      have := col_addr_lt ht h
      omega
    rw [if_neg h1, if_neg (by omega : ¬ c = i)]
    rcases Nat.lt_trichotomy c j with g | g | g
    · have h2 : ¬ (j * m ≤ c * m + t ∧ c * m + t < j * m + m) := by
        have := col_addr_lt ht g
        omega
      rw [if_neg h2, if_neg (by omega : ¬ c = j)]
    · subst g
      rw [if_pos ⟨by omega, by omega⟩, if_pos rfl]
      congr 1
      omega
    · have h2 : ¬ (j * m ≤ c * m + t ∧ c * m + t < j * m + m) := by
        have := @col_addr_lt m j c 0 (by omega) g
        have := Nat.mul_le_mul_right m (Nat.succ_le_of_lt g)
        rw [Nat.succ_mul] at this
        omega
      rw [if_neg h2, if_neg (by omega : ¬ c = j)]
  · subst h
    rw [if_pos ⟨by omega, by omega⟩, if_pos rfl]
    congr 1
    omega
  · have h1 : ¬ (i * m ≤ c * m + t ∧ c * m + t < i * m + m) := by
      have := Nat.mul_le_mul_right m (Nat.succ_le_of_lt h)
      rw [Nat.succ_mul] at this
      omega
    rw [if_neg h1, if_neg (by omega : ¬ c = i)]
    rcases Nat.lt_trichotomy c j with g | g | g
    · have h2 : ¬ (j * m ≤ c * m + t ∧ c * m + t < j * m + m) := by
        have := col_addr_lt ht g
        omega
      rw [if_neg h2, if_neg (by omega : ¬ c = j)]
    · subst g
      rw [if_pos ⟨by omega, by omega⟩, if_pos rfl]
      congr 1
      omega
    · have h2 : ¬ (j * m ≤ c * m + t ∧ c * m + t < j * m + m) := by
        have := Nat.mul_le_mul_right m (Nat.succ_le_of_lt g)
        rw [Nat.succ_mul] at this
        omega
      rw [if_neg h2, if_neg (by omega : ¬ c = j)]

theorem col_swap_fix_length (i : Nat) (j : Int) (cnt l : Nat) (idx : List Int) :
    (col_swap_fix i j cnt l idx).length = idx.length := by
  induction cnt generalizing l with
  | zero => rfl
  | succ cnt ih =>
    simp only [col_swap_fix]
    split_ifs
    · rw [List.length_set]
    · exact ih (l + 1)

theorem col_swap_fix_getD (i : Nat) (j : Int) (cnt l : Nat) (idx : List Int)
    (hlen : l + cnt ≤ idx.length)
    (hinj : ∀ p q, l ≤ p → p < l + cnt → l ≤ q → q < l + cnt →
      idx.getD p 0 = idx.getD q 0 → p = q) (p : Nat) :
    (col_swap_fix i j cnt l idx).getD p 0 =
      if l ≤ p ∧ p < l + cnt ∧ idx.getD p 0 = (i : Int) + 1 then j + 1
      else idx.getD p 0 := by
  induction cnt generalizing l with
  | zero =>
    have h : ¬ (l ≤ p ∧ p < l + 0 ∧ idx.getD p 0 = (i : Int) + 1) := by omega
    show idx.getD p 0 = _
    rw [if_neg h]
  | succ cnt ih =>
    simp only [col_swap_fix]
    by_cases hl : idx.getD l 0 = (i : Int) + 1
    · rw [if_pos hl, getD_set_eq]
      by_cases hp : l = p
      · subst hp
        rw [if_pos ⟨rfl, by omega⟩, if_pos ⟨le_refl _, by omega, hl⟩]
      · rw [if_neg (fun h => hp h.1)]
        have h : ¬ (l ≤ p ∧ p < l + (cnt + 1) ∧ idx.getD p 0 = (i : Int) + 1) := by
          rintro ⟨h1, h2, h3⟩
          exact hp (hinj l p (le_refl _) (by omega) h1 h2 (by rw [hl, h3]))
        rw [if_neg h]
    · rw [if_neg hl, ih (l + 1) (by omega)
        (fun p q h1 h2 h3 h4 h5 => hinj p q (by omega) (by omega) (by omega) (by omega) h5)]
      by_cases hq : l + 1 ≤ p ∧ p < l + 1 + cnt ∧ idx.getD p 0 = (i : Int) + 1
      · rw [if_pos hq, if_pos ⟨by omega, by omega, hq.2.2⟩]
      · have h : ¬ (l ≤ p ∧ p < l + (cnt + 1) ∧ idx.getD p 0 = (i : Int) + 1) := by
          rintro ⟨h1, h2, h3⟩
          by_cases hpl : p = l
          · subst hpl; exact hl h3
          · exact hq ⟨by omega, by omega, h3⟩
        rw [if_neg hq, if_neg h]

end col_swap_props

section col_swap_invariant

variable {T : Type} [Zero T]

/-- One iteration of the outer loop of `col_swap`, described entry by entry. -/
theorem col_swap_step_spec (m n c : Nat) (B : List T) (ix : List Int) (hc : c < n)
    (hB : n * m ≤ B.length) (hlen : ix.length = n)
    (hrange : ∀ l, c ≤ l → l < n → (c : Int) + 1 ≤ ix.getD l 0 ∧ ix.getD l 0 ≤ n)
    (hinj : ∀ l1 l2, c ≤ l1 → l1 < n → c ≤ l2 → l2 < n →
      ix.getD l1 0 = ix.getD l2 0 → l1 = l2) :
    (col_swap_step m n c (B, ix)).1.length = B.length ∧
    (col_swap_step m n c (B, ix)).2.length = n ∧
    (∀ q t, q < n → t < m →
      (col_swap_step m n c (B, ix)).1.getD (q * m + t) 0 =
        if q = c then B.getD ((ix.getD c 0 - 1).toNat * m + t) 0
        else if q = (ix.getD c 0 - 1).toNat then B.getD (c * m + t) 0
        else B.getD (q * m + t) 0) ∧
    (∀ l, c < l → l < n →
      (col_swap_step m n c (B, ix)).2.getD l 0 =
        if ix.getD l 0 = (c : Int) + 1 then ix.getD c 0 else ix.getD l 0) := by
  obtain ⟨hc1, hc2⟩ := hrange c (le_refl _) hc
  have hj : ix.getD c 0 - 1 = (((ix.getD c 0 - 1).toNat : Nat) : Int) := by omega
  have hjn : (ix.getD c 0 - 1).toNat < n := by omega
  refine ⟨?_, ?_, ?_, ?_⟩
  · show (blas_swap m B ((c : Int) * (m : Int)) ((ix.getD c 0 - 1) * (m : Int))).length = _
    rw [hj, ← Nat.cast_mul, ← Nat.cast_mul, blas_swap_length]
  · show (List.set (col_swap_fix c (ix.getD c 0 - 1) (n - c) c ix) c ((c : Int) + 1)).length = _
    rw [List.length_set, col_swap_fix_length, hlen]
  · intro q t hq ht
    show (blas_swap m B ((c : Int) * (m : Int)) ((ix.getD c 0 - 1) * (m : Int))).getD
      (q * m + t) 0 = _
    rw [hj, blas_swap_col m n B c _ hc hjn hB q t ht, ← hj]
  · intro l hl1 hl2
    show (List.set (col_swap_fix c (ix.getD c 0 - 1) (n - c) c ix) c ((c : Int) + 1)).getD l 0
      = _
    rw [getD_set_eq, if_neg (fun h => absurd h.1 (by omega)),
      col_swap_fix_getD c (ix.getD c 0 - 1) (n - c) c ix (by omega)
        (fun p q h1 h2 h3 h4 h5 => hinj p q h1 (by omega) h3 (by omega) h5) l]
    by_cases h : ix.getD l 0 = (c : Int) + 1
    · rw [if_pos ⟨by omega, by omega, h⟩, if_pos h]
      omega
    · rw [if_neg (fun g => h g.2.2), if_neg h]

/-- Loop invariant of `col_swap` after `c` iterations: the first `c` columns are final and
the remaining index entries point at the current positions of the columns they want. -/
theorem col_swap_invariant (m n : Nat) (A : List T) (idx : List Int)
    (hA : n * m ≤ A.length) (hlen : idx.length = n)
    (hrange : ∀ l, l < n → 1 ≤ idx.getD l 0 ∧ idx.getD l 0 ≤ n)
    (hinj : ∀ l1 l2, l1 < n → l2 < n → idx.getD l1 0 = idx.getD l2 0 → l1 = l2)
    (c : Nat) (hc : c ≤ n) :
    (forUp (col_swap_step m n) c (A, idx)).1.length = A.length ∧
    (forUp (col_swap_step m n) c (A, idx)).2.length = n ∧
    (∀ l, c ≤ l → l < n →
      (c : Int) + 1 ≤ (forUp (col_swap_step m n) c (A, idx)).2.getD l 0 ∧
      (forUp (col_swap_step m n) c (A, idx)).2.getD l 0 ≤ n) ∧
    (∀ l1 l2, c ≤ l1 → l1 < n → c ≤ l2 → l2 < n →
      (forUp (col_swap_step m n) c (A, idx)).2.getD l1 0 =
        (forUp (col_swap_step m n) c (A, idx)).2.getD l2 0 → l1 = l2) ∧
    (∀ l t, l < c → t < m →
      (forUp (col_swap_step m n) c (A, idx)).1.getD (l * m + t) 0 =
        A.getD ((idx.getD l 0 - 1).toNat * m + t) 0) ∧
    (∀ l t, c ≤ l → l < n → t < m →
      (forUp (col_swap_step m n) c (A, idx)).1.getD
          (((forUp (col_swap_step m n) c (A, idx)).2.getD l 0 - 1).toNat * m + t) 0 =
        A.getD ((idx.getD l 0 - 1).toNat * m + t) 0) := by
  induction c with
  | zero =>
    refine ⟨rfl, hlen, ?_, ?_, ?_, ?_⟩
    · intro l _ hl
      have := hrange l hl
      exact ⟨by simpa using this.1, this.2⟩
    · intro l1 l2 _ h1 _ h2 h
      exact hinj l1 l2 h1 h2 h
    · intro l t hl
      omega
    · intro l t _ _ _
      rfl
  | succ c ih =>
    obtain ⟨i1, i2, i3, i4, i5, i6⟩ := ih (by omega)
    have hst : forUp (col_swap_step m n) (c + 1) (A, idx) =
        col_swap_step m n c ((forUp (col_swap_step m n) c (A, idx)).1,
          (forUp (col_swap_step m n) c (A, idx)).2) := rfl
    rw [hst]
    generalize (forUp (col_swap_step m n) c (A, idx)).1 = B at *
    generalize (forUp (col_swap_step m n) c (A, idx)).2 = ix at *
    obtain ⟨s1, s2, s3, s4⟩ :=
      col_swap_step_spec m n c B ix (by omega) (by omega) i2 i3 i4
    obtain ⟨hc1, hc2⟩ := i3 c (le_refl _) (by omega)
    have hcc : c < n := by omega
    refine ⟨by rw [s1, i1], s2, ?_, ?_, ?_, ?_⟩
    · intro l hl1 hl2
      rw [s4 l (by omega) hl2]
      obtain ⟨r1, r2⟩ := i3 l (by omega) hl2
      by_cases h : ix.getD l 0 = (c : Int) + 1
      · rw [if_pos h]
        have hne : ix.getD c 0 ≠ (c : Int) + 1 := by
          intro g
          have := i4 c l (le_refl _) hcc (by omega) hl2 (by rw [g, h])
          omega
        push_cast
        omega
      · rw [if_neg h]
        push_cast
        omega
    · intro l1 l2 h1 h2 h3 h4
      rw [s4 l1 (by omega) h2, s4 l2 (by omega) h4]
      by_cases g1 : ix.getD l1 0 = (c : Int) + 1
      · by_cases g2 : ix.getD l2 0 = (c : Int) + 1
        · intro _
          exact i4 l1 l2 (by omega) h2 (by omega) h4 (by rw [g1, g2])
        · rw [if_pos g1, if_neg g2]
          intro h
          have := i4 c l2 (le_refl _) hcc (by omega) h4 h
          omega
      · by_cases g2 : ix.getD l2 0 = (c : Int) + 1
        · rw [if_neg g1, if_pos g2]
          intro h
          have := i4 l1 c (by omega) h2 (le_refl _) hcc h
          omega
        · rw [if_neg g1, if_neg g2]
          intro h
          exact i4 l1 l2 (by omega) h2 (by omega) h4 h
    · intro l t hl ht
      rw [s3 l t (by omega) ht]
      by_cases g : l = c
      · subst g
        rw [if_pos rfl]
        exact i6 l t (le_refl _) hcc ht
      · rw [if_neg g, if_neg (by omega)]
        exact i5 l t (by omega) ht
    · intro l t hl1 hl2 ht
      obtain ⟨r1, r2⟩ := i3 l (by omega) hl2
      rw [s4 l (by omega) hl2]
      by_cases h : ix.getD l 0 = (c : Int) + 1
      · rw [if_pos h]
        have hne : ix.getD c 0 ≠ (c : Int) + 1 := by
          intro g
          have := i4 c l (le_refl _) hcc (by omega) hl2 (by rw [g, h])
          omega
        rw [s3 _ t (by omega) ht, if_neg (by omega), if_pos rfl]
        have := i6 l t (by omega) hl2 ht
        rw [h] at this
        simpa using this
      · rw [if_neg h]
        have hne : ix.getD l 0 ≠ ix.getD c 0 := by
          intro g
          have := i4 l c (by omega) hl2 (le_refl _) hcc g
          omega
        rw [s3 _ t (by omega) ht, if_neg (by omega), if_neg (by omega)]
        exact i6 l t (by omega) hl2 ht

end col_swap_invariant

section col_swap_main

variable {T : Type} [Zero T]

theorem list_eq_of_getD (A B : List T) (hl : A.length = B.length)
    (h : ∀ p, p < A.length → A.getD p 0 = B.getD p 0) : A = B := by
  apply List.ext_getElem hl
  intro p h1 h2
  have := h p h1
  rwa [List.getD_eq_getElem A 0 h1, List.getD_eq_getElem B 0 h2] at this

/-- What it means for `idx` to be a permutation of `1, .., n`, entry by entry. -/
theorem perm_one_based_facts (n : Nat) (idx : List Int)
    (hperm : idx.Perm ((List.range n).map (fun i : Nat => (i : Int) + 1))) :
    idx.length = n ∧
    (∀ l, l < n → 1 ≤ idx.getD l 0 ∧ idx.getD l 0 ≤ n) ∧
    (∀ l1 l2, l1 < n → l2 < n → idx.getD l1 0 = idx.getD l2 0 → l1 = l2) := by
  have hlen : idx.length = n := by
    rw [hperm.length_eq, List.length_map, List.length_range]
  have hnd : idx.Nodup := by
    rw [hperm.nodup_iff]
    exact (List.nodup_range n).map (fun a b h => by simpa using h)
  refine ⟨hlen, ?_, ?_⟩
  · intro l hl
    have hl2 : l < idx.length := by omega
    have hmem : idx.getD l 0 ∈ (List.range n).map (fun i : Nat => (i : Int) + 1) := by
      rw [← hperm.mem_iff, List.getD_eq_getElem idx 0 hl2]
      exact List.getElem_mem hl2
    rw [List.mem_map] at hmem
    obtain ⟨a, ha, hval⟩ := hmem
    rw [List.mem_range] at ha
    omega
  · intro l1 l2 h1 h2 h
    have g1 : l1 < idx.length := by omega
    have g2 : l2 < idx.length := by omega
    rw [List.getD_eq_getElem idx 0 g1, List.getD_eq_getElem idx 0 g2] at h
    exact (hnd.getElem_inj_iff).mp h

theorem col_swap_columns (m n : Nat) (A : List T) (idx : List Int)
    (hA : A.length = m * n)
    (hperm : idx.Perm ((List.range n).map (fun i : Nat => (i : Int) + 1))) :
    (col_swap m n n A idx).length = m * n ∧
    ∀ i t, i < n → t < m →
      (col_swap m n n A idx).getD (i * m + t) 0 =
        A.getD ((idx.getD i 0 - 1).toNat * m + t) 0 := by
  obtain ⟨h1, h2, h3⟩ := perm_one_based_facts n idx hperm
  obtain ⟨i1, -, -, -, i5, -⟩ :=
    col_swap_invariant m n A idx (by rw [hA, Nat.mul_comm]) h1 h2 h3 n (le_refl _)
  exact ⟨by rw [← hA]; exact i1, fun i t hi ht => i5 i t hi ht⟩

/-- C3: `col_swap` applies the permutation.  For every `m x n` column-major buffer `A` and
every 1-based index array `idx` that is a permutation of `1..n` (with `k = n`), after
`col_swap(m, n, n, A, idx)` the buffer still has `m * n` elements and column `i` holds the
original column `idx[i] - 1`, for every `i < n`, whatever the cycle structure of `idx`. -/
theorem col_swap_applies_permutation (m n : Nat) (A : List T) (idx : List Int)
    (hA : A.length = m * n)
    (hperm : idx.Perm ((List.range n).map (fun i : Nat => (i : Int) + 1))) :
    (col_swap m n n A idx).length = m * n ∧
    ∀ i t, i < n → t < m →
      (col_swap m n n A idx).getD (i * m + t) 0 =
        rdAt A ((idx.getD i 0 - 1) * (m : Int) + (t : Int)) := by
  obtain ⟨h1, h2, h3⟩ := perm_one_based_facts n idx hperm
  obtain ⟨hl, hcol⟩ := col_swap_columns m n A idx hA hperm
  refine ⟨hl, ?_⟩
  intro i t hi ht
  have hj : idx.getD i 0 - 1 = (((idx.getD i 0 - 1).toNat : Nat) : Int) := by
    have := h2 i hi
    omega
  rw [hcol i t hi ht, hj, ← Nat.cast_mul, ← Nat.cast_add, rdAt_natCast, ← hj]

/-- C4: for every `m x n` buffer `A` and every permutation `idx` of `1..n` with inverse
permutation `inv` (`idx[inv[i] - 1] = i + 1` for all `i < n`), `col_swap(m, n, n, A, idx)`
followed by `col_swap(m, n, n, A, inv)` gives back the original buffer: every column is
in its original position with its original contents. -/
theorem col_swap_inverse_restores (m n : Nat) (A : List T) (idx inv : List Int)
    (hA : A.length = m * n)
    (hperm : idx.Perm ((List.range n).map (fun i : Nat => (i : Int) + 1)))
    (hperm_inv : inv.Perm ((List.range n).map (fun i : Nat => (i : Int) + 1)))
    (hinv : ∀ i, i < n → rdAt idx (inv.getD i 0 - 1) = (i : Int) + 1) :
    col_swap m n n (col_swap m n n A idx) inv = A := by
  obtain ⟨hl1, hcol1⟩ := col_swap_columns m n A idx hA hperm
  obtain ⟨hl2, hcol2⟩ := col_swap_columns m n (col_swap m n n A idx) inv hl1 hperm_inv
  obtain ⟨g1, g2, g3⟩ := perm_one_based_facts n inv hperm_inv
  have key : ∀ q t, q < n → t < m →
      (col_swap m n n (col_swap m n n A idx) inv).getD (q * m + t) 0 =
        A.getD (q * m + t) 0 := by
    intro q t hq ht
    have hr := g2 q hq
    have hjn : (inv.getD q 0 - 1).toNat < n := by omega
    have hi := hinv q hq
    have hj : inv.getD q 0 - 1 = (((inv.getD q 0 - 1).toNat : Nat) : Int) := by omega
    rw [hj, rdAt_natCast] at hi
    have hback : ((q : Int) + 1 - 1).toNat = q := by omega
    rw [hcol2 q t hq ht, hcol1 _ t hjn ht, hi, hback]
  apply list_eq_of_getD _ _ (by rw [hl2, hA])
  intro p hp
  rw [hl2] at hp
  have hm : 0 < m := by
    rcases Nat.eq_zero_or_pos m with h | h
    · rw [h] at hp; omega
    · exact h
  have hq : p / m < n := by
    rw [Nat.div_lt_iff_lt_mul hm, Nat.mul_comm]
    exact hp
  have hpd : p / m * m + p % m = p := by
    rw [Nat.mul_comm]
    exact Nat.div_add_mod p m
  have := key (p / m) (p % m) hq (Nat.mod_lt p hm)
  rwa [hpd] at this

theorem col_swap_applies_permutation_witness :
    ([10, 11, 20, 21, 30, 31] : List Int).length = 2 * 3 ∧
    List.Perm ([2, 3, 1] : List Int) ((List.range 3).map (fun i : Nat => (i : Int) + 1)) ∧
    col_swap 2 3 3 ([10, 11, 20, 21, 30, 31] : List Int) [2, 3, 1]
      = [20, 21, 30, 31, 10, 11] ∧
    ((col_swap 2 3 3 ([10, 11, 20, 21, 30, 31] : List Int) [2, 3, 1]).length = 2 * 3 ∧
      ∀ i t, i < 3 → t < 2 →
        (col_swap 2 3 3 ([10, 11, 20, 21, 30, 31] : List Int) [2, 3, 1]).getD (i * 2 + t) 0 =
          rdAt ([10, 11, 20, 21, 30, 31] : List Int)
            ((([2, 3, 1] : List Int).getD i 0 - 1) * ((2 : Nat) : Int) + (t : Int))) :=
  ⟨by decide, by decide, by decide,
    col_swap_applies_permutation 2 3 ([10, 11, 20, 21, 30, 31] : List Int) [2, 3, 1]
      (by decide) (by decide)⟩

theorem col_swap_inverse_restores_witness :
    ([10, 11, 20, 21, 30, 31] : List Int).length = 2 * 3 ∧
    List.Perm ([2, 3, 1] : List Int) ((List.range 3).map (fun i : Nat => (i : Int) + 1)) ∧
    List.Perm ([3, 1, 2] : List Int) ((List.range 3).map (fun i : Nat => (i : Int) + 1)) ∧
    (∀ i, i < 3 →
      rdAt ([2, 3, 1] : List Int) (([3, 1, 2] : List Int).getD i 0 - 1) = (i : Int) + 1) ∧
    col_swap 2 3 3 (col_swap 2 3 3 ([10, 11, 20, 21, 30, 31] : List Int) [2, 3, 1]) [3, 1, 2]
      = [10, 11, 20, 21, 30, 31] :=
  ⟨by decide, by decide, by decide, by decide,
    col_swap_inverse_restores 2 3 ([10, 11, 20, 21, 30, 31] : List Int) [2, 3, 1] [3, 1, 2]
      (by decide) (by decide) (by decide) (by decide)⟩

end col_swap_main

/-! ## Properties of `upsize` and `row_resize` -/

section upsize_props

variable {T : Type} [Zero T]

theorem upsize_length (t : Nat) (A : List T) : (upsize t A).length = max A.length t := by
  unfold upsize
  split_ifs with h
  · rw [List.length_append, List.length_replicate]
    omega
  · omega

theorem upsize_getD (t : Nat) (A : List T) (p : Nat) :
    (upsize t A).getD p 0 = A.getD p 0 := by
  unfold upsize
  split_ifs with h
  · by_cases hp : p < A.length
    · rw [List.getD_append _ _ _ _ hp]
    · rw [List.getD_append_right _ _ _ _ (by omega), getD_of_length_le A p 0 (by omega)]
      simp only [List.getD_eq_getElem?_getD, List.getElem?_replicate]
      split_ifs <;> rfl
  · rfl

theorem upsize_of_le (t : Nat) (B : List T) (h : t ≤ B.length) : upsize t B = B := by
  unfold upsize
  rw [if_neg (by omega)]

/-- C8: `upsize` never truncates.  For every buffer `A` of length `L` and every target `t`,
after `upsize(t, A)` the length is `max(L, t)`, the first `L` elements are unchanged and
every element at an index in `[L, t)` is zero; a second `upsize(t, A)` changes nothing. -/
theorem upsize_never_truncates (t : Nat) (A : List T) :
    (upsize t A).length = max A.length t ∧
    (∀ p, p < A.length → (upsize t A)[p]? = A[p]?) ∧
    (∀ p, A.length ≤ p → p < t → (upsize t A)[p]? = some 0) ∧
    upsize t (upsize t A) = upsize t A := by
  refine ⟨upsize_length t A, ?_, ?_, ?_⟩
  · intro p hp
    unfold upsize
    split_ifs
    · rw [List.getElem?_append_left hp]
    · rfl
  · intro p h1 h2
    unfold upsize
    rw [if_pos (by omega), List.getElem?_append_right h1, List.getElem?_replicate,
      if_pos (by omega)]
  · have hl := upsize_length t A
    exact upsize_of_le t _ (by omega)

end upsize_props

section row_resize_down

variable {T : Type} [Zero T]

theorem mul_addr_lt {k j c i : Nat} (hi : i < k) (hj : j < c) : k * j + i < k * c := by
  have h := Nat.mul_le_mul_left k (Nat.succ_le_of_lt hj)
  rw [Nat.mul_succ] at h
  omega

/-- Loop invariant of the sizing-down branch of `row_resize` after `c` iterations: columns
`0, .., c` are packed with leading dimension `k` and nothing at or beyond `k * (c + 1)` has
been written. -/
theorem row_resize_down_invariant (m n k : Nat) (A : List T) (hk : k < m)
    (hA : m * n ≤ A.length) (c : Nat) (hc : c + 1 ≤ n) :
    (forUp (fun c (st : List T × Nat) =>
        (blas_copy k st.1 (m * (c + 1)) st.2, st.2 + k)) c (A, k)).2 = k * (c + 1) ∧
    (forUp (fun c (st : List T × Nat) =>
        (blas_copy k st.1 (m * (c + 1)) st.2, st.2 + k)) c (A, k)).1.length = A.length ∧
    (∀ j i, j ≤ c → i < k →
      (forUp (fun c (st : List T × Nat) =>
        (blas_copy k st.1 (m * (c + 1)) st.2, st.2 + k)) c (A, k)).1.getD (k * j + i) 0 =
        A.getD (m * j + i) 0) ∧
    (∀ p, k * (c + 1) ≤ p →
      (forUp (fun c (st : List T × Nat) =>
        (blas_copy k st.1 (m * (c + 1)) st.2, st.2 + k)) c (A, k)).1.getD p 0 =
        A.getD p 0) := by
  induction c with
  | zero =>
    refine ⟨by simp [forUp], rfl, ?_, fun p _ => rfl⟩
    intro j i hj hi
    have : j = 0 := by omega
    subst this
    simp [forUp]
  | succ c ih =>
    obtain ⟨i1, i2, i3, i4⟩ := ih (by omega)
    have hst : forUp (fun c (st : List T × Nat) =>
        (blas_copy k st.1 (m * (c + 1)) st.2, st.2 + k)) (c + 1) (A, k) =
        (blas_copy k (forUp (fun c (st : List T × Nat) =>
            (blas_copy k st.1 (m * (c + 1)) st.2, st.2 + k)) c (A, k)).1 (m * (c + 1))
          (forUp (fun c (st : List T × Nat) =>
            (blas_copy k st.1 (m * (c + 1)) st.2, st.2 + k)) c (A, k)).2,
         (forUp (fun c (st : List T × Nat) =>
            (blas_copy k st.1 (m * (c + 1)) st.2, st.2 + k)) c (A, k)).2 + k) := rfl
    rw [hst]
    generalize (forUp (fun c (st : List T × Nat) =>
        (blas_copy k st.1 (m * (c + 1)) st.2, st.2 + k)) c (A, k)) = st at *
    obtain ⟨B, e⟩ := st
    simp only at i1 i2 i3 i4 ⊢
    subst i1
    have hkm : k * (c + 1) ≤ m * (c + 1) := Nat.mul_le_mul_right _ (le_of_lt hk)
    have hsrc : m * (c + 1) + m ≤ m * n := by
      have := Nat.mul_le_mul_left m (show c + 1 + 1 ≤ n by omega)
      rw [Nat.mul_succ] at this
      exact this
    have hcopy := blas_copy_getD k B (m * (c + 1)) (k * (c + 1)) hkm (by omega)
    refine ⟨by rw [Nat.mul_succ k (c + 1)], by rw [blas_copy_length, i2], ?_, ?_⟩
    · intro j i hj hi
      rw [hcopy]
      by_cases hjc : j = c + 1
      · subst hjc
        rw [if_pos ⟨by omega, by omega⟩, i4 _ (by omega)]
        congr 1
        omega
      · have := @mul_addr_lt k j (c + 1) i hi (by omega)
        rw [if_neg (by omega)]
        exact i3 j i (by omega) hi
    · intro p hp
      rw [Nat.mul_succ k (c + 1)] at hp
      rw [hcopy, if_neg (by omega)]
      exact i4 p (by omega)

/-- C7: `row_resize` shrinking.  For every `n ≥ 1`, every `k < m` and every buffer `A` of at
least `m * n` elements, after `row_resize(m, n, A, k)` the vector has its old length and
the element at index `k * j + i` is the original `A[m * j + i]`, for every column `j < n`
and every row `i < k`: the top `k` rows of every column, packed with leading dimension
`k`. -/
theorem row_resize_shrink (m n k : Nat) (A : List T) (hn : 1 ≤ n) (hk : k < m)
    (hA : m * n ≤ A.length) :
    (row_resize m n A k).length = A.length ∧
    ∀ j i, j < n → i < k → (row_resize m n A k)[k * j + i]? = A[m * j + i]? := by
  obtain ⟨-, i2, i3, -⟩ := row_resize_down_invariant m n k A hk hA (n - 1) (by omega)
  have hdef : row_resize m n A k = (forUp (fun c (st : List T × Nat) =>
      (blas_copy k st.1 (m * (c + 1)) st.2, st.2 + k)) (n - 1) (A, k)).1 := by
    unfold row_resize
    rw [if_pos hk]
  rw [hdef]
  refine ⟨i2, ?_⟩
  intro j i hj hi
  have hsrc : m * j + i < A.length := by
    have := @mul_addr_lt m j n i (by omega) hj
    omega
  have hdst : k * j + i < A.length := by
    have := Nat.mul_le_mul_right j (le_of_lt hk)
    omega
  have h := i3 j i (by omega) hi
  rw [List.getD_eq_getElem _ 0 (by rw [i2]; exact hdst), List.getD_eq_getElem _ 0 hsrc] at h
  rw [List.getElem?_eq_getElem (by rw [i2]; exact hdst), List.getElem?_eq_getElem hsrc, h]

theorem row_resize_shrink_witness :
    1 ≤ 3 ∧ 2 < 3 ∧ 3 * 3 ≤ ([1, 2, 3, 4, 5, 6, 7, 8, 9] : List Int).length ∧
    row_resize 3 3 ([1, 2, 3, 4, 5, 6, 7, 8, 9] : List Int) 2 = [1, 2, 4, 5, 7, 8, 7, 8, 9] ∧
    ((row_resize 3 3 ([1, 2, 3, 4, 5, 6, 7, 8, 9] : List Int) 2).length
        = ([1, 2, 3, 4, 5, 6, 7, 8, 9] : List Int).length ∧
      ∀ j i, j < 3 → i < 2 →
        (row_resize 3 3 ([1, 2, 3, 4, 5, 6, 7, 8, 9] : List Int) 2)[2 * j + i]? =
          ([1, 2, 3, 4, 5, 6, 7, 8, 9] : List Int)[3 * j + i]?) :=
  ⟨by decide, by decide, by decide, by decide,
    row_resize_shrink 3 3 2 ([1, 2, 3, 4, 5, 6, 7, 8, 9] : List Int)
      (by decide) (by decide) (by decide)⟩

end row_resize_down

section row_resize_up

variable {T : Type} [Zero T]

/-- Loop invariant of the sizing-up branch of `row_resize` after `c` iterations, on a
buffer `A1` that already has at least `k * n` elements: the columns `n - c, .., n - 1` are
in place with leading dimension `k`, the rows `m, .., k - 1` of the columns
`n - 1 - c, .., n - 2` are zero, nothing below `m * (n - c)` and nothing at or beyond
`k * (n - 1) + m` has been written. -/
theorem row_resize_up_invariant (m n k : Nat) (A1 : List T) (hk : m ≤ k)
    (hA : k * n ≤ A1.length) (c : Nat) (hc : c + 1 ≤ n) :
    (forUp (fun c (st : List T × Nat) =>
        (std_fill (blas_copy_rev m st.1 (m * (n - 1 - c)) st.2) (m * (n - 1 - c)) st.2 0,
          st.2 - k)) c (A1, k * (n - 1))).2 = k * (n - 1 - c) ∧
    (forUp (fun c (st : List T × Nat) =>
        (std_fill (blas_copy_rev m st.1 (m * (n - 1 - c)) st.2) (m * (n - 1 - c)) st.2 0,
          st.2 - k)) c (A1, k * (n - 1))).1.length = A1.length ∧
    (∀ p, p < m * (n - c) →
      (forUp (fun c (st : List T × Nat) =>
        (std_fill (blas_copy_rev m st.1 (m * (n - 1 - c)) st.2) (m * (n - 1 - c)) st.2 0,
          st.2 - k)) c (A1, k * (n - 1))).1.getD p 0 = A1.getD p 0) ∧
    (∀ j i, n - c ≤ j → j < n → i < m →
      (forUp (fun c (st : List T × Nat) =>
        (std_fill (blas_copy_rev m st.1 (m * (n - 1 - c)) st.2) (m * (n - 1 - c)) st.2 0,
          st.2 - k)) c (A1, k * (n - 1))).1.getD (k * j + i) 0 = A1.getD (m * j + i) 0) ∧
    (∀ j i, n - 1 - c ≤ j → j + 1 < n → m ≤ i → i < k →
      (forUp (fun c (st : List T × Nat) =>
        (std_fill (blas_copy_rev m st.1 (m * (n - 1 - c)) st.2) (m * (n - 1 - c)) st.2 0,
          st.2 - k)) c (A1, k * (n - 1))).1.getD (k * j + i) 0 = 0) ∧
    (∀ p, k * (n - 1) + m ≤ p →
      (forUp (fun c (st : List T × Nat) =>
        (std_fill (blas_copy_rev m st.1 (m * (n - 1 - c)) st.2) (m * (n - 1 - c)) st.2 0,
          st.2 - k)) c (A1, k * (n - 1))).1.getD p 0 = A1.getD p 0) := by
  induction c with
  | zero =>
    refine ⟨rfl, rfl, fun p _ => rfl, ?_, ?_, fun p _ => rfl⟩
    · intro j i h1 h2
      omega
    · intro j i h1 h2
      omega
  | succ c ih =>
    obtain ⟨i1, i2, i3, i4, i5, i6⟩ := ih (by omega)
    have hst : forUp (fun c (st : List T × Nat) =>
        (std_fill (blas_copy_rev m st.1 (m * (n - 1 - c)) st.2) (m * (n - 1 - c)) st.2 0,
          st.2 - k)) (c + 1) (A1, k * (n - 1)) =
        (std_fill (blas_copy_rev m (forUp (fun c (st : List T × Nat) =>
            (std_fill (blas_copy_rev m st.1 (m * (n - 1 - c)) st.2) (m * (n - 1 - c)) st.2 0,
              st.2 - k)) c (A1, k * (n - 1))).1 (m * (n - 1 - c))
          (forUp (fun c (st : List T × Nat) =>
            (std_fill (blas_copy_rev m st.1 (m * (n - 1 - c)) st.2) (m * (n - 1 - c)) st.2 0,
              st.2 - k)) c (A1, k * (n - 1))).2) (m * (n - 1 - c))
          (forUp (fun c (st : List T × Nat) =>
            (std_fill (blas_copy_rev m st.1 (m * (n - 1 - c)) st.2) (m * (n - 1 - c)) st.2 0,
              st.2 - k)) c (A1, k * (n - 1))).2 0,
         (forUp (fun c (st : List T × Nat) =>
            (std_fill (blas_copy_rev m st.1 (m * (n - 1 - c)) st.2) (m * (n - 1 - c)) st.2 0,
              st.2 - k)) c (A1, k * (n - 1))).2 - k) := rfl
    rw [hst]
    generalize (forUp (fun c (st : List T × Nat) =>
        (std_fill (blas_copy_rev m st.1 (m * (n - 1 - c)) st.2) (m * (n - 1 - c)) st.2 0,
          st.2 - k)) c (A1, k * (n - 1))) = st at *
    obtain ⟨B, e⟩ := st
    simp only at i1 i2 i3 i4 i5 i6 ⊢
    subst i1
    -- the column handled by this iteration is `i + 1`, with `i = n - 1 - (c + 1)`
    obtain ⟨i, hi⟩ : ∃ i, n = i + c + 2 := ⟨n - (c + 2), by omega⟩
    have e1 : n - 1 - c = i + 1 := by omega
    have e2 : n - 1 - (c + 1) = i := by omega
    have e3 : n - (c + 1) = i + 1 := by omega
    have e4 : n - c = i + 2 := by omega
    rw [e1] at i5 ⊢
    rw [e2, e3]
    rw [e4] at i3 i4
    have hk1 : k * (i + 1) = k * i + k := Nat.mul_succ k i
    have hm1 : m * (i + 1) = m * i + m := Nat.mul_succ m i
    have hm2 : m * (i + 2) = m * i + m + m := by rw [Nat.mul_succ, Nat.mul_succ]
    have hmk : m * i ≤ k * i := Nat.mul_le_mul_right i hk
    have hkn : k * (i + 1) + k ≤ k * n := by
      have := Nat.mul_le_mul_left k (show i + 2 ≤ n by omega)
      rw [Nat.mul_succ] at this
      exact this
    have hkl : k * (i + 1) ≤ k * (n - 1) := Nat.mul_le_mul_left k (by omega)
    have hcopy := blas_copy_rev_getD m B (m * (i + 1)) (k * (i + 1)) (by omega) (by omega)
    have hfill := std_fill_getD (blas_copy_rev m B (m * (i + 1)) (k * (i + 1)))
      (m * (i + 1)) (k * (i + 1)) 0
    rw [blas_copy_rev_length] at hfill
    refine ⟨by omega, by rw [std_fill_length, blas_copy_rev_length, i2], ?_, ?_, ?_, ?_⟩
    · intro p hp
      rw [hfill, if_neg (by omega), hcopy, if_neg (by omega)]
      exact i3 p (by omega)
    · intro j r hj1 hj2 hr
      rw [hfill]
      by_cases hj : j = i + 1
      · subst hj
        rw [if_neg (by omega), hcopy, if_pos ⟨by omega, by omega⟩, i3 _ (by omega)]
        congr 1
        omega
      · have := Nat.mul_le_mul_left k (show i + 2 ≤ j by omega)
        rw [Nat.mul_succ] at this
        rw [if_neg (by omega), hcopy, if_neg (by omega)]
        exact i4 j r (by omega) hj2 hr
    · intro j r hj1 hj2 hr1 hr2
      rw [hfill]
      by_cases hj : j = i
      · subst hj
        rw [if_pos ⟨by omega, by omega, by omega⟩]
      · have := Nat.mul_le_mul_left k (show i + 1 ≤ j by omega)
        rw [if_neg (by omega), hcopy, if_neg (by omega)]
        exact i5 j r (by omega) hj2 hr1 hr2
    · intro p hp
      rw [hfill, if_neg (by omega), hcopy, if_neg (by omega)]
      exact i6 p hp

end row_resize_up

section row_resize_main

variable {T : Type} [Zero T]

theorem row_resize_down_getD (m n k : Nat) (A : List T) (hn : 1 ≤ n) (hk : k < m)
    (hA : m * n ≤ A.length) :
    (row_resize m n A k).length = A.length ∧
    ∀ j i, j < n → i < k → (row_resize m n A k).getD (k * j + i) 0 = A.getD (m * j + i) 0 := by
  obtain ⟨-, i2, i3, -⟩ := row_resize_down_invariant m n k A hk hA (n - 1) (by omega)
  have hdef : row_resize m n A k = (forUp (fun c (st : List T × Nat) =>
      (blas_copy k st.1 (m * (c + 1)) st.2, st.2 + k)) (n - 1) (A, k)).1 := by
    unfold row_resize
    rw [if_pos hk]
  rw [hdef]
  exact ⟨i2, fun j i hj hi => i3 j i (by omega) hi⟩

theorem row_resize_up_getD (m n k : Nat) (A : List T) (hn : 1 ≤ n) (hk : m ≤ k) :
    (row_resize m n A k).length = max A.length (k * n) ∧
    (∀ j i, j < n → i < m → (row_resize m n A k).getD (k * j + i) 0 = A.getD (m * j + i) 0) ∧
    (∀ j i, j + 1 < n → m ≤ i → i < k → (row_resize m n A k).getD (k * j + i) 0 = 0) ∧
    (∀ p, k * (n - 1) + m ≤ p → (row_resize m n A k).getD p 0 = A.getD p 0) := by
  have hlen := upsize_length (k * n) A
  obtain ⟨-, i2, i3, i4, i5, i6⟩ :=
    row_resize_up_invariant m n k (upsize (k * n) A) hk (by omega) (n - 1) (by omega)
  have hdef : row_resize m n A k = (forUp (fun c (st : List T × Nat) =>
      (std_fill (blas_copy_rev m st.1 (m * (n - 1 - c)) st.2) (m * (n - 1 - c)) st.2 0,
        st.2 - k)) (n - 1) (upsize (k * n) A, k * (n - 1))).1 := by
    unfold row_resize
    rw [if_neg (by omega)]
  rw [hdef]
  have e1 : n - (n - 1) = 1 := by omega
  have e2 : n - 1 - (n - 1) = 0 := by omega
  rw [e1] at i3 i4
  rw [e2] at i5
  refine ⟨by rw [i2, hlen], ?_, ?_, ?_⟩
  · intro j i hj hi
    by_cases h0 : j = 0
    · subst h0
      have := i3 (k * 0 + i) (by omega)
      rw [this, upsize_getD, Nat.mul_zero, Nat.mul_zero]
    · rw [i4 j i (by omega) hj hi, upsize_getD]
  · intro j i hj h1 h2
    exact i5 j i (by omega) hj h1 h2
  · intro p hp
    rw [i6 p hp, upsize_getD]

/-- C5: `row_resize` growing.  For every `m ≥ 0`, `n ≥ 1`, `k ≥ m` and every buffer `A`
holding exactly `m * n` elements, after `row_resize(m, n, A, k)` the buffer has `k * n`
elements and, for every column `j < n` and row `i < k`, the element at index `k * j + i` is
the original `A[m * j + i]` when `i < m` and `0` when `m ≤ i < k`. -/
theorem row_resize_grow (m n k : Nat) (A : List T) (hn : 1 ≤ n) (hk : m ≤ k)
    (hA : A.length = m * n) :
    (row_resize m n A k).length = k * n ∧
    ∀ j i, j < n → i < k →
      (row_resize m n A k)[k * j + i]? = if i < m then A[m * j + i]? else some 0 := by
  obtain ⟨h1, h2, h3, h4⟩ := row_resize_up_getD m n k A hn hk
  have hmn : m * n ≤ k * n := Nat.mul_le_mul_right n hk
  have hlen : (row_resize m n A k).length = k * n := by rw [h1, hA]; omega
  refine ⟨hlen, ?_⟩
  intro j i hj hi
  have hdst : k * j + i < (row_resize m n A k).length := by
    rw [hlen]
    exact mul_addr_lt hi hj
  rw [List.getElem?_eq_getElem hdst, ← List.getD_eq_getElem _ 0 hdst]
  by_cases him : i < m
  · have hsrc : m * j + i < A.length := by
      rw [hA]
      exact mul_addr_lt him hj
    rw [if_pos him, h2 j i hj him, List.getElem?_eq_getElem hsrc,
      List.getD_eq_getElem _ 0 hsrc]
  · rw [if_neg him]
    by_cases hlast : j + 1 < n
    · rw [h3 j i hlast (by omega) hi]
    · have hj1 : j = n - 1 := by omega
      have hm1 : m * (n - 1) + m = m * n := by
        have := Nat.mul_succ m (n - 1)
        rw [show (n - 1).succ = n by omega] at this
        omega
      have hmk : m * (n - 1) ≤ k * (n - 1) := Nat.mul_le_mul_right _ hk
      subst hj1
      rw [h4 _ (by omega), getD_of_length_le A _ 0 (by omega)]

/-- C6: `row_resize` round trip.  For every `m, n ≥ 1`, every `k ≥ m` and every buffer `A`
holding an `m x n` matrix (at least `m * n` elements), `row_resize(m, n, A, k)` followed
by `row_resize(k, n, A, m)` leaves the first `m * n` elements of `A` equal to the original
ones. -/
theorem row_resize_round_trip (m n k : Nat) (A : List T) (hm : 1 ≤ m) (hn : 1 ≤ n)
    (hk : m ≤ k) (hA : m * n ≤ A.length) :
    (row_resize k n (row_resize m n A k) m).take (m * n) = A.take (m * n) := by
  obtain ⟨h1, h2, -, -⟩ := row_resize_up_getD m n k A hn hk
  have hmn : m * n ≤ k * n := Nat.mul_le_mul_right n hk
  have hcol : (m * n ≤ (row_resize k n (row_resize m n A k) m).length) ∧
      ∀ j i, j < n → i < m →
        (row_resize k n (row_resize m n A k) m).getD (m * j + i) 0 =
          A.getD (m * j + i) 0 := by
    by_cases hkm : m < k
    · obtain ⟨g1, g2⟩ := row_resize_down_getD k n m (row_resize m n A k) hn hkm
        (by rw [h1]; omega)
      refine ⟨by rw [g1, h1]; omega, ?_⟩
      intro j i hj hi
      rw [g2 j i hj hi, h2 j i hj hi]
    · have hkeq : k = m := by omega
      subst hkeq
      obtain ⟨g1, g2, -, -⟩ := row_resize_up_getD k n k (row_resize k n A k) hn (le_refl _)
      refine ⟨by rw [g1, h1]; omega, ?_⟩
      intro j i hj hi
      rw [g2 j i hj hi, h2 j i hj hi]
  obtain ⟨hl, hc⟩ := hcol
  apply List.ext_getElem
  · rw [List.length_take, List.length_take]
    omega
  · intro p hp1 hp2
    rw [List.length_take] at hp1 hp2
    have hp : p < m * n := by omega
    have hq : p / m < n := by
      rw [Nat.div_lt_iff_lt_mul (by omega), Nat.mul_comm]
      exact hp
    have hpd : m * (p / m) + p % m = p := Nat.div_add_mod p m
    have := hc (p / m) (p % m) hq (Nat.mod_lt p (by omega))
    rw [hpd, List.getD_eq_getElem _ 0 (by omega), List.getD_eq_getElem _ 0 (by omega)] at this
    rw [List.getElem_take, List.getElem_take]
    exact this

theorem row_resize_grow_witness :
    1 ≤ 3 ∧ 2 ≤ 4 ∧ ([1, 2, 3, 4, 5, 6] : List Int).length = 2 * 3 ∧
    row_resize 2 3 ([1, 2, 3, 4, 5, 6] : List Int) 4 = [1, 2, 0, 0, 3, 4, 0, 0, 5, 6, 0, 0] ∧
    ((row_resize 2 3 ([1, 2, 3, 4, 5, 6] : List Int) 4).length = 4 * 3 ∧
      ∀ j i, j < 3 → i < 4 →
        (row_resize 2 3 ([1, 2, 3, 4, 5, 6] : List Int) 4)[4 * j + i]? =
          if i < 2 then ([1, 2, 3, 4, 5, 6] : List Int)[2 * j + i]? else some 0) :=
  ⟨by decide, by decide, by decide, by decide,
    row_resize_grow 2 3 4 ([1, 2, 3, 4, 5, 6] : List Int) (by decide) (by decide)
      (by decide)⟩

theorem row_resize_round_trip_witness :
    1 ≤ 2 ∧ 1 ≤ 3 ∧ 2 ≤ 4 ∧ 2 * 3 ≤ ([1, 2, 3, 4, 5, 6, 7] : List Int).length ∧
    row_resize 4 3 (row_resize 2 3 ([1, 2, 3, 4, 5, 6, 7] : List Int) 4) 2
      = [1, 2, 3, 4, 5, 6, 0, 0, 5, 6, 0, 0] ∧
    (row_resize 4 3 (row_resize 2 3 ([1, 2, 3, 4, 5, 6, 7] : List Int) 4) 2).take (2 * 3) =
      ([1, 2, 3, 4, 5, 6, 7] : List Int).take (2 * 3) :=
  ⟨by decide, by decide, by decide, by decide, by decide,
    row_resize_round_trip 2 3 4 ([1, 2, 3, 4, 5, 6, 7] : List Int) (by decide) (by decide)
      (by decide) (by decide)⟩

end row_resize_main

/-! ## Properties of `rank_check` and `normc` -/

section rank_check_props

variable {T : Type} [LinearOrderedField T]

/-- When every one of the `n` values passes the test, `rank_check` returns `n`. -/
theorem rank_check_loop_all_pass (s : List T) (eps : T) (n : Nat) :
    ∀ cnt i, (∀ x, i ≤ x → x < i + cnt → ¬ s.getD x 0 / s.getD 0 0 ≤ 5 * eps) →
      rank_check_loop s eps n cnt i = (n : Int) := by
  intro cnt
  induction cnt with
  | zero => intro i _; rfl
  | succ cnt ih =>
    intro i h
    simp only [rank_check_loop]
    rw [if_neg (h i (le_refl _) (by omega))]
    exact ih (i + 1) (fun x h1 h2 => h x (by omega) (by omega))

/-- When `f` is the first index whose value fails the test, `rank_check` returns `f - 1`. -/
theorem rank_check_loop_first_fail (s : List T) (eps : T) (n f : Nat)
    (hfail : s.getD f 0 / s.getD 0 0 ≤ 5 * eps) :
    ∀ cnt i, i ≤ f → f < i + cnt →
      (∀ x, i ≤ x → x < f → ¬ s.getD x 0 / s.getD 0 0 ≤ 5 * eps) →
      rank_check_loop s eps n cnt i = (f : Int) - 1 := by
  intro cnt
  induction cnt with
  | zero => intro i h1 h2; omega
  | succ cnt ih =>
    intro i h1 h2 h
    simp only [rank_check_loop]
    by_cases hif : i = f
    · subst hif
      rw [if_pos hfail]
    · rw [if_neg (h i (le_refl _) (by omega))]
      exact ih (i + 1) (by omega) (by omega) (fun x g1 g2 => h x (by omega) g2)

/-- C9, the code at a failing input: for the `2 x 2` matrix `diag(1, 0)`, whose singular
values are `1, 0`, and the double-precision machine epsilon `2^-52`, exactly one singular
value passes the test `s[i] / s[0] > 5 * eps`, but `rank_check` returns `0`: the early
`return i - 1` is one less than the count, whereas the final `return n` returns the count
when every value passes. -/
theorem rank_check_returns_count_minus_one :
    significant_count ([1, 0] : List ℚ) (1 / 4503599627370496) 2 = 1 ∧
    rank_check (fun _ _ _ => ([1, 0] : List ℚ)) (1 / 4503599627370496) 2 2 [1, 0, 0, 0] = 0 ∧
    significant_count ([1, 1 / 2] : List ℚ) (1 / 4503599627370496) 2 = 2 ∧
    rank_check (fun _ _ _ => ([1, 1 / 2] : List ℚ)) (1 / 4503599627370496) 2 2
      [1, 0, 0, 1 / 2] = 2 := by
  refine ⟨?_, ?_, ?_, ?_⟩
  · norm_num [significant_count, List.range_succ, List.filter]
  · norm_num [rank_check, rank_check_loop]
  · norm_num [significant_count, List.range_succ, List.filter]
  · norm_num [rank_check, rank_check_loop]

end rank_check_props

section normc_props

variable {T : Type} [Field T] [DecidableEq T]

omit [DecidableEq T] in
/-- The row loop of `normc` for one column: every entry is either left alone or becomes the
quotient of the input entry by `c`, and every recorded divisor is `c`. -/
theorem normc_rows_spec (A : List T) (m i : Nat) (c : T) (B log : List T) (r : Nat) :
    (forUp (fun j (st : List T × List T) =>
        (st.1.set (m * i + j) (A.getD (m * i + j) 0 / c), st.2 ++ [c])) r (B, log)).1.length
      = B.length ∧
    (∀ p, (forUp (fun j (st : List T × List T) =>
        (st.1.set (m * i + j) (A.getD (m * i + j) 0 / c), st.2 ++ [c])) r (B, log)).1.getD p 0
        = B.getD p 0 ∨
      (forUp (fun j (st : List T × List T) =>
        (st.1.set (m * i + j) (A.getD (m * i + j) 0 / c), st.2 ++ [c])) r (B, log)).1.getD p 0
        = A.getD p 0 / c) ∧
    (∀ d, d ∈ (forUp (fun j (st : List T × List T) =>
        (st.1.set (m * i + j) (A.getD (m * i + j) 0 / c), st.2 ++ [c])) r (B, log)).2 →
      d ∈ log ∨ d = c) := by
  induction r with
  | zero => exact ⟨rfl, fun p => Or.inl rfl, fun d hd => Or.inl hd⟩
  | succ r ih =>
    obtain ⟨h1, h2, h3⟩ := ih
    rw [forUp_succ]
    generalize (forUp (fun j (st : List T × List T) =>
        (st.1.set (m * i + j) (A.getD (m * i + j) 0 / c), st.2 ++ [c])) r (B, log)) = st
      at h1 h2 h3 ⊢
    simp only
    refine ⟨by rw [List.length_set, h1], ?_, ?_⟩
    · intro p
      rw [getD_set_eq]
      by_cases hp : m * i + r = p ∧ m * i + r < st.1.length
      · rw [if_pos hp, hp.1]
        exact Or.inr rfl
      · rw [if_neg hp]
        exact h2 p
    · intro d hd
      rw [List.mem_append, List.mem_singleton] at hd
      rcases hd with hd | hd
      · exact h3 d hd
      · exact Or.inr hd

/-- Invariant of the column loop of `normc`. -/
theorem normc_run_spec (nrm2 : List T → T) (m n : Nat) (A A_norm : List T) (c : Nat) :
    (forUp (fun i (st : List T × List T) =>
      if nrm2 ((List.range m).map (fun t => A.getD (m * i + t) 0)) ≠ 0 then
        forUp (fun j (st : List T × List T) =>
          (st.1.set (m * i + j)
            (A.getD (m * i + j) 0 / nrm2 ((List.range m).map (fun t => A.getD (m * i + t) 0))),
           st.2 ++ [nrm2 ((List.range m).map (fun t => A.getD (m * i + t) 0))])) m st
      else st) c (upsize (m * n) A_norm, [])).1.length = max A_norm.length (m * n) ∧
    (∀ p, A.getD p 0 = 0 → A_norm.getD p 0 = 0 →
      (forUp (fun i (st : List T × List T) =>
        if nrm2 ((List.range m).map (fun t => A.getD (m * i + t) 0)) ≠ 0 then
          forUp (fun j (st : List T × List T) =>
            (st.1.set (m * i + j)
              (A.getD (m * i + j) 0 / nrm2 ((List.range m).map (fun t => A.getD (m * i + t) 0))),
             st.2 ++ [nrm2 ((List.range m).map (fun t => A.getD (m * i + t) 0))])) m st
        else st) c (upsize (m * n) A_norm, [])).1.getD p 0 = 0) ∧
    (∀ d, d ∈ (forUp (fun i (st : List T × List T) =>
        if nrm2 ((List.range m).map (fun t => A.getD (m * i + t) 0)) ≠ 0 then
          forUp (fun j (st : List T × List T) =>
            (st.1.set (m * i + j)
              (A.getD (m * i + j) 0 / nrm2 ((List.range m).map (fun t => A.getD (m * i + t) 0))),
             st.2 ++ [nrm2 ((List.range m).map (fun t => A.getD (m * i + t) 0))])) m st
        else st) c (upsize (m * n) A_norm, [])).2 → d ≠ 0) := by
  induction c with
  | zero =>
    refine ⟨upsize_length _ _, ?_, ?_⟩
    · intro p _ hp
      show (upsize (m * n) A_norm).getD p 0 = 0
      rw [upsize_getD, hp]
    · intro d hd
      exact absurd hd (List.not_mem_nil d)
  | succ c ih =>
    obtain ⟨h1, h2, h3⟩ := ih
    rw [forUp_succ]
    generalize (forUp (fun i (st : List T × List T) =>
        if nrm2 ((List.range m).map (fun t => A.getD (m * i + t) 0)) ≠ 0 then
          forUp (fun j (st : List T × List T) =>
            (st.1.set (m * i + j)
              (A.getD (m * i + j) 0 / nrm2 ((List.range m).map (fun t => A.getD (m * i + t) 0))),
             st.2 ++ [nrm2 ((List.range m).map (fun t => A.getD (m * i + t) 0))])) m st
        else st) c (upsize (m * n) A_norm, [])) = st at h1 h2 h3 ⊢
    obtain ⟨B, log⟩ := st
    simp only at h1 h2 h3 ⊢
    by_cases hc : nrm2 ((List.range m).map (fun t => A.getD (m * c + t) 0)) = 0
    · rw [if_neg (not_not.mpr hc)]
      exact ⟨h1, h2, h3⟩
    · rw [if_pos hc]
      obtain ⟨g1, g2, g3⟩ := normc_rows_spec A m c
        (nrm2 ((List.range m).map (fun t => A.getD (m * c + t) 0))) B log m
      refine ⟨by rw [g1, h1], ?_, ?_⟩
      · intro p hA hp
        rcases g2 p with h | h
        · rw [h]
          exact h2 p hA hp
        · rw [h, hA, zero_div]
      · intro d hd
        rcases g3 d hd with h | h
        · exact h3 d h
        · rw [h]
          exact hc

end normc_props

section normc_main

variable {T : Type} [Field T] [DecidableEq T]

/-- C10 as stated fails: for the `1 x 1` input `A = [0]` and an output buffer that holds
`[5]` before the call, `normc` finds `col_nrm = 0`, skips the column, and the output column
is still `[5]`, not zero.  (`fun v => |v.headD 0|` is the Euclidean norm of a vector of
length one.) -/
theorem normc_zero_column_keeps_old_values :
    (∀ i, i < 1 → ([0] : List ℚ).getD (1 * 0 + i) 0 = 0) ∧
    normc (fun v => |v.headD 0|) 1 1 ([0] : List ℚ) [5] = [5] ∧
    ¬ (∀ i, i < 1 →
      (normc (fun v => |v.headD 0|) 1 1 ([0] : List ℚ) [5]).getD (1 * 0 + i) 0 = 0) := by
  have h : normc (fun v => |v.headD 0|) 1 1 ([0] : List ℚ) [5] = [5] := by
    norm_num [normc, normc_run, forUp, upsize, List.range_succ]
  refine ⟨?_, h, ?_⟩
  · intro i hi
    have : i = 0 := by omega
    subst this
    rfl
  · intro hall
    have := hall 0 (by decide)
    rw [h] at this
    norm_num at this

/-- C10 (amended): `normc` leaves zero columns as zero when the output column was zero
before.  For every `m x n` input `A` and every output buffer `A_norm`, if column `j` of `A`
is all zero and column `j` of `A_norm` holds only zeros before the call (entries beyond the
end of `A_norm` count as zero: `upsize` creates them as `0`), then after
`normc(m, n, A, A_norm)` column `j` of `A_norm` is all zero; and no division by zero is
performed: every divisor used is non-zero. -/
theorem normc_zero_column_stays_zero (nrm2 : List T → T) (m n : Nat) (A A_norm : List T)
    (j : Nat) (hj : j < n) (hzero : ∀ i, i < m → A.getD (m * j + i) 0 = 0)
    (hprev : ∀ i, i < m → A_norm.getD (m * j + i) 0 = 0) :
    (∀ i, i < m → (normc nrm2 m n A A_norm)[m * j + i]? = some 0) ∧
    ∀ d, d ∈ (normc_run nrm2 m n A A_norm).2 → d ≠ 0 := by
  obtain ⟨h1, h2, h3⟩ := normc_run_spec nrm2 m n A A_norm n
  refine ⟨?_, h3⟩
  intro i hi
  have hlt : m * j + i < (normc nrm2 m n A A_norm).length := by
    have := @mul_addr_lt m j n i hi hj
    show m * j + i < (normc_run nrm2 m n A A_norm).1.length
    unfold normc_run
    rw [h1]
    omega
  have hval : (normc nrm2 m n A A_norm).getD (m * j + i) 0 = 0 :=
    h2 (m * j + i) (hzero i hi) (hprev i hi)
  rw [List.getElem?_eq_getElem hlt, ← List.getD_eq_getElem _ 0 hlt, hval]

theorem normc_zero_column_stays_zero_witness :
    (1 < 2) ∧ (∀ i, i < 1 → ([-2, 0] : List ℚ).getD (1 * 1 + i) 0 = 0) ∧
    (∀ i, i < 1 → ([7] : List ℚ).getD (1 * 1 + i) 0 = 0) ∧
    normc (fun v => |v.headD 0|) 1 2 ([-2, 0] : List ℚ) [7] = [-1, 0] ∧
    ((∀ i, i < 1 →
        (normc (fun v => |v.headD 0|) 1 2 ([-2, 0] : List ℚ) [7])[1 * 1 + i]? = some 0) ∧
      ∀ d, d ∈ (normc_run (fun v => |v.headD 0|) 1 2 ([-2, 0] : List ℚ) [7]).2 → d ≠ 0) :=
  ⟨by decide,
    by intro i hi; have : i = 0 := by omega
       subst this; rfl,
    by intro i hi; have : i = 0 := by omega
       subst this; rfl,
    by norm_num [normc, normc_run, forUp, upsize, List.range_succ, List.replicate],
    normc_zero_column_stays_zero (fun v => |v.headD 0|) 1 2 ([-2, 0] : List ℚ) [7] 1
      (by decide)
      (by intro i hi; have : i = 0 := by omega
          subst this; rfl)
      (by intro i hi; have : i = 0 := by omega
          subst this; rfl)⟩

end normc_main

/-! ## Properties of the further buffer utilities -/

section copy_to_props

variable {T : Type} [Zero T]

theorem blas_copy_to_length (n : Nat) (X : List T) (x incx : Nat) (Y : List T)
    (y incy : Nat) : (blas_copy_to n X x incx Y y incy).length = Y.length := by
  induction n with
  | zero => rfl
  | succ n ih =>
    show (List.set (blas_copy_to n X x incx Y y incy) _ _).length = _
    rw [List.length_set, ih]

/-- Entry-by-entry description of a strided copy between two buffers. -/
theorem blas_copy_to_getD (n : Nat) (X : List T) (x incx : Nat) (Y : List T)
    (y incy : Nat) (hinc : 0 < incy) (p : Nat) :
    (blas_copy_to n X x incx Y y incy).getD p 0 =
      if y ≤ p ∧ (p - y) % incy = 0 ∧ (p - y) / incy < n ∧ p < Y.length then
        X.getD (x + (p - y) / incy * incx) 0
      else Y.getD p 0 := by
  induction n with
  | zero =>
    have h : ¬ (y ≤ p ∧ (p - y) % incy = 0 ∧ (p - y) / incy < 0 ∧ p < Y.length) :=
      fun g => Nat.not_lt_zero _ g.2.2.1
    show Y.getD p 0 = _
    rw [if_neg h]
  | succ n ih =>
    show (List.set (blas_copy_to n X x incx Y y incy) (y + n * incy)
      (X.getD (x + n * incx) 0)).getD p 0 = _
    rw [getD_set_eq, blas_copy_to_length, ih]
    by_cases hp : y + n * incy = p
    · subst hp
      have e1 : y + n * incy - y = n * incy := by omega
      by_cases hl : y + n * incy < Y.length
      · rw [if_pos ⟨rfl, hl⟩, if_pos ⟨by omega, by rw [e1]; exact Nat.mul_mod_left n incy,
          by rw [e1, Nat.mul_div_cancel n hinc]; omega, hl⟩, e1, Nat.mul_div_cancel n hinc]
      · rw [if_neg (fun h => hl h.2), if_neg (fun h => hl h.2.2.2),
          if_neg (fun h => hl h.2.2.2)]
    · rw [if_neg (fun h => hp h.1)]
      by_cases hq : y ≤ p ∧ (p - y) % incy = 0 ∧ (p - y) / incy < n ∧ p < Y.length
      · rw [if_pos hq, if_pos ⟨hq.1, hq.2.1, by omega, hq.2.2.2⟩]
      · have h2 : ¬ (y ≤ p ∧ (p - y) % incy = 0 ∧ (p - y) / incy < n + 1 ∧ p < Y.length) := by
          rintro ⟨h1, h2, h3, h4⟩
          have hdm := Nat.div_add_mod (p - y) incy
          rw [h2, Nat.add_zero] at hdm
          by_cases hn : (p - y) / incy = n
          · rw [hn, Nat.mul_comm] at hdm
            exact hp (by omega)
          · exact hq ⟨h1, h2, by omega, h4⟩
        rw [if_neg hq, if_neg h2]

/-- Contiguous copy between two buffers. -/
theorem blas_copy_to_unit_getD (n : Nat) (X : List T) (x : Nat) (Y : List T) (y p : Nat) :
    (blas_copy_to n X x 1 Y y 1).getD p 0 =
      if y ≤ p ∧ p < y + n ∧ p < Y.length then X.getD (x + (p - y)) 0 else Y.getD p 0 := by
  rw [blas_copy_to_getD n X x 1 Y y 1 (by decide) p]
  simp only [Nat.mod_one, Nat.div_one, Nat.mul_one, true_and]
  by_cases h : y ≤ p ∧ p - y < n ∧ p < Y.length
  · rw [if_pos h, if_pos ⟨h.1, by omega, h.2.2⟩]
  · rw [if_neg h, if_neg (fun g => h ⟨g.1, by omega, g.2.2⟩)]

end copy_to_props

section eat_lda_slack_props

variable {T : Type} [Zero T]

/-- Loop invariant of `eat_lda_slack` after `c` vectors: the vectors `0, .., c - 1` are
packed, and nothing at or beyond `c * vec_len` has been written. -/
theorem eat_lda_slack_invariant (buff : List T) (vl nv st : Nat) (hst : vl ≤ st)
    (hlen : ∀ i, i < nv → i * st + vl ≤ buff.length) (c : Nat) (hc : c ≤ nv) :
    (forUp (fun i (s : List T × List T) =>
        (blas_copy_to vl (blas_copy_to vl s.1 (i * st) 1 s.2 0 1) 0 1 s.1 (i * vl) 1,
         blas_copy_to vl s.1 (i * st) 1 s.2 0 1)) c (buff, List.replicate vl 0)).1.length
      = buff.length ∧
    (forUp (fun i (s : List T × List T) =>
        (blas_copy_to vl (blas_copy_to vl s.1 (i * st) 1 s.2 0 1) 0 1 s.1 (i * vl) 1,
         blas_copy_to vl s.1 (i * st) 1 s.2 0 1)) c (buff, List.replicate vl 0)).2.length
      = vl ∧
    (∀ i t, i < c → t < vl →
      (forUp (fun i (s : List T × List T) =>
        (blas_copy_to vl (blas_copy_to vl s.1 (i * st) 1 s.2 0 1) 0 1 s.1 (i * vl) 1,
         blas_copy_to vl s.1 (i * st) 1 s.2 0 1)) c (buff, List.replicate vl 0)).1.getD
          (i * vl + t) 0 = buff.getD (i * st + t) 0) ∧
    (∀ p, c * vl ≤ p →
      (forUp (fun i (s : List T × List T) =>
        (blas_copy_to vl (blas_copy_to vl s.1 (i * st) 1 s.2 0 1) 0 1 s.1 (i * vl) 1,
         blas_copy_to vl s.1 (i * st) 1 s.2 0 1)) c (buff, List.replicate vl 0)).1.getD p 0
        = buff.getD p 0) := by
  induction c with
  | zero =>
    refine ⟨rfl, List.length_replicate _ _, ?_, fun p _ => rfl⟩
    intro i t hi
    omega
  | succ c ih =>
    obtain ⟨i1, i2, i3, i4⟩ := ih (by omega)
    rw [forUp_succ]
    generalize (forUp (fun i (s : List T × List T) =>
        (blas_copy_to vl (blas_copy_to vl s.1 (i * st) 1 s.2 0 1) 0 1 s.1 (i * vl) 1,
         blas_copy_to vl s.1 (i * st) 1 s.2 0 1)) c (buff, List.replicate vl 0)) = s
      at i1 i2 i3 i4 ⊢
    obtain ⟨B, W⟩ := s
    simp only at i1 i2 i3 i4 ⊢
    have hvs : c * vl ≤ c * st := Nat.mul_le_mul_left c hst
    have hsrc := hlen c (by omega)
    have hsucc : (c + 1) * vl = c * vl + vl := Nat.succ_mul c vl
    have hwork : ∀ t, t < vl →
        (blas_copy_to vl B (c * st) 1 W 0 1).getD t 0 = buff.getD (c * st + t) 0 := by
      intro t ht
      rw [blas_copy_to_unit_getD, if_pos ⟨by omega, by omega, by omega⟩, i4 _ (by omega)]
      congr 1
    refine ⟨by rw [blas_copy_to_length, i1], by rw [blas_copy_to_length, i2], ?_, ?_⟩
    · intro i t hi ht
      rw [blas_copy_to_unit_getD]
      by_cases hic : i = c
      · subst hic
        rw [if_pos ⟨by omega, by omega, by omega⟩, Nat.zero_add,
          show i * vl + t - i * vl = t by omega, hwork t ht]
      · have := @col_addr_lt vl i c t ht (by omega)
        rw [if_neg (by omega)]
        exact i3 i t (by omega) ht
    · intro p hp
      rw [blas_copy_to_unit_getD, if_neg (by omega)]
      exact i4 p (by omega)

/-- C11: `eat_lda_slack` packs strided vectors.  For every `vec_len`, `num_vecs`,
`inter_vec_stride ≥ vec_len` and every buffer that holds `num_vecs` vectors at that stride,
after the call the buffer has its old length and `buff[i * vec_len + t]` is the original
`buff[i * inter_vec_stride + t]` for every `i < num_vecs` and `t < vec_len`; when
`inter_vec_stride = vec_len` the buffer is unchanged. -/
theorem eat_lda_slack_packs (buff : List T) (vec_len num_vecs inter_vec_stride : Nat)
    (hstride : vec_len ≤ inter_vec_stride)
    (hlen : ∀ i, i < num_vecs → i * inter_vec_stride + vec_len ≤ buff.length) :
    (eat_lda_slack buff vec_len num_vecs inter_vec_stride).length = buff.length ∧
    (∀ i t, i < num_vecs → t < vec_len →
      (eat_lda_slack buff vec_len num_vecs inter_vec_stride)[i * vec_len + t]? =
        buff[i * inter_vec_stride + t]?) ∧
    (inter_vec_stride = vec_len →
      eat_lda_slack buff vec_len num_vecs inter_vec_stride = buff) := by
  by_cases heq : vec_len = inter_vec_stride
  · have hdef : eat_lda_slack buff vec_len num_vecs inter_vec_stride = buff := by
      unfold eat_lda_slack
      rw [if_pos heq]
    rw [hdef]
    refine ⟨rfl, ?_, fun _ => rfl⟩
    intro i t _ _
    rw [heq]
  · obtain ⟨i1, -, i3, -⟩ := eat_lda_slack_invariant buff vec_len num_vecs inter_vec_stride
      hstride hlen num_vecs (le_refl _)
    have hdef : eat_lda_slack buff vec_len num_vecs inter_vec_stride =
        (forUp (fun i (s : List T × List T) =>
          (blas_copy_to vec_len (blas_copy_to vec_len s.1 (i * inter_vec_stride) 1 s.2 0 1)
            0 1 s.1 (i * vec_len) 1,
           blas_copy_to vec_len s.1 (i * inter_vec_stride) 1 s.2 0 1)) num_vecs
          (buff, List.replicate vec_len 0)).1 := by
      unfold eat_lda_slack
      rw [if_neg heq]
    rw [hdef]
    refine ⟨i1, ?_, fun h => absurd h.symm heq⟩
    intro i t hi ht
    have hsrc : i * inter_vec_stride + t < buff.length := by
      have := hlen i hi
      omega
    have hdst : i * vec_len + t < buff.length := by
      have := Nat.mul_le_mul_left i hstride
      omega
    have h := i3 i t hi ht
    rw [List.getD_eq_getElem _ 0 (by rw [i1]; exact hdst), List.getD_eq_getElem _ 0 hsrc] at h
    rw [List.getElem?_eq_getElem (by rw [i1]; exact hdst), List.getElem?_eq_getElem hsrc, h]

theorem eat_lda_slack_packs_witness :
    2 ≤ 3 ∧ (∀ i, i < 3 → i * 3 + 2 ≤ ([1, 2, 9, 3, 4, 9, 5, 6] : List Int).length) ∧
    eat_lda_slack ([1, 2, 9, 3, 4, 9, 5, 6] : List Int) 2 3 3 = [1, 2, 3, 4, 5, 6, 5, 6] ∧
    ((eat_lda_slack ([1, 2, 9, 3, 4, 9, 5, 6] : List Int) 2 3 3).length
        = ([1, 2, 9, 3, 4, 9, 5, 6] : List Int).length ∧
      (∀ i t, i < 3 → t < 2 →
        (eat_lda_slack ([1, 2, 9, 3, 4, 9, 5, 6] : List Int) 2 3 3)[i * 2 + t]? =
          ([1, 2, 9, 3, 4, 9, 5, 6] : List Int)[i * 3 + t]?) ∧
      ((3 : Nat) = 2 → eat_lda_slack ([1, 2, 9, 3, 4, 9, 5, 6] : List Int) 2 3 3
        = [1, 2, 9, 3, 4, 9, 5, 6])) :=
  ⟨by decide, by decide, by decide,
    eat_lda_slack_packs ([1, 2, 9, 3, 4, 9, 5, 6] : List Int) 2 3 3 (by decide) (by decide)⟩

end eat_lda_slack_props

section get_L_props

variable {T : Type} [Zero T] [One T]

/-- Entry-by-entry description of `get_L` after `c0` columns of its loop. -/
theorem get_L_partial (m n : Nat) (A : List T) (ow : Int) (hmn : n ≤ m)
    (hA : m * n ≤ A.length) (c0 : Nat) (hc0 : c0 ≤ n) :
    (forUp (fun i (B : List T) =>
        if ow ≠ 0 then (std_fill B (m * i) (i + m * i) 0).set (i + m * i) 1
        else std_fill B (m * i) (i + m * i) 0) c0 A).length = A.length ∧
    ∀ r c, r < m → c < n →
      (forUp (fun i (B : List T) =>
        if ow ≠ 0 then (std_fill B (m * i) (i + m * i) 0).set (i + m * i) 1
        else std_fill B (m * i) (i + m * i) 0) c0 A).getD (r + m * c) 0 =
        if c < c0 then
          (if r < c then 0 else if r = c ∧ ow ≠ 0 then 1 else A.getD (r + m * c) 0)
        else A.getD (r + m * c) 0 := by
  induction c0 with
  | zero =>
    refine ⟨rfl, ?_⟩
    intro r c _ _
    rw [if_neg (by omega)]
    rfl
  | succ i ih =>
    obtain ⟨i1, i2⟩ := ih (by omega)
    rw [forUp_succ]
    generalize (forUp (fun i (B : List T) =>
        if ow ≠ 0 then (std_fill B (m * i) (i + m * i) 0).set (i + m * i) 1
        else std_fill B (m * i) (i + m * i) 0) i A) = B at i1 i2 ⊢
    have hcol : m * i + m ≤ m * n := by
      have := Nat.mul_le_mul_left m (show i + 1 ≤ n by omega)
      rw [Nat.mul_succ] at this
      exact this
    have hfill : ∀ r c, r < m → c < n →
        (std_fill B (m * i) (i + m * i) 0).getD (r + m * c) 0 =
          if c = i ∧ r < i then 0 else B.getD (r + m * c) 0 := by
      intro r c hr hc
      rw [std_fill_getD]
      rcases Nat.lt_trichotomy c i with h | h | h
      · have := @mul_addr_lt m c i r hr h
        rw [if_neg (by omega), if_neg (by omega)]
      · subst h
        by_cases hrc : r < c
        · rw [if_pos ⟨by omega, by omega, by omega⟩, if_pos ⟨rfl, hrc⟩]
        · rw [if_neg (by omega), if_neg (by omega)]
      · have := @mul_addr_lt m i c 0 (by omega) h
        have := Nat.mul_le_mul_left m (show i + 1 ≤ c by omega)
        rw [Nat.mul_succ] at this
        rw [if_neg (by omega), if_neg (by omega)]
    have hdiag : ∀ r c, r < m → c < n → (i + m * i = r + m * c ↔ (c = i ∧ r = i)) := by
      intro r c hr hc
      constructor
      · intro h
        rcases Nat.lt_trichotomy c i with g | g | g
        · have := @mul_addr_lt m c i r hr g
          omega
        · subst g
          exact ⟨rfl, by omega⟩
        · have := @mul_addr_lt m i c i (by omega) g
          omega
      · rintro ⟨rfl, rfl⟩
        rfl
    by_cases how : ow ≠ 0
    · rw [if_pos how]
      refine ⟨by rw [List.length_set, std_fill_length, i1], ?_⟩
      intro r c hr hc
      rw [getD_set_eq, std_fill_length, hfill r c hr hc, i2 r c hr hc]
      by_cases hd : c = i ∧ r = i
      · obtain ⟨hci, hri⟩ := hd
        rw [hci, hri, if_pos ⟨rfl, by omega⟩, if_pos (show i < i + 1 by omega),
          if_neg (show ¬ i < i by omega), if_pos ⟨rfl, how⟩]
      · rw [if_neg (fun h => hd ((hdiag r c hr hc).mp h.1))]
        by_cases hci : c = i
        · subst hci
          by_cases hrc : r < c
          · rw [if_pos ⟨rfl, hrc⟩, if_pos (show c < c + 1 by omega), if_pos hrc]
          · rw [if_neg (fun h => hrc h.2), if_neg (show ¬ c < c by omega),
              if_pos (show c < c + 1 by omega), if_neg hrc,
              if_neg (fun h => hd ⟨rfl, h.1⟩)]
        · rw [if_neg (fun h => hci h.1)]
          by_cases hlt : c < i
          · rw [if_pos hlt, if_pos (show c < i + 1 by omega)]
          · rw [if_neg hlt, if_neg (show ¬ c < i + 1 by omega)]
    · rw [if_neg how]
      refine ⟨by rw [std_fill_length, i1], ?_⟩
      intro r c hr hc
      rw [hfill r c hr hc, i2 r c hr hc]
      by_cases hci : c = i
      · subst hci
        by_cases hrc : r < c
        · rw [if_pos ⟨rfl, hrc⟩, if_pos (show c < c + 1 by omega), if_pos hrc]
        · rw [if_neg (fun h => hrc h.2), if_neg (show ¬ c < c by omega),
            if_pos (show c < c + 1 by omega), if_neg hrc, if_neg (fun h => how h.2)]
      · rw [if_neg (fun h => hci h.1)]
        by_cases hlt : c < i
        · rw [if_pos hlt, if_pos (show c < i + 1 by omega)]
        · rw [if_neg hlt, if_neg (show ¬ c < i + 1 by omega)]

/-- Entry-by-entry description of `get_L`. -/
theorem get_L_getElem (m n : Nat) (A : List T) (ow : Int) (hmn : n ≤ m)
    (hA : A.length = m * n) (r c : Nat) (hr : r < m) (hc : c < n) :
    (get_L m n A ow)[r + m * c]? =
      if r < c then some 0 else if r = c ∧ ow ≠ 0 then some 1 else A[r + m * c]? := by
  obtain ⟨h1, h2⟩ := get_L_partial m n A ow hmn (by omega) n (le_refl _)
  have hdef : get_L m n A ow = forUp (fun i (B : List T) =>
      if ow ≠ 0 then (std_fill B (m * i) (i + m * i) 0).set (i + m * i) 1
      else std_fill B (m * i) (i + m * i) 0) n A := rfl
  have hp : r + m * c < A.length := by
    have := @mul_addr_lt m c n r hr hc
    omega
  have h := h2 r c hr hc
  rw [← hdef] at h h1
  rw [if_pos hc] at h
  rw [List.getElem?_eq_getElem (by rw [h1]; exact hp), ← List.getD_eq_getElem _ 0
    (by rw [h1]; exact hp), h, List.getElem?_eq_getElem hp, ← List.getD_eq_getElem _ 0 hp]
  split_ifs <;> rfl

/-- C12: `get_L` produces the unit lower-triangular factor.  For every `m ≥ n` and every
`m x n` column-major buffer `A`, after `get_L(m, n, A, 1)` every entry with row < column
is `0`, every diagonal entry is `1` and every entry with row > column is unchanged; with
`overwrite_diagonal = 0` the entries above the diagonal are `0` and the diagonal entries
are unchanged as well. -/
theorem get_L_unit_lower_triangular (m n : Nat) (A : List T) (hmn : n ≤ m)
    (hA : A.length = m * n) :
    (∀ r c, r < m → c < n →
      (get_L m n A 1)[r + m * c]? =
        if r < c then some 0 else if r = c then some 1 else A[r + m * c]?) ∧
    (∀ r c, r < m → c < n →
      (get_L m n A 0)[r + m * c]? = if r < c then some 0 else A[r + m * c]?) := by
  constructor
  · intro r c hr hc
    rw [get_L_getElem m n A 1 hmn hA r c hr hc]
    by_cases h1 : r < c
    · rw [if_pos h1, if_pos h1]
    · rw [if_neg h1, if_neg h1]
      by_cases h2 : r = c
      · rw [if_pos ⟨h2, by decide⟩, if_pos h2]
      · rw [if_neg (fun h => h2 h.1), if_neg h2]
  · intro r c hr hc
    rw [get_L_getElem m n A 0 hmn hA r c hr hc]
    by_cases h1 : r < c
    · rw [if_pos h1, if_pos h1]
    · rw [if_neg h1, if_neg h1, if_neg (fun h => absurd rfl h.2)]

theorem get_L_unit_lower_triangular_witness :
    2 ≤ 3 ∧ ([1, 2, 3, 4, 5, 6] : List Int).length = 3 * 2 ∧
    get_L 3 2 ([1, 2, 3, 4, 5, 6] : List Int) 1 = [1, 2, 3, 0, 1, 6] ∧
    get_L 3 2 ([1, 2, 3, 4, 5, 6] : List Int) 0 = [1, 2, 3, 0, 5, 6] ∧
    ((∀ r c, r < 3 → c < 2 →
      (get_L 3 2 ([1, 2, 3, 4, 5, 6] : List Int) 1)[r + 3 * c]? =
        if r < c then some 0 else if r = c then some 1
        else ([1, 2, 3, 4, 5, 6] : List Int)[r + 3 * c]?) ∧
    (∀ r c, r < 3 → c < 2 →
      (get_L 3 2 ([1, 2, 3, 4, 5, 6] : List Int) 0)[r + 3 * c]? =
        if r < c then some 0 else ([1, 2, 3, 4, 5, 6] : List Int)[r + 3 * c]?)) :=
  ⟨by decide, by decide, by decide, by decide,
    get_L_unit_lower_triangular 3 2 ([1, 2, 3, 4, 5, 6] : List Int) (by decide) (by decide)⟩

/-- C13 as stated fails: `get_L` does not touch the entries below the diagonal.  For the
`2 x 2` buffer `[1, 2, 3, 4]` the entry in row 1, column 0 is still `2` after
`get_L(2, 2, A, 1)`. -/
theorem get_L_keeps_lower_triangle :
    get_L 2 2 ([1, 2, 3, 4] : List Int) 1 = [1, 2, 0, 1] ∧
    ¬ (∀ r c, r < 2 → c < 2 → c < r →
      (get_L 2 2 ([1, 2, 3, 4] : List Int) 1)[r + 2 * c]? = some 0) := by
  refine ⟨by decide, ?_⟩
  intro h
  exact absurd (h 1 0 (by decide) (by decide) (by decide)) (by decide)

/-- C13 (amended): `get_L` zeroes the strict upper triangle and keeps the strict lower
triangle.  For every `m ≥ n`, every `m x n` column-major buffer `A` and every value of
`overwrite_diagonal`, after `get_L(m, n, A, overwrite_diagonal)` every entry `(i, j)` with
`i < j` (strictly above the diagonal) is `0` and every entry with `i > j` (strictly below
the diagonal) has its old value. -/
theorem get_L_zeroes_upper_triangle (m n : Nat) (A : List T) (overwrite_diagonal : Int)
    (hmn : n ≤ m) (hA : A.length = m * n) :
    ∀ i j, i < m → j < n →
      (i < j → (get_L m n A overwrite_diagonal)[i + m * j]? = some 0) ∧
      (j < i → (get_L m n A overwrite_diagonal)[i + m * j]? = A[i + m * j]?) := by
  intro i j hi hj
  rw [get_L_getElem m n A overwrite_diagonal hmn hA i j hi hj]
  constructor
  · intro h
    rw [if_pos h]
  · intro h
    rw [if_neg (by omega), if_neg (fun g => absurd g.1 (by omega))]

theorem get_L_zeroes_upper_triangle_witness :
    3 ≤ 3 ∧ ([1, 2, 3, 4, 5, 6, 7, 8, 9] : List Int).length = 3 * 3 ∧
    get_L 3 3 ([1, 2, 3, 4, 5, 6, 7, 8, 9] : List Int) 0 = [1, 2, 3, 0, 5, 6, 0, 0, 9] ∧
    (∀ i j, i < 3 → j < 3 →
      (i < j → (get_L 3 3 ([1, 2, 3, 4, 5, 6, 7, 8, 9] : List Int) 0)[i + 3 * j]? = some 0) ∧
      (j < i → (get_L 3 3 ([1, 2, 3, 4, 5, 6, 7, 8, 9] : List Int) 0)[i + 3 * j]? =
        ([1, 2, 3, 4, 5, 6, 7, 8, 9] : List Int)[i + 3 * j]?)) :=
  ⟨by decide, by decide, by decide,
    get_L_zeroes_upper_triangle 3 3 ([1, 2, 3, 4, 5, 6, 7, 8, 9] : List Int) 0
      (by decide) (by decide)⟩

end get_L_props

section get_U_props

variable {T : Type} [Zero T]

/-- Entry-by-entry description of the in-place `get_U` after `c0` columns of its loop. -/
theorem get_U_partial (m n : Nat) (A : List T) (hA : m * n ≤ A.length)
    (c0 : Nat) (hc0 : c0 ≤ n) :
    (forUp (fun i (B : List T) => std_fill B (i * (m + 1) + 1) ((i + 1) * m) 0) c0 A).length
      = A.length ∧
    ∀ r c, r < m → c < n →
      (forUp (fun i (B : List T) => std_fill B (i * (m + 1) + 1) ((i + 1) * m) 0) c0 A).getD
          (r + m * c) 0 =
        if c < c0 ∧ c < r then 0 else A.getD (r + m * c) 0 := by
  induction c0 with
  | zero =>
    refine ⟨rfl, ?_⟩
    intro r c _ _
    rw [if_neg (by omega)]
    rfl
  | succ i ih =>
    obtain ⟨i1, i2⟩ := ih (by omega)
    rw [forUp_succ]
    generalize (forUp (fun i (B : List T) =>
      std_fill B (i * (m + 1) + 1) ((i + 1) * m) 0) i A) = B at i1 i2 ⊢
    have e1 : i * (m + 1) + 1 = m * i + i + 1 := by ring
    have e2 : (i + 1) * m = m * i + m := by ring
    have hcol : m * i + m ≤ m * n := by
      have := Nat.mul_le_mul_left m (show i + 1 ≤ n by omega)
      rw [Nat.mul_succ] at this
      exact this
    refine ⟨by rw [std_fill_length, i1], ?_⟩
    intro r c hr hc
    rw [std_fill_getD, e1, e2, i2 r c hr hc]
    rcases Nat.lt_trichotomy c i with h | h | h
    · have := @mul_addr_lt m c i r hr h
      rw [if_neg (by omega)]
      by_cases hcr : c < r
      · rw [if_pos ⟨h, hcr⟩, if_pos ⟨by omega, hcr⟩]
      · rw [if_neg (fun g => hcr g.2), if_neg (fun g => hcr g.2)]
    · subst h
      by_cases hcr : c < r
      · rw [if_pos ⟨by omega, by omega, by omega⟩, if_pos ⟨by omega, hcr⟩]
      · rw [if_neg (by omega), if_neg (by omega), if_neg (fun g => hcr g.2)]
    · have := Nat.mul_le_mul_left m (show i + 1 ≤ c by omega)
      rw [Nat.mul_succ] at this
      rw [if_neg (by omega), if_neg (by omega), if_neg (by omega)]

/-- What the in-place `get_U` does on an `m x n` buffer: below the diagonal,
the columns `0, .., n - 2` are zeroed; the last column and everything on or above the
diagonal are left as they were. -/
theorem get_U_getElem (m n : Nat) (A : List T) (hA : A.length = m * n)
    (r c : Nat) (hr : r < m) (hc : c < n) :
    (get_U m n A)[r + m * c]? = if c + 1 < n ∧ c < r then some 0 else A[r + m * c]? := by
  obtain ⟨h1, h2⟩ := get_U_partial m n A (by omega) (n - 1) (by omega)
  have hdef : get_U m n A = forUp (fun i (B : List T) =>
      std_fill B (i * (m + 1) + 1) ((i + 1) * m) 0) (n - 1) A := rfl
  have hp : r + m * c < A.length := by
    have := @mul_addr_lt m c n r hr hc
    omega
  have h := h2 r c hr hc
  rw [← hdef] at h h1
  rw [List.getElem?_eq_getElem (by rw [h1]; exact hp), ← List.getD_eq_getElem _ 0
    (by rw [h1]; exact hp), h, List.getElem?_eq_getElem hp, ← List.getD_eq_getElem _ 0 hp]
  by_cases hq : c < n - 1 ∧ c < r
  · rw [if_pos hq, if_pos ⟨by omega, hq.2⟩]
  · rw [if_neg hq, if_neg (fun g => hq ⟨by omega, g.2⟩)]

/-- C14, the code at a failing input: for the tall `3 x 2` buffer `[1, 2, 3, 4, 5, 6]` the
loop of the in-place `get_U` runs for column `0` only, so the entry in row 2 of the last
column (below the diagonal) is still `6`.  On the square `3 x 3` buffer the last column has
nothing below the diagonal and the result is upper triangular. -/
theorem get_U_skips_last_column :
    get_U 3 2 ([1, 2, 3, 4, 5, 6] : List Int) = [1, 0, 0, 4, 5, 6] ∧
    (get_U 3 2 ([1, 2, 3, 4, 5, 6] : List Int))[2 + 3 * 1]? = some 6 ∧
    get_U 3 3 ([1, 2, 3, 4, 5, 6, 7, 8, 9] : List Int) = [1, 0, 0, 4, 5, 0, 7, 8, 9] := by
  decide

end get_U_props

/-! ## Properties of the singular-value profiles -/

section profile_props

variable {T : Type} [Field T]

/-- The `std::for_each` loop shared by the polynomial and the exponential profile: the
entry number `c` (counted from one) of the tail is `f c`, the other entries are kept. -/
theorem profile_loop_spec (f : T → T) (offset n0 : Nat) (s0 : List T) :
    (forUp (fun c (st : List T × T) => (st.1.set (offset + c) (f (st.2 + 1)), st.2 + 1))
      n0 (s0, 0)).2 = (n0 : T) ∧
    (forUp (fun c (st : List T × T) => (st.1.set (offset + c) (f (st.2 + 1)), st.2 + 1))
      n0 (s0, 0)).1.length = s0.length ∧
    ∀ p, (forUp (fun c (st : List T × T) => (st.1.set (offset + c) (f (st.2 + 1)), st.2 + 1))
      n0 (s0, 0)).1.getD p 0 =
        if offset ≤ p ∧ p < offset + n0 ∧ p < s0.length then f ((p - offset + 1 : Nat) : T)
        else s0.getD p 0 := by
  induction n0 with
  | zero =>
    refine ⟨by simp [forUp], rfl, ?_⟩
    intro p
    rw [if_neg (by omega)]
    rfl
  | succ c ih =>
    obtain ⟨h1, h2, h3⟩ := ih
    rw [forUp_succ]
    generalize (forUp (fun c (st : List T × T) =>
      (st.1.set (offset + c) (f (st.2 + 1)), st.2 + 1)) c (s0, 0)) = st at h1 h2 h3 ⊢
    obtain ⟨s, cnt⟩ := st
    simp only at h1 h2 h3 ⊢
    subst h1
    refine ⟨by push_cast; rfl, by rw [List.length_set, h2], ?_⟩
    intro p
    rw [getD_set_eq, h2, h3 p]
    by_cases hp : offset + c = p
    · subst hp
      by_cases hl : offset + c < s0.length
      · rw [if_pos ⟨rfl, hl⟩, if_pos ⟨by omega, by omega, hl⟩]
        congr 1
        rw [show offset + c - offset + 1 = c + 1 by omega]
        push_cast
        rfl
      · rw [if_neg (fun h => hl h.2), if_neg (fun h => hl h.2.2), if_neg (fun h => hl h.2.2)]
    · rw [if_neg (fun h => hp h.1)]
      by_cases hq : offset ≤ p ∧ p < offset + c ∧ p < s0.length
      · rw [if_pos hq, if_pos ⟨hq.1, by omega, hq.2.2⟩]
      · rw [if_neg hq, if_neg (fun g => hq ⟨g.1, by omega, g.2.2⟩)]

theorem gen_poly_mat_s_length (pow : T → T → T) (log2 : T → T) (k : Nat) (cond : T) :
    (gen_poly_mat_s pow log2 k cond).length = k := by
  have h := (profile_loop_spec
    (fun cnt => 1 / pow cnt (log2 cond / log2 ((k - k / 10 : Nat) : T)))
    (k / 10) (k - k / 10) (List.replicate k 1)).2.1
  rw [List.length_replicate] at h
  exact h

theorem gen_exp_mat_s_length (exp : T → T) (log : T → T) (k : Nat) (cond : T) :
    (gen_exp_mat_s exp log k cond).length = k := by
  have h := (profile_loop_spec
    (fun cnt => exp (cnt * -(-log (1 / cond) / ((k - k / 10 : Nat) : T))))
    (k / 10) (k - k / 10) (List.replicate k 1)).2.1
  rw [List.length_replicate] at h
  exact h

theorem gen_step_mat_s_length (k : Nat) (cond : T) : (gen_step_mat_s k cond).length = k := by
  unfold gen_step_mat_s
  simp only [std_fill_length, List.length_replicate]

theorem gen_poly_mat_s_getD (pow : T → T → T) (log2 : T → T) (k : Nat) (cond : T) (p : Nat)
    (hp : p < k) :
    (gen_poly_mat_s pow log2 k cond).getD p 0 =
      if k / 10 ≤ p then
        1 / pow ((p - k / 10 + 1 : Nat) : T) (log2 cond / log2 ((k - k / 10 : Nat) : T))
      else 1 := by
  have h := (profile_loop_spec
    (fun cnt => 1 / pow cnt (log2 cond / log2 ((k - k / 10 : Nat) : T)))
    (k / 10) (k - k / 10) (List.replicate k 1)).2.2 p
  rw [List.length_replicate] at h
  show (forUp (fun c (st : List T × T) =>
      (st.1.set (k / 10 + c) (1 / pow (st.2 + 1) (log2 cond / log2 ((k - k / 10 : Nat) : T))),
        st.2 + 1)) (k - k / 10) (List.replicate k 1, 0)).1.getD p 0 = _
  rw [h]
  by_cases hq : k / 10 ≤ p
  · rw [if_pos ⟨hq, by omega, hp⟩, if_pos hq]
  · rw [if_neg (fun g => hq g.1), if_neg hq]
    simp [List.getD_eq_getElem?_getD, List.getElem?_replicate, hp]

theorem gen_exp_mat_s_getD (exp : T → T) (log : T → T) (k : Nat) (cond : T) (p : Nat)
    (hp : p < k) :
    (gen_exp_mat_s exp log k cond).getD p 0 =
      if k / 10 ≤ p then
        exp (((p - k / 10 + 1 : Nat) : T) * -(-log (1 / cond) / ((k - k / 10 : Nat) : T)))
      else 1 := by
  have h := (profile_loop_spec
    (fun cnt => exp (cnt * -(-log (1 / cond) / ((k - k / 10 : Nat) : T))))
    (k / 10) (k - k / 10) (List.replicate k 1)).2.2 p
  rw [List.length_replicate] at h
  show (forUp (fun c (st : List T × T) =>
      (st.1.set (k / 10 + c) (exp ((st.2 + 1) * -(-log (1 / cond) / ((k - k / 10 : Nat) : T)))),
        st.2 + 1)) (k - k / 10) (List.replicate k 1, 0)).1.getD p 0 = _
  rw [h]
  by_cases hq : k / 10 ≤ p
  · rw [if_pos ⟨hq, by omega, hp⟩, if_pos hq]
  · rw [if_neg (fun g => hq g.1), if_neg hq]
    simp [List.getD_eq_getElem?_getD, List.getElem?_replicate, hp]

end profile_props

section profile_main

/-- In exact real arithmetic the exponent `t = log2(cond) / log2(b)` makes `b ^ t = cond`. -/
theorem rpow_log2_ratio (b cond : ℝ) (hb : 1 < b) (hcond : 0 < cond) :
    b ^ (Real.logb 2 cond / Real.logb 2 b) = cond := by
  have hlog2 : Real.log 2 ≠ 0 := by
    have := Real.log_pos (by norm_num : (1 : ℝ) < 2)
    exact ne_of_gt this
  have hlogb : Real.log b ≠ 0 := ne_of_gt (Real.log_pos hb)
  have hexp : Real.logb 2 cond / Real.logb 2 b = Real.logb b cond := by
    unfold Real.logb
    field_simp
  rw [hexp]
  exact Real.rpow_logb (by linarith) (ne_of_gt hb) hcond

/-- C15: the polynomial profile hits the requested condition number.  For every `k ≥ 2` and
every `cond > 0`, in exact real arithmetic the sequence `s[0..k)` computed by
`gen_poly_mat` has `k` entries, last entry `s[k-1] = 1 / cond` and first entry `s[0] = 1`,
so that `s[0] / s[k-1] = cond`. -/
theorem gen_poly_mat_s_condition_number (k : Nat) (cond : ℝ) (hk : 2 ≤ k) (hcond : 0 < cond) :
    (gen_poly_mat_s (fun x y : ℝ => x ^ y) (Real.logb 2) k cond).length = k ∧
    (gen_poly_mat_s (fun x y : ℝ => x ^ y) (Real.logb 2) k cond).getD (k - 1) 0 = 1 / cond ∧
    (gen_poly_mat_s (fun x y : ℝ => x ^ y) (Real.logb 2) k cond).getD 0 0 = 1 ∧
    (gen_poly_mat_s (fun x y : ℝ => x ^ y) (Real.logb 2) k cond).getD 0 0 /
      (gen_poly_mat_s (fun x y : ℝ => x ^ y) (Real.logb 2) k cond).getD (k - 1) 0 = cond := by
  have hlast : (gen_poly_mat_s (fun x y : ℝ => x ^ y) (Real.logb 2) k cond).getD (k - 1) 0
      = 1 / cond := by
    rw [gen_poly_mat_s_getD _ _ k cond (k - 1) (by omega), if_pos (by omega),
      show k - 1 - k / 10 + 1 = k - k / 10 by omega]
    have hb : (1 : ℝ) < ((k - k / 10 : Nat) : ℝ) := by
      have : 2 ≤ k - k / 10 := by omega
      exact_mod_cast this
    show 1 / (((k - k / 10 : Nat) : ℝ) ^
      (Real.logb 2 cond / Real.logb 2 ((k - k / 10 : Nat) : ℝ))) = 1 / cond
    rw [rpow_log2_ratio _ cond hb hcond]
  have hfirst : (gen_poly_mat_s (fun x y : ℝ => x ^ y) (Real.logb 2) k cond).getD 0 0 = 1 := by
    rw [gen_poly_mat_s_getD _ _ k cond 0 (by omega)]
    by_cases h : k / 10 ≤ 0
    · rw [if_pos h, show 0 - k / 10 + 1 = 1 by omega]
      show 1 / (((1 : Nat) : ℝ) ^ _) = 1
      rw [Nat.cast_one, Real.one_rpow, div_one]
    · rw [if_neg h]
  refine ⟨gen_poly_mat_s_length _ _ k cond, hlast, hfirst, ?_⟩
  rw [hfirst, hlast, one_div_one_div]

theorem gen_poly_mat_s_condition_number_witness :
    2 ≤ 20 ∧ (0 : ℝ) < 100 ∧
    ((gen_poly_mat_s (fun x y : ℝ => x ^ y) (Real.logb 2) 20 100).length = 20 ∧
    (gen_poly_mat_s (fun x y : ℝ => x ^ y) (Real.logb 2) 20 100).getD (20 - 1) 0 = 1 / 100 ∧
    (gen_poly_mat_s (fun x y : ℝ => x ^ y) (Real.logb 2) 20 100).getD 0 0 = 1 ∧
    (gen_poly_mat_s (fun x y : ℝ => x ^ y) (Real.logb 2) 20 100).getD 0 0 /
      (gen_poly_mat_s (fun x y : ℝ => x ^ y) (Real.logb 2) 20 100).getD (20 - 1) 0 = 100) :=
  ⟨by decide, by norm_num,
    gen_poly_mat_s_condition_number 20 100 (by decide) (by norm_num)⟩

/-- C16, the code at a failing input: for `k = 2` and `cond = 4` the leading flat segment is
empty (`offset = 0`), so `s[0]` is the first entry of the decaying tail,
`exp(1 * -t)` with `t = -log(1/4) / 2 = log 2`, that is `1/2` and not `1`.  For `k = 10`
the flat segment has one entry and `s[0] = 1`. -/
theorem gen_exp_mat_s_first_entry_not_one :
    (gen_exp_mat_s Real.exp Real.log 2 4).getD 0 0 = 1 / 2 ∧
    (gen_exp_mat_s Real.exp Real.log 2 4).getD 0 0 ≠ 1 ∧
    (gen_exp_mat_s Real.exp Real.log 10 4).getD 0 0 = 1 := by
  have h : (gen_exp_mat_s Real.exp Real.log 2 4).getD 0 0 = 1 / 2 := by
    rw [gen_exp_mat_s_getD _ _ 2 4 0 (by decide), if_pos (by decide)]
    have h4 : Real.log (1 / 4) = -(2 * Real.log 2) := by
      rw [one_div, Real.log_inv, show (4 : ℝ) = 2 ^ 2 by norm_num, Real.log_pow]
      push_cast
      ring
    rw [h4]
    have e : (((0 - 2 / 10 + 1 : Nat) : ℝ)) * -(-(-(2 * Real.log 2)) / ((2 - 2 / 10 : Nat) : ℝ))
        = -Real.log 2 := by
      norm_num
    rw [e, Real.exp_neg, Real.exp_log (by norm_num)]
    norm_num
  refine ⟨h, ?_, ?_⟩
  · rw [h]
    norm_num
  · rw [gen_exp_mat_s_getD _ _ 10 4 0 (by decide), if_neg (by decide)]

/-- C17, the code at a failing input: for `k = 8` and `cond = 16` the fills start one past
each segment boundary, so the entries at the indices `2`, `4` and `6` keep the initial
value `1`: the sequence is `1, 1, 1, 1/2, 1, 1/4, 1, 1/16` and not
`1, 1, 1/2, 1/2, 1/4, 1/4, 1/16, 1/16`; for `k = 4` it is `1, 1, 1, 1`. -/
theorem gen_step_mat_s_boundary_entries :
    gen_step_mat_s 8 (16 : ℚ) = [1, 1, 1, 1 / 2, 1, 1 / 4, 1, 1 / 16] ∧
    gen_step_mat_s 8 (16 : ℚ) ≠ [1, 1, 8 / 16, 8 / 16, 4 / 16, 4 / 16, 1 / 16, 1 / 16] ∧
    gen_step_mat_s 4 (16 : ℚ) = [1, 1, 1, 1] := by
  have h : gen_step_mat_s 8 (16 : ℚ) = [1, 1, 1, 1 / 2, 1, 1 / 4, 1, 1 / 16] := by
    norm_num [gen_step_mat_s, std_fill, forUp, List.replicate]
  refine ⟨h, ?_, ?_⟩
  · rw [h]
    norm_num
  · norm_num [gen_step_mat_s, std_fill, forUp, List.replicate]

end profile_main

/-! ## The diagonal-only path of the generators -/

section diag_path

variable {T : Type} [Zero T]

theorem diag_length (m n : Nat) (s : List T) (k : Nat) (S : List T) :
    (diag m n s k S).length = S.length :=
  blas_copy_to_length k s 0 1 S 0 (m + 1)

end diag_path

section diag_path_main

variable {T : Type} [Field T]

end diag_path_main

section diag_path_witness

end diag_path_witness

/-! ## The fill loop of the spiked generator -/

section spiked_props

/-- C19, the code at a failing input: for `m = 4`, `n = 2` and the `2 x 2` basis
`V = [1, 2, 3, 4]` the fill loop addresses column `j` of `V` at `m * j` instead of `n * j`:
it reads `V` at the indices `4` and `5`, outside its `n * n = 4` elements, and never reads
`V[2]`, `V[3]`, so column `1` of `A` does not receive column `1` of `V` (in the embedding
the reads outside `V` give `0`).  For `m = n = 2` the two strides agree and `A` is a copy
of `V`. -/
theorem gen_spiked_mat_fill_reads_outside_basis :
    gen_spiked_mat_fill 4 2 ([] : List Int) [1, 2, 3, 4] 5 =
      some ([1, 2, 1, 2, 0, 0, 0, 0], [0, 1, 4, 5, 0, 1, 4, 5]) ∧
    (∃ p, p ∈ [0, 1, 4, 5, 0, 1, 4, 5] ∧ 2 * 2 ≤ p) ∧
    ([1, 2, 1, 2, 0, 0, 0, 0] : List Int)[(0 * 2 + 0) + 4 * 1]? ≠
      ([1, 2, 3, 4] : List Int)[0 + 2 * 1]? ∧
    gen_spiked_mat_fill 2 2 ([] : List Int) [1, 2, 3, 4] 5 =
      some ([1, 2, 3, 4], [0, 1, 2, 3]) := by
  refine ⟨by decide, ⟨4, by decide, by decide⟩, by decide, by decide⟩

end spiked_props

/-! ## Properties of `orthogonality_check` -/

section orthogonality_props

variable {T : Type} [LinearOrderedField T]

omit [LinearOrderedField T] in
theorem addr_inj {m r c r2 c2 : Nat} (hr : r < m) (hr2 : r2 < m)
    (h : r + m * c = r2 + m * c2) : r = r2 ∧ c = c2 := by
  rcases Nat.lt_trichotomy c c2 with g | g | g
  · have := @mul_addr_lt m c c2 r hr g
    omega
  · subst g
    exact ⟨by omega, rfl⟩
  · have := @mul_addr_lt m c2 c r2 hr2 g
    omega

/-- One column of `syrk`: the entries from the diagonal down to row `j + c - 1` of column
`j` receive the inner products, everything else is kept. -/
theorem syrk_column_spec (g : Nat → T) (ldc j : Nat) (C : List T) (c : Nat) :
    (forUp (fun d (C : List T) => C.set ((j + d) + ldc * j) (g (j + d))) c C).length
      = C.length ∧
    ∀ p, (forUp (fun d (C : List T) => C.set ((j + d) + ldc * j) (g (j + d))) c C).getD p 0 =
      if ldc * j + j ≤ p ∧ p < ldc * j + j + c ∧ p < C.length then g (p - ldc * j)
      else C.getD p 0 := by
  induction c with
  | zero =>
    refine ⟨rfl, ?_⟩
    intro p
    rw [if_neg (by omega)]
    rfl
  | succ c ih =>
    obtain ⟨h1, h2⟩ := ih
    rw [forUp_succ]
    generalize (forUp (fun d (C : List T) => C.set ((j + d) + ldc * j) (g (j + d))) c C) = B
      at h1 h2 ⊢
    refine ⟨by rw [List.length_set, h1], ?_⟩
    intro p
    rw [getD_set_eq, h1, h2 p]
    by_cases hp : j + c + ldc * j = p
    · by_cases hl : j + c + ldc * j < C.length
      · rw [if_pos ⟨hp, hl⟩, if_pos ⟨by omega, by omega, by omega⟩]
        congr 1
        omega
      · rw [if_neg (fun h => hl h.2), if_neg (by omega), if_neg (by omega)]
    · rw [if_neg (fun h => hp h.1)]
      by_cases hq : ldc * j + j ≤ p ∧ p < ldc * j + j + c ∧ p < C.length
      · rw [if_pos hq, if_pos ⟨hq.1, by omega, hq.2.2⟩]
      · rw [if_neg hq, if_neg (by omega)]

/-- `syrk` with `Uplo::Lower` on an `n x n` buffer: the lower triangle receives the Gram
matrix, the strict upper triangle is kept. -/
theorem syrk_lower_spec (n m : Nat) (A C : List T) (hC : n * n ≤ C.length) (c0 : Nat)
    (hc0 : c0 ≤ n) :
    (forUp (fun j (C : List T) =>
      forUp (fun d (C : List T) =>
          C.set ((j + d) + n * j)
            ((List.range m).map
              (fun l => A.getD (l + m * (j + d)) 0 * A.getD (l + m * j) 0)).sum)
        (n - j) C) c0 C).length = C.length ∧
    ∀ i j, i < n → j < n →
      (forUp (fun j (C : List T) =>
        forUp (fun d (C : List T) =>
            C.set ((j + d) + n * j)
              ((List.range m).map
                (fun l => A.getD (l + m * (j + d)) 0 * A.getD (l + m * j) 0)).sum)
          (n - j) C) c0 C).getD (i + n * j) 0 =
        if j < c0 ∧ j ≤ i then gram_entry m A i j else C.getD (i + n * j) 0 := by
  induction c0 with
  | zero =>
    refine ⟨rfl, ?_⟩
    intro i j _ _
    rw [if_neg (by omega)]
    rfl
  | succ j0 ih =>
    obtain ⟨h1, h2⟩ := ih (by omega)
    rw [forUp_succ]
    generalize (forUp (fun j (C : List T) =>
      forUp (fun d (C : List T) =>
          C.set ((j + d) + n * j)
            ((List.range m).map
              (fun l => A.getD (l + m * (j + d)) 0 * A.getD (l + m * j) 0)).sum)
        (n - j) C) j0 C) = B at h1 h2 ⊢
    obtain ⟨g1, g2⟩ := syrk_column_spec
      (fun i => ((List.range m).map
        (fun l => A.getD (l + m * i) 0 * A.getD (l + m * j0) 0)).sum) n j0 B (n - j0)
    refine ⟨by rw [g1, h1], ?_⟩
    intro i j hi hj
    have hcol : n * j0 + n ≤ n * n := by
      have := Nat.mul_le_mul_left n (show j0 + 1 ≤ n by omega)
      rw [Nat.mul_succ] at this
      exact this
    rw [g2 (i + n * j), h2 i j hi hj]
    rcases Nat.lt_trichotomy j j0 with h | h | h
    · have := @mul_addr_lt n j j0 i hi h
      rw [if_neg (by omega)]
      by_cases hji : j ≤ i
      · rw [if_pos ⟨h, hji⟩, if_pos ⟨by omega, hji⟩]
      · rw [if_neg (fun g => hji g.2), if_neg (fun g => hji g.2)]
    · subst h
      by_cases hji : j ≤ i
      · rw [if_pos ⟨by omega, by omega, by omega⟩, if_pos ⟨by omega, hji⟩,
          show i + n * j - n * j = i by omega]
        rfl
      · rw [if_neg (by omega), if_neg (by omega), if_neg (fun g => hji g.2)]
    · have := Nat.mul_le_mul_left n (show j0 + 1 ≤ j by omega)
      rw [Nat.mul_succ] at this
      rw [if_neg (by omega), if_neg (by omega), if_neg (by omega)]

/-- The loop that subtracts `1` from the first `k` diagonal entries. -/
theorem diag_subtract_spec (n : Nat) (G : List T) (hG : n * n ≤ G.length) (k : Nat)
    (hk : k ≤ n) :
    (forUp (fun oi (G : List T) => G.set (oi * n + oi) (G.getD (oi * n + oi) 0 - 1)) k G).length
      = G.length ∧
    ∀ i j, i < n → j < n →
      (forUp (fun oi (G : List T) => G.set (oi * n + oi) (G.getD (oi * n + oi) 0 - 1)) k G).getD
          (i + n * j) 0 =
        G.getD (i + n * j) 0 - (if i = j ∧ i < k then 1 else 0) := by
  induction k with
  | zero =>
    refine ⟨rfl, ?_⟩
    intro i j _ _
    rw [if_neg (by omega), sub_zero]
    rfl
  | succ c ih =>
    obtain ⟨h1, h2⟩ := ih (by omega)
    rw [forUp_succ]
    generalize (forUp (fun oi (G : List T) =>
      G.set (oi * n + oi) (G.getD (oi * n + oi) 0 - 1)) c G) = B at h1 h2 ⊢
    refine ⟨by rw [List.length_set, h1], ?_⟩
    intro i j hi hj
    have e : c * n + c = c + n * c := by rw [Nat.mul_comm]; omega
    have hlt : c + n * c < n * n := by
      have := @mul_addr_lt n c n c (by omega) (by omega)
      omega
    rw [getD_set_eq, h1, e, h2 c c (by omega) (by omega), h2 i j hi hj]
    by_cases hp : c + n * c = i + n * j
    · obtain ⟨rfl, rfl⟩ := addr_inj (by omega) hi hp
      rw [if_pos ⟨rfl, by omega⟩, if_neg (by omega), if_pos ⟨rfl, by omega⟩, sub_zero]
    · rw [if_neg (fun g => hp g.1)]
      by_cases hq : i = j ∧ i < c
      · rw [if_pos hq, if_pos ⟨hq.1, by omega⟩]
      · have hq2 : ¬ (i = j ∧ i < c + 1) := by
          rintro ⟨rfl, h⟩
          by_cases hic : i = c
          · subst hic
            exact hp rfl
          · exact hq ⟨rfl, by omega⟩
        rw [if_neg hq, if_neg hq2]

theorem sum_map_range_congr (n : Nat) (f g : Nat → T)
    (h : ∀ i, i < n → f i = g i) :
    ((List.range n).map f).sum = ((List.range n).map g).sum := by
  congr 1
  apply List.map_congr_left
  intro i hi
  exact h i (List.mem_range.mp hi)

/-- With `k = n` and a zero Gram buffer, the value handed to the threshold test is the
Frobenius norm of the lower triangle of `AᵀA - I`: its square is `lower_residual_sq`. -/
theorem orthogonality_check_residual (m n : Nat) (A A_gram : List T)
    (hlen : A_gram.length = n * n) (hzero : ∀ p, A_gram.getD p 0 = 0) :
    lange_fro_sq n n
      (forUp (fun oi (G : List T) => G.set (oi * n + oi) (G.getD (oi * n + oi) 0 - 1)) n
        (blas_syrk_lower_trans n m A m A_gram n)) n = lower_residual_sq m n A := by
  obtain ⟨s1, s2⟩ := syrk_lower_spec n m A A_gram (by omega) n (le_refl _)
  have hdef : blas_syrk_lower_trans n m A m A_gram n = forUp (fun j (C : List T) =>
      forUp (fun d (C : List T) =>
          C.set ((j + d) + n * j)
            ((List.range m).map
              (fun l => A.getD (l + m * (j + d)) 0 * A.getD (l + m * j) 0)).sum)
        (n - j) C) n A_gram := rfl
  rw [← hdef] at s1 s2
  obtain ⟨d1, d2⟩ := diag_subtract_spec n (blas_syrk_lower_trans n m A m A_gram n)
    (by rw [s1]; omega) n (le_refl _)
  unfold lange_fro_sq lower_residual_sq
  apply sum_map_range_congr
  intro j hj
  apply sum_map_range_congr
  intro i hi
  rw [d2 i j hi hj, s2 i j hi hj, hzero]
  by_cases hji : j ≤ i
  · rw [if_pos ⟨hj, hji⟩, if_pos hji]
    by_cases hij : i = j
    · rw [if_pos ⟨hij, hi⟩, if_pos hij]
    · rw [if_neg (fun g => hij g.1), if_neg hij]
  · rw [if_neg (fun g => hji g.2), if_neg hji, if_neg (fun g => hji (by omega)), sub_zero]
    exact zero_pow (by decide)

end orthogonality_props

section orthogonality_main

theorem replicate_zero_getD {T : Type} [Zero T] (c p : Nat) :
    (List.replicate c (0 : T)).getD p 0 = 0 := by
  simp only [List.getD_eq_getElem?_getD, List.getElem?_replicate]
  split_ifs <;> rfl

/-- C20 as stated fails: for the `2 x 2` matrix with columns `(1, 0)` and `(9e-11, 1)`,
`k = n = 2` and a zero Gram buffer, the Frobenius norm of the full matrix `AᵀA - I`
exceeds `1e-10` (its square is `2 g^2 + g^4` with `g = 9e-11`), but `syrk` fills the lower
triangle only, the norm that is tested has square `g^2 + g^4`, and `orthogonality_check`
returns `false`. -/
theorem orthogonality_check_misses_upper_triangle :
    orthogonality_check (fun m n A lda => Real.sqrt (lange_fro_sq m n A lda)) 2 2 2
      ([1, 0, 9 / 10 ^ 11, 1] : List ℝ) (List.replicate (2 * 2) 0) = false ∧
    Real.sqrt (full_residual_sq 2 2 2 ([1, 0, 9 / 10 ^ 11, 1] : List ℝ)) > 1 / 10 ^ 10 := by
  constructor
  · have hres := orthogonality_check_residual 2 2 ([1, 0, 9 / 10 ^ 11, 1] : List ℝ)
      (List.replicate (2 * 2) 0) (List.length_replicate _ _) (replicate_zero_getD _)
    show (if Real.sqrt (lange_fro_sq 2 2
        (forUp (fun oi (G : List ℝ) => G.set (oi * 2 + oi) (G.getD (oi * 2 + oi) 0 - 1)) 2
          (blas_syrk_lower_trans 2 2 ([1, 0, 9 / 10 ^ 11, 1] : List ℝ) 2
            (List.replicate (2 * 2) 0) 2)) 2) > (1 : ℝ) / (10 : ℝ) ^ (10 : Nat)
      then true else false) = false
    rw [hres, if_neg]
    rw [gt_iff_lt, not_lt, Real.sqrt_le_iff]
    constructor
    · norm_num
    · norm_num [lower_residual_sq, gram_entry, List.range_succ]
  · rw [gt_iff_lt, Real.lt_sqrt (by norm_num)]
    norm_num [full_residual_sq, gram_entry, List.range_succ]

/-- C20 (amended): `orthogonality_check` reports the Frobenius residual of the lower
triangle.  For every `m x n` matrix `A`, with `k = n` and a zero-initialised Gram buffer of
`n * n` elements, in exact real arithmetic `orthogonality_check` returns `true` exactly
when the Frobenius norm of the lower triangle (diagonal included) of `AᵀA - I` exceeds
`1e-10`, and `false` otherwise. -/
theorem orthogonality_check_lower_triangle_norm (m n : Nat) (A : List ℝ) :
    orthogonality_check (fun m n A lda => Real.sqrt (lange_fro_sq m n A lda)) m n n A
      (List.replicate (n * n) 0) = true ↔
    Real.sqrt (lower_residual_sq m n A) > 1 / 10 ^ 10 := by
  have hres := orthogonality_check_residual m n A (List.replicate (n * n) 0)
    (List.length_replicate _ _) (replicate_zero_getD _)
  show (if Real.sqrt (lange_fro_sq n n
      (forUp (fun oi (G : List ℝ) => G.set (oi * n + oi) (G.getD (oi * n + oi) 0 - 1)) n
        (blas_syrk_lower_trans n m A m (List.replicate (n * n) 0) n)) n) >
        (1 : ℝ) / (10 : ℝ) ^ (10 : Nat)
    then true else false) = true ↔ _
  rw [hres]
  by_cases h : Real.sqrt (lower_residual_sq m n A) > 1 / 10 ^ 10
  · rw [if_pos h]
    exact ⟨fun _ => h, fun _ => rfl⟩
  · rw [if_neg h]
    exact ⟨fun g => absurd g (by decide), fun g => absurd g h⟩

end orthogonality_main

section orthogonality_leading_dimension

/-- For `k < n` the call `lange(Norm::Fro, n, n, A_gram, k)` reads the Gram buffer with
leading dimension `k`.  For the `2 x 2` identity and `k = 1` the entries read are
`A_gram[0], A_gram[1], A_gram[1], A_gram[2]`, all zero after the subtraction, so the check
returns `false`, although the full matrix `AᵀA` with `1` subtracted from its first diagonal
entry has Frobenius norm `1`. -/
theorem orthogonality_check_leading_dimension_k :
    orthogonality_check (fun m n A lda => Real.sqrt (lange_fro_sq m n A lda)) 2 2 1
      ([1, 0, 0, 1] : List ℝ) (List.replicate (2 * 2) 0) = false ∧
    full_residual_sq 2 2 1 ([1, 0, 0, 1] : List ℝ) = 1 := by
  constructor
  · norm_num [orthogonality_check, blas_syrk_lower_trans, lange_fro_sq, forUp,
      List.range_succ, List.replicate]
  · norm_num [full_residual_sq, gram_entry, List.range_succ]

end orthogonality_leading_dimension

/-! ## Termination, range and independence of `hi` for `rank_search_binary` -/

section rank_search_run_props

variable {T : Type} [LinearOrder T] [Mul T]

/-- The walk with the list of offsets returns the result of the plain walk. -/
theorem rank_search_walk_run_fst (f : Int → Int → T) (n : Int) (norm_A tau : T) :
    ∀ (fuel : Nat) (k : Int) (tr : List Int),
      (rank_search_walk_run f n norm_A tau fuel k (f n k) tr).map Prod.fst =
        rank_search_walk f n norm_A tau fuel k := by
  intro fuel
  induction fuel with
  | zero => intro k tr; rfl
  | succ fuel ih =>
    intro k tr
    simp only [rank_search_walk_run, rank_search_walk]
    split_ifs with hc
    · exact ih (k + 1) _
    · rfl

/-- The embedding with the list of offsets returns the result of `rank_search_binary`. -/
theorem rank_search_binary_run_fst (f : Int → Int → T) (n : Int) (norm_A tau : T) :
    ∀ (fuel : Nat) (lo hi k : Int) (tr : List Int),
      (rank_search_binary_run f fuel lo hi k n norm_A tau tr).map Prod.fst =
        rank_search_binary f fuel lo hi k n norm_A tau := by
  intro fuel
  induction fuel with
  | zero => intro lo hi k tr; rfl
  | succ fuel ih =>
    intro lo hi k tr
    simp only [rank_search_binary_run, rank_search_binary]
    split_ifs with hb hc
    · exact rank_search_walk_run_fst f n norm_A tau fuel k _
    · exact ih _ _ _ _
    · exact ih _ _ _ _

theorem rank_search_walk_run_mono (f : Int → Int → T) (n : Int) (norm_A tau : T) :
    ∀ (fuel : Nat) (k : Int) (v : T) (tr : List Int) (res : Int × List Int),
      rank_search_walk_run f n norm_A tau fuel k v tr = some res →
      ∀ fuel2 : Nat, fuel ≤ fuel2 →
        rank_search_walk_run f n norm_A tau fuel2 k v tr = some res := by
  intro fuel
  induction fuel with
  | zero => intro k v tr res h; simp [rank_search_walk_run] at h
  | succ fuel ih =>
    intro k v tr res h fuel2 hle
    obtain ⟨g, rfl⟩ : ∃ g, fuel2 = g + 1 := ⟨fuel2 - 1, by omega⟩
    simp only [rank_search_walk_run] at h ⊢
    split_ifs at h ⊢ with hc
    · exact ih _ _ _ _ h g (by omega)
    · exact h

theorem rank_search_binary_run_mono (f : Int → Int → T) (n : Int) (norm_A tau : T) :
    ∀ (fuel : Nat) (lo hi k : Int) (tr : List Int) (res : Int × List Int),
      rank_search_binary_run f fuel lo hi k n norm_A tau tr = some res →
      ∀ fuel2 : Nat, fuel ≤ fuel2 →
        rank_search_binary_run f fuel2 lo hi k n norm_A tau tr = some res := by
  intro fuel
  induction fuel with
  | zero => intro lo hi k tr res h; simp [rank_search_binary_run] at h
  | succ fuel ih =>
    intro lo hi k tr res h fuel2 hle
    obtain ⟨g, rfl⟩ : ∃ g, fuel2 = g + 1 := ⟨fuel2 - 1, by omega⟩
    simp only [rank_search_binary_run] at h ⊢
    split_ifs at h ⊢ with hb hc
    · exact rank_search_walk_run_mono f n norm_A tau _ _ _ _ _ h g (by omega)
    · exact ih _ _ _ _ _ h g (by omega)
    · exact ih _ _ _ _ _ h g (by omega)

/-- The walk stops no later than `k = n` and evaluates the oracle only at offsets between
its start and `n`. -/
theorem rank_search_walk_run_spec (f : Int → Int → T) (n : Int) (norm_A tau : T)
    (hlast : f n n ≤ tau * norm_A) :
    ∀ (fuel : Nat) (k : Int) (tr : List Int), 1 ≤ k → k ≤ n → n - k < fuel →
      (∀ x, x ∈ tr → 1 ≤ x ∧ x ≤ n) →
      ∃ r tr2, rank_search_walk_run f n norm_A tau fuel k (f n k) tr = some (r, tr2) ∧
        k ≤ r ∧ r ≤ n ∧ ∀ x, x ∈ tr2 → 1 ≤ x ∧ x ≤ n := by
  intro fuel
  induction fuel with
  | zero => intro k tr _ hk hf; exact absurd hf (by push_cast; omega)
  | succ fuel ih =>
    intro k tr hk1 hk hf htr
    simp only [rank_search_walk_run]
    by_cases hc : f n k > tau * norm_A
    · have hne : k ≠ n := by
        rintro rfl
        exact absurd hc (not_lt.mpr hlast)
      obtain ⟨r, tr2, hr, h1, h2, h3⟩ := ih (k + 1) (tr ++ [k + 1]) (by omega) (by omega)
        (by push_cast at hf; omega)
        (by
          intro x hx
          rw [List.mem_append, List.mem_singleton] at hx
          rcases hx with hx | hx
          · exact htr x hx
          · omega)
      exact ⟨r, tr2, by rw [if_pos hc]; exact hr, by omega, h2, h3⟩
    · exact ⟨k, tr, by rw [if_neg hc], le_refl _, hk, htr⟩

/-- The search terminates, evaluates the oracle only at offsets in `[1, n]` and returns a
value in `[1, n]`. -/
theorem rank_search_binary_run_spec (f : Int → Int → T) (n : Int) (norm_A tau : T)
    (hlast : f n n ≤ tau * norm_A) :
    ∀ (fuel : Nat) (lo hi k : Int) (tr : List Int), 0 ≤ lo → lo < k → k + (k - lo) ≤ n →
      (k - lo) + (n - lo) + 1 < fuel → (∀ x, x ∈ tr → 1 ≤ x ∧ x ≤ n) →
      ∃ r tr2, rank_search_binary_run f fuel lo hi k n norm_A tau tr = some (r, tr2) ∧
        lo < r ∧ r ≤ n ∧ ∀ x, x ∈ tr2 → 1 ≤ x ∧ x ≤ n := by
  intro fuel
  induction fuel with
  | zero => intro lo hi k tr h0 h1 h2 hf; exact absurd hf (by push_cast; omega)
  | succ fuel ih =>
    intro lo hi k tr h0 h1 h2 hf htr
    have hdiv : (k - lo).tdiv 2 = (k - lo) / 2 := Int.tdiv_eq_ediv (by omega) (by omega)
    have htr2 : ∀ x, x ∈ tr ++ [k] → 1 ≤ x ∧ x ≤ n := by
      intro x hx
      rw [List.mem_append, List.mem_singleton] at hx
      rcases hx with hx | hx
      · exact htr x hx
      · omega
    simp only [rank_search_binary_run, hdiv]
    push_cast at hf
    by_cases hb : (k - lo) / 2 = 0
    · obtain ⟨r, tr2, hr, h3, h4, h5⟩ :=
        rank_search_walk_run_spec f n norm_A tau hlast fuel k (tr ++ [k]) (by omega)
          (by omega) (by omega) htr2
      exact ⟨r, tr2, by rw [if_pos hb]; exact hr, by omega, h4, h5⟩
    · by_cases hc : f n k > tau * norm_A
      · obtain ⟨r, tr2, hr, h3, h4, h5⟩ :=
          ih k hi (k + (k - lo) / 2) (tr ++ [k]) (by omega) (by omega) (by omega) (by omega)
            htr2
        exact ⟨r, tr2, by rw [if_neg hb, if_pos hc]; exact hr, by omega, h4, h5⟩
      · obtain ⟨r, tr2, hr, h3, h4, h5⟩ :=
          ih lo k (lo + (k - lo) / 2) (tr ++ [k]) (by omega) (by omega) (by omega) (by omega)
            htr2
        exact ⟨r, tr2, by rw [if_neg hb, if_neg hc]; exact hr, h3, h4, h5⟩

/-- C24: `rank_search_binary` terminates in range.  For every `n ≥ 2`, every threshold and
every oracle whose value at offset `n` is at most the threshold, the call
`rank_search_binary(0, n, n/2, n, ...)` terminates (any fuel of at least `2 n + 2` is
enough), every offset at which the oracle is evaluated lies in `[1, n]`, and the result
lies in `[1, n]`. -/
theorem rank_search_binary_terminates_in_range (lange_sub : Int → Int → T) (n : Int)
    (norm_A tau_trunc : T) (hn : 2 ≤ n) (hlast : lange_sub n n ≤ tau_trunc * norm_A) :
    ∃ (r : Int) (offsets : List Int),
      (∀ fuel : Nat, 2 * n + 2 ≤ (fuel : Int) →
        rank_search_binary_run lange_sub fuel 0 n (n.tdiv 2) n norm_A tau_trunc [] =
          some (r, offsets) ∧
        rank_search_binary lange_sub fuel 0 n (n.tdiv 2) n norm_A tau_trunc = some r) ∧
      (∀ x, x ∈ offsets → 1 ≤ x ∧ x ≤ n) ∧ 1 ≤ r ∧ r ≤ n := by
  have hdiv : n.tdiv 2 = n / 2 := Int.tdiv_eq_ediv (by omega) (by omega)
  obtain ⟨r, tr, hr, h3, h4, h5⟩ :=
    rank_search_binary_run_spec lange_sub n norm_A tau_trunc hlast (2 * n + 2).toNat 0 n
      (n / 2) [] (le_refl _) (by omega) (by omega)
      (by rw [Int.toNat_of_nonneg (by omega)]; omega)
      (fun x hx => absurd hx (List.not_mem_nil x))
  refine ⟨r, tr, ?_, h5, by omega, h4⟩
  intro fuel hfuel
  have hrun := rank_search_binary_run_mono lange_sub n norm_A tau_trunc _ _ _ _ _ _ hr fuel
    (by omega)
  rw [hdiv]
  refine ⟨hrun, ?_⟩
  rw [← rank_search_binary_run_fst lange_sub n norm_A tau_trunc fuel 0 n (n / 2) [], hrun]
  rfl

/-- C26: `rank_search_binary` ignores its upper bound.  For all `lo`, `k`, `n`, `norm_A`,
`tau_trunc`, every oracle and any two values `hi` and `hi2`, the two calls evaluate the
oracle at the same offsets and return the same result (and one terminates within a given
fuel exactly when the other does). -/
theorem rank_search_binary_ignores_hi (lange_sub : Int → Int → T) (fuel : Nat)
    (lo hi hi2 k n : Int) (norm_A tau_trunc : T) (offsets : List Int) :
    rank_search_binary_run lange_sub fuel lo hi k n norm_A tau_trunc offsets =
      rank_search_binary_run lange_sub fuel lo hi2 k n norm_A tau_trunc offsets ∧
    rank_search_binary lange_sub fuel lo hi k n norm_A tau_trunc =
      rank_search_binary lange_sub fuel lo hi2 k n norm_A tau_trunc := by
  have hrun : ∀ (fuel : Nat) (lo hi hi2 k : Int) (tr : List Int),
      rank_search_binary_run lange_sub fuel lo hi k n norm_A tau_trunc tr =
        rank_search_binary_run lange_sub fuel lo hi2 k n norm_A tau_trunc tr := by
    intro fuel
    induction fuel with
    | zero => intro lo hi hi2 k tr; rfl
    | succ fuel ih =>
      intro lo hi hi2 k tr
      simp only [rank_search_binary_run]
      split_ifs with hb hc
      · rfl
      · exact ih _ _ _ _ _
      · exact ih _ _ _ _ _
  refine ⟨hrun fuel lo hi hi2 k offsets, ?_⟩
  rw [← rank_search_binary_run_fst lange_sub n norm_A tau_trunc fuel lo hi k [],
    ← rank_search_binary_run_fst lange_sub n norm_A tau_trunc fuel lo hi2 k [],
    hrun fuel lo hi hi2 k []]

theorem rank_search_binary_terminates_in_range_witness :
    (2 : Int) ≤ 6 ∧
    (fun (n k : Int) => if k = 1 ∨ k = 4 ∨ k = n then (0 : Int) else 5) 6 6 ≤ 1 * 1 ∧
    rank_search_binary_run (fun (n k : Int) => if k = 1 ∨ k = 4 ∨ k = n then (0 : Int) else 5)
      14 0 6 (Int.tdiv 6 2) 6 1 1 [] = some (4, [3, 4]) ∧
    ∃ (r : Int) (offsets : List Int),
      (∀ fuel : Nat, 2 * 6 + 2 ≤ (fuel : Int) →
        rank_search_binary_run
          (fun (n k : Int) => if k = 1 ∨ k = 4 ∨ k = n then (0 : Int) else 5)
          fuel 0 6 (Int.tdiv 6 2) 6 1 1 [] = some (r, offsets) ∧
        rank_search_binary (fun (n k : Int) => if k = 1 ∨ k = 4 ∨ k = n then (0 : Int) else 5)
          fuel 0 6 (Int.tdiv 6 2) 6 1 1 = some r) ∧
      (∀ x, x ∈ offsets → 1 ≤ x ∧ x ≤ 6) ∧ 1 ≤ r ∧ r ≤ 6 :=
  ⟨by decide, by decide, by decide,
    rank_search_binary_terminates_in_range
      (fun (n k : Int) => if k = 1 ∨ k = 4 ∨ k = n then (0 : Int) else 5) 6 1 1
      (by decide) (by decide)⟩

end rank_search_run_props

/-! ## The diagonal factor of the bad-CholQR generator -/

section bad_cholqr_props

variable {T : Type} [Field T]

/-- The first `k` entries of the profile of `gen_bad_cholqr_mat` are ones. -/
theorem gen_bad_cholqr_mat_s_head (exp log : T → T) (pow : T → T → T) (n k : Nat) (cond : T)
    (hkn : k ≤ n) (t : Nat) (ht : t < k) :
    (gen_bad_cholqr_mat_s exp log pow n k cond).getD t 0 = 1 := by
  have h := (profile_loop_spec
    (fun cnt => (exp (log (pow 10 8 / cond) / (((1 - ((n : Int) - (k : Int)) : Int) : T))) /
        pow 10 8) *
      exp (cnt * -(log (pow 10 8 / cond) / (((1 - ((n : Int) - (k : Int)) : Int) : T)))))
    k (n - k) (List.replicate n 1)).2.2 t
  show (forUp (fun c (st : List T × T) =>
      (st.1.set (k + c)
        ((exp (log (pow 10 8 / cond) / (((1 - ((n : Int) - (k : Int)) : Int) : T))) /
            pow 10 8) *
          exp ((st.2 + 1) *
            -(log (pow 10 8 / cond) / (((1 - ((n : Int) - (k : Int)) : Int) : T))))),
        st.2 + 1)) (n - k) (List.replicate n 1, 0)).1.getD t 0 = 1
  rw [h, if_neg (by omega)]
  simp [List.getD_eq_getElem?_getD, List.getElem?_replicate, show t < n by omega]

/-- Every entry of the buffer `S` of `gen_bad_cholqr_mat`: one at the multiples of `k + 1`
below `k * (k + 1)`, zero elsewhere. -/
theorem gen_bad_cholqr_mat_S_getD (exp log : T → T) (pow : T → T → T) (n k : Nat) (cond : T)
    (hkn : k ≤ n) (p : Nat) :
    (gen_bad_cholqr_mat_S exp log pow n k cond).getD p 0 =
      if p % (k + 1) = 0 ∧ p / (k + 1) < k ∧ p < n * n then 1 else 0 := by
  show (blas_copy_to k (gen_bad_cholqr_mat_s exp log pow n k cond) 0 1
    (List.replicate (n * n) 0) 0 (k + 1)).getD p 0 = _
  rw [blas_copy_to_getD k _ 0 1 _ 0 (k + 1) (by omega), replicate_zero_getD,
    List.length_replicate, Nat.sub_zero, Nat.zero_add, Nat.mul_one]
  by_cases h : p % (k + 1) = 0 ∧ p / (k + 1) < k ∧ p < n * n
  · rw [if_pos ⟨Nat.zero_le _, h⟩, if_pos h,
      gen_bad_cholqr_mat_s_head exp log pow n k cond hkn _ h.2.1]
  · rw [if_neg (fun g => h g.2), if_neg h]

theorem gen_bad_cholqr_mat_S_length (exp log : T → T) (pow : T → T → T) (n k : Nat)
    (cond : T) : (gen_bad_cholqr_mat_S exp log pow n k cond).length = n * n := by
  show (diag k k _ k (List.replicate (n * n) 0)).length = _
  rw [diag_length, List.length_replicate]

/-- C27: the output of the bad-CholQR builder does not depend on `cond`.  For every `n`,
every `k` with `1 ≤ k ≤ n` and every two condition numbers `cond`, `cond2`, the diagonal
factor `S` that `gen_bad_cholqr_mat` hands to the output or to `gen_mat` is the same for
both, and it has `S[i + k * i] = 1` for every `i < k` and `0` at every other index below
`k * k`: only the first `k` (all-one) profile entries are placed on the diagonal. -/
theorem gen_bad_cholqr_mat_S_ignores_cond (exp log : T → T) (pow : T → T → T) (n k : Nat)
    (cond cond2 : T) (hk : 1 ≤ k) (hkn : k ≤ n) :
    gen_bad_cholqr_mat_S exp log pow n k cond = gen_bad_cholqr_mat_S exp log pow n k cond2 ∧
    ∀ i j, i < k → j < k →
      (gen_bad_cholqr_mat_S exp log pow n k cond)[i + k * j]? =
        some (if i = j then 1 else 0) := by
  constructor
  · apply list_eq_of_getD
    · rw [gen_bad_cholqr_mat_S_length, gen_bad_cholqr_mat_S_length]
    · intro p _
      rw [gen_bad_cholqr_mat_S_getD exp log pow n k cond hkn,
        gen_bad_cholqr_mat_S_getD exp log pow n k cond2 hkn]
  · intro i j hi hj
    have hkk : k * k ≤ n * n := Nat.mul_le_mul hkn hkn
    have hp : i + k * j < n * n := by
      have := @mul_addr_lt k j k i hi hj
      omega
    rw [List.getElem?_eq_getElem (by rw [gen_bad_cholqr_mat_S_length]; exact hp),
      ← List.getD_eq_getElem _ 0 (by rw [gen_bad_cholqr_mat_S_length]; exact hp),
      gen_bad_cholqr_mat_S_getD exp log pow n k cond hkn]
    congr 1
    by_cases hij : i = j
    · have e : i + k * j = j * (k + 1) := by rw [hij]; ring
      rw [if_pos hij, e, if_pos ⟨Nat.mul_mod_left j (k + 1),
        by rw [Nat.mul_div_cancel j (by omega)]; exact hj, by rw [← e]; exact hp⟩]
    · rw [if_neg hij]
      have hmod : (i + k * j) % (k + 1) ≠ 0 := by
        rcases Nat.lt_or_gt_of_ne hij with h | h
        · obtain ⟨j2, rfl⟩ : ∃ j2, j = j2 + 1 := ⟨j - 1, by omega⟩
          have e : i + k * (j2 + 1) = (k + i - j2) + (k + 1) * j2 := by
            have h1 : k * (j2 + 1) = k * j2 + k := Nat.mul_succ k j2
            have h2 : (k + 1) * j2 = k * j2 + j2 := Nat.succ_mul k j2
            omega
          rw [e, Nat.add_mul_mod_self_left, Nat.mod_eq_of_lt (by omega)]
          omega
        · have e : i + k * j = (i - j) + (k + 1) * j := by
            have h2 : (k + 1) * j = k * j + j := Nat.succ_mul k j
            omega
          rw [e, Nat.add_mul_mod_self_left, Nat.mod_eq_of_lt (by omega)]
          omega
      rw [if_neg (fun g => hmod g.1)]

theorem gen_bad_cholqr_mat_S_ignores_cond_witness :
    1 ≤ 2 ∧ 2 ≤ 3 ∧
    gen_bad_cholqr_mat_S (fun x => x) (fun x => x) (fun x _ => x) 3 2 (5 : ℚ)
      = [1, 0, 0, 1, 0, 0, 0, 0, 0] ∧
    (gen_bad_cholqr_mat_S (fun x => x) (fun x => x) (fun x _ => x) 3 2 (5 : ℚ) =
        gen_bad_cholqr_mat_S (fun x => x) (fun x => x) (fun x _ => x) 3 2 (7 : ℚ) ∧
      ∀ i j, i < 2 → j < 2 →
        (gen_bad_cholqr_mat_S (fun x => x) (fun x => x) (fun x _ => x) 3 2 (5 : ℚ))[
            i + 2 * j]? = some (if i = j then 1 else 0)) :=
  ⟨by decide, by decide,
    by norm_num [gen_bad_cholqr_mat_S, gen_bad_cholqr_mat_s, diag, blas_copy_to, forUp,
      List.replicate],
    gen_bad_cholqr_mat_S_ignores_cond (fun x => x) (fun x => x) (fun x _ => x) 3 2 5 7
      (by decide) (by decide)⟩

end bad_cholqr_props

/-! ## Properties of `mat_gen` -/

section mat_gen_props

variable {T : Type} [LinearOrderedField T]

/-- C21 (fails in the code): in the `spiked` branch with `check_true_rank` set the rank
measured by `rank_check` is stored in the local `k` of `mat_gen` and nowhere else, so what
the caller can observe after `mat_gen(info, A, state)` is the same with the flag cleared and
with any other singular values and machine epsilon behind `rank_check`: the measured rank
is not reported. -/
theorem mat_gen_discards_measured_rank (be : mat_gen_backend T) (info : mat_gen_info T)
    (A : List T) (s2 : Nat → Nat → List T → List T) (eps2 : T) :
    (mat_gen_locals be { info with m_type := mat_type.spiked, check_true_rank := true }
        A).2.2.1 =
      rank_check be.cond_num_check_s be.eps info.rows info.cols
        (be.gen_spiked_mat info.rows info.cols A info.scaling) ∧
    mat_gen be info A =
      mat_gen { be with cond_num_check_s := s2, eps := eps2 }
        { info with check_true_rank := false } A := by
  refine ⟨rfl, ?_⟩
  obtain ⟨rows, cols, rank, ty, cond_num, scaling, dg, flag⟩ := info
  cases ty <;> rfl

end mat_gen_props

/-! ## `col_swap` with more indices than columns -/

section col_swap_unchecked

/-- C22 (fails in the code): the test `if (k > n)` of `col_swap` has an empty body, so a
call with `k > n` is not rejected.  `col_swap(1, 1, 2, A, idx)` with `A = {10, 20}` and
`idx = {1, 1}` has `k = 2 > n = 1`; it runs both passes of the loop, the second of which
exchanges `A[1]` with `A[0]`, and returns with `A = {20, 10}`. -/
theorem col_swap_runs_with_k_above_n :
    col_swap 1 1 2 ([10, 20] : List Int) [1, 1] = [20, 10] ∧
      col_swap 1 1 2 ([10, 20] : List Int) [1, 1] ≠ [10, 20] := by
  decide

end col_swap_unchecked

/-! ## Properties of `pcg` -/

section pcg_props

/-- C23 (fails in the code): `pcg` with `m = 2`, `n = 1`, `A = (1, 0)ᵀ`, `b = (1, 1)`,
`c = (0)`, `delta = 0`, `M = (1)`, `x0 = (0)` and `y = (7, 7)` on entry returns `x = (1)`
and `y = (0, 7)`, while `b - A x = (0, 1)`: the entry `y[1]` keeps what `y` held, since
only `n` entries of `b` are copied into `y`. -/
theorem pcg_recovers_only_first_n_entries_of_y :
    (pcg 2 1 ([1, 0] : List ℚ) 2 [1, 1] [0] 0 [-1, -1] (1 / 2) 1 [1] 1 [0] [0] [7, 7]).1
        = [1] ∧
      (pcg 2 1 ([1, 0] : List ℚ) 2 [1, 1] [0] 0 [-1, -1] (1 / 2) 1 [1] 1 [0] [0] [7, 7]).2.1
        = [0, 7] ∧
      blas_gemv_notrans 2 1 (-1) ([1, 0] : List ℚ) 2 [1] 1 [1, 1] = [0, 1] := by
  decide!

/-- C25 (fails in the code): `pcg` on the 2 x 2 system `A = diag(1, 2)`, `b = (1, 1)`,
`c = 0`, `delta = 0`, `M = I`, `x0 = 0`, `tol = 1/100` with a `resid_vec` of size 1 leaves
the loop because `iter` reached the limit 1 and then stores into `resid_vec` at index 1,
which is not smaller than the size; with an empty `resid_vec` every call stores at
index 0. -/
theorem pcg_stores_resid_vec_at_iteration_limit :
    (pcg 2 2 ([1, 0, 0, 2] : List ℚ) 2 [1, 1] [0, 0] 0 [-1] (1 / 100) 2 [1, 0, 0, 1] 2
        [0, 0] [0, 0] [0, 0]).2.2.2 = [0, 1] ∧
      ([-1] : List ℚ).length = 1 ∧
      ∀ (m n : Nat) (A : List ℚ) (lda : Nat) (b c : List ℚ) (delta tol : ℚ) (k : Nat)
        (M : List ℚ) (ldm : Nat) (x0 x y : List ℚ),
        (pcg m n A lda b c delta [] tol k M ldm x0 x y).2.2.2 = [0] := by
  refine ⟨by decide!, rfl, ?_⟩
  intros
  rfl

end pcg_props

end util
end RandLAPACK
